import Mathlib

/-!
# OMFL parser: embedding of `src/lib/parser.cpp` and `src/lib/value.cpp`

A `std::string` is a list of characters, a `std::vector` a list, the
`std::map<std::string, Value>` of a section an association list with unique keys
(`find` reads the entry of a key, `operator[]` assignment replaces it in place or
appends it).  A C++ function that mutates `*this` returns the new state of `*this`.
A pointer into the value tree is the list of keys leading to the node.
The standard-library conversions may throw `std::out_of_range`; nothing in the
repository catches it, so every function that reaches them returns in `Except Thrown`.
`std::stof` is a library function whose range behaviour is implementation-defined:
the development is parametric in it (`stof`).
-/

namespace omfl

/-- A `std::string`. -/
abbrev Str := List Char

/-- Exceptions of the C++ standard library that leave `parse`. -/
inductive Thrown
  | out_of_range
  deriving DecidableEq, Repr

/-- The payload of a `float`: an IEEE binary32, given by its bit pattern. -/
structure Binary32 where
  bits : Nat
  deriving DecidableEq, Repr

/-- The type of `std::stof` restricted to what `ParseValue` uses. -/
abbrev StofFn := Str → Except Thrown Binary32

/-- The class `Value` of value.h: `invalid` is `data_ == std::nullopt`, the other
constructors are the alternatives of `ValueVariant`. -/
inductive Value
  | invalid
  | int (i : Int)
  | float (f : Binary32)
  | bool (b : Bool)
  | string (s : Str)
  | array (xs : List Value)
  | sect (m : List (Str × Value))

/-! ## value.cpp -/

/-- `Value::CreateSection`. -/
def Value.CreateSection : Value := .sect []

def Value.IsInt : Value → Bool
  | .int _ => true
  | _ => false

def Value.IsBool : Value → Bool
  | .bool _ => true
  | _ => false

def Value.IsFloat : Value → Bool
  | .float _ => true
  | _ => false

def Value.IsString : Value → Bool
  | .string _ => true
  | _ => false

def Value.IsArray : Value → Bool
  | .array _ => true
  | _ => false

def Value.IsSection : Value → Bool
  | .sect _ => true
  | _ => false

def Value.IsInvalid : Value → Bool
  | .invalid => true
  | _ => false

/-- `std::map::find`: the entry of `key`, if any. -/
def mapFind (key : Str) : List (Str × Value) → Option Value
  | [] => none
  | (k, v) :: rest => if k = key then some v else mapFind key rest

/-- `section[key] = value` on a `std::map`: replace the entry of `key`, or add one. -/
def mapSet (key : Str) (value : Value) : List (Str × Value) → List (Str × Value)
  | [] => [(key, value)]
  | (k, v) :: rest => if k = key then (k, value) :: rest else (k, v) :: mapSet key value rest

/-- `Value::operator[]`. -/
def Value.index (self : Value) (index : Nat) : Value :=
  match self with
  | .array arr => if h : index < arr.length then arr.get ⟨index, h⟩ else .invalid
  | _ => .invalid

/-- `Value::AsInt`. -/
def Value.AsInt : Value → Int
  | .int i => i
  | _ => 0

/-- `Value::AsFloat`; `0.0f` has all bits zero. -/
def Value.AsFloat : Value → Binary32
  | .float f => f
  | _ => ⟨0⟩

/-- `Value::AsBool`. -/
def Value.AsBool : Value → Bool
  | .bool b => b
  | _ => false

/-- `Value::AsString`. -/
def Value.AsString : Value → Str
  | .string s => s
  | _ => []

/-- `Value::AsArray`. -/
def Value.AsArray : Value → List Value
  | .array xs => xs
  | _ => []

/-- `Value::GetRef`: `none` is `nullptr`. -/
def Value.GetRef (self : Value) (key : Str) : Option Value :=
  match self with
  | .sect sectionMap => mapFind key sectionMap
  | _ => none

/-- `Value::Get`. -/
def Value.Get (self : Value) (key : Str) : Value :=
  match self.GetRef key with
  | some ref => ref
  | none => .invalid

/-- The map held by `*this` after the first statement of `SetKeyValue` and of
`GetOrCreateSection`: `if (!IsSection()) data_ = std::map<std::string, Value>()`. -/
def Value.asMap : Value → List (Str × Value)
  | .sect m => m
  | _ => []

/-- `Value::SetKeyValue`: the state of `*this` after the call. -/
def Value.SetKeyValue (self : Value) (key : Str) (value : Value) : Value :=
  .sect (mapSet key value self.asMap)

/-- `Value::GetOrCreateSection`: the map held by `*this` after the call, and the
value of the entry `section[key]` the returned reference points to. -/
def Value.GetOrCreateSection (self : Value) (key : Str) : List (Str × Value) × Value :=
  match mapFind key self.asMap with
  | none => (mapSet key Value.CreateSection self.asMap, Value.CreateSection)
  | some child => (self.asMap, child)

/-- The value of `*p` after `p = &v; for (part : parts) p = &p->GetOrCreateSection(part);`
(parser.cpp 357-360 and 377-380). -/
def resolve : List Str → Value → Value
  | [], v => v
  | part :: rest, v => resolve rest (v.GetOrCreateSection part).2

/-- The state of `v` after `p = &v; for (part : parts) p = &p->GetOrCreateSection(part);`
followed by the mutation `f` of `*p`: every reference returned on the way points into
the map of the node before it, so the mutated entry is written back along the path. -/
def update (f : Value → Value) : List Str → Value → Value
  | [], v => f v
  | part :: rest, v =>
    .sect (mapSet part (update f rest (v.GetOrCreateSection part).2) (v.GetOrCreateSection part).1)

/-! ## parser.cpp: text helpers -/

def IsSpace (symbol : Char) : Bool := symbol = ' '

/-- The first loop of `Trim`: the text from index `left` on. -/
def skipSpaces : Str → Str
  | [] => []
  | c :: cs => if IsSpace c then skipSpaces cs else c :: cs

/-- `Trim`: the second loop drops the spaces at the end of what the first one left. -/
def Trim (raw_line : Str) : Str :=
  (skipSpaces (skipSpaces raw_line).reverse).reverse

/-- The loop of `RemoveComment`, from a given `in_string`. -/
def RemoveCommentFrom : Bool → Str → Str
  | _, [] => []
  | in_string, c :: cs =>
    if c = '"' then c :: RemoveCommentFrom (!in_string) cs
    else if c = '#' ∧ in_string = false then []
    else c :: RemoveCommentFrom in_string cs

def RemoveComment (raw_line : Str) : Str := RemoveCommentFrom false raw_line

/-- The loop of `SplitLines` with `curr` as accumulated so far; the result is what is
pushed to `out` from here on. -/
def SplitLinesFrom : Str → Str → List Str
  | curr, [] => [curr]
  | curr, c :: cs =>
    if c = '\n' then curr :: SplitLinesFrom [] cs else SplitLinesFrom (curr ++ [c]) cs

def SplitLines (lines : Str) : List Str := SplitLinesFrom [] lines

/-- The loop of `SplitPath` with `curr` as accumulated so far. -/
def SplitPathFrom : Str → Str → List Str
  | curr, [] => if curr.isEmpty then [] else [curr]
  | curr, c :: cs =>
    if c = '.' then
      if !curr.isEmpty then curr :: SplitPathFrom [] cs else SplitPathFrom curr cs
    else SplitPathFrom (curr ++ [c]) cs

def SplitPath (path : Str) : List Str := SplitPathFrom [] path

/-- `std::string::substr(pos, n)` for `pos <= size()`. -/
def substr (s : Str) (pos n : Nat) : Str := (s.drop pos).take n

/-- `std::string::find(c, pos)`: `none` is `npos`. -/
def find (c : Char) : Str → Nat → Option Nat
  | [], _ => none
  | x :: xs, 0 => if x = c then some 0 else (find c xs 0).map (· + 1)
  | _ :: xs, pos + 1 => (find c xs pos).map (· + 1)

def IsSectionLine (line : Str) : Bool :=
  decide (line.length ≥ 2) && decide (line.head? = some '[') && decide (line.getLast? = some ']')

def IsKeyValueLine (line : Str) : Bool := (find '=' line 0).isSome

def ExtractSectionName (line : Str) : Str :=
  if !IsSectionLine line then [] else substr line 1 (line.length - 2)

/-- The test of the loop body of `IsValidKey`. -/
def IsKeyChar (c : Char) : Bool :=
  (decide ('a' ≤ c) && decide (c ≤ 'z')) || (decide ('A' ≤ c) && decide (c ≤ 'Z')) ||
    (decide ('0' ≤ c) && decide (c ≤ '9')) || decide (c = '-') || decide (c = '_')

def IsValidKey (key : Str) : Bool :=
  if key.isEmpty then false else key.all IsKeyChar

/-! ## parser.cpp: the literal recognizer -/

def IsBoolValue (value_str : Str) : Bool :=
  decide (value_str = "true".toList) || decide (value_str = "false".toList)

def IsStringValue (value_str : Str) : Bool :=
  if value_str.length < 2 ∨ value_str.head? ≠ some '"' ∨ value_str.getLast? ≠ some '"' then false
  else
    match find '"' value_str 1 with
    | some pos => if pos ≠ value_str.length - 1 then false else true
    | none => true

def IsArrayValue (value_str : Str) : Bool :=
  decide (value_str.length ≥ 2) && decide (value_str.head? = some '[') &&
    decide (value_str.getLast? = some ']')

/-- The test `value_str[i] < '0' || value_str[i] > '9'`, negated. -/
def IsDigit (c : Char) : Bool := decide ('0' ≤ c) && decide (c ≤ '9')

/-- The value of `start` in `IsIntValue` and `IsFloatValue`. -/
def signLength (value_str : Str) : Nat :=
  if value_str.head? = some '+' ∨ value_str.head? = some '-' then 1 else 0

def IsIntValue (value_str : Str) : Bool :=
  if value_str.isEmpty then false
  else if signLength value_str = 1 ∧ value_str.length = 1 then false
  else (value_str.drop (signLength value_str)).all IsDigit

def IsFloatValue (value_str : Str) : Bool :=
  if value_str.isEmpty then false
  else if signLength value_str = 1 ∧ value_str.length = 1 then false
  else
    match find '.' value_str (signLength value_str) with
    | none => false
    | some dot_pos =>
      if dot_pos = signLength value_str then false
      else if dot_pos = value_str.length - 1 then false
      else
        (substr value_str (signLength value_str) (dot_pos - signLength value_str)).all IsDigit &&
          (value_str.drop (dot_pos + 1)).all IsDigit

/-- The number a run of decimal digits denotes. -/
def digitsValue (digits : Str) : Nat :=
  digits.foldl (fun acc c => 10 * acc + (c.toNat - '0'.toNat)) 0

/-- `std::stoi` on a token of the integer grammar (optional sign, then digits): the
number it denotes, and `std::out_of_range` when that is not an `int` (32 bits). -/
def stoi (value_str : Str) : Except Thrown Int :=
  let magnitude : Int := digitsValue (value_str.drop (signLength value_str))
  let number : Int := if value_str.head? = some '-' then -magnitude else magnitude
  if number < -2147483648 ∨ 2147483647 < number then .error .out_of_range else .ok number

/-- The integer nearest to `num / den`, ties to the even one. -/
def roundHalfEven (num den : Nat) : Nat :=
  if 2 * (num % den) < den then num / den
  else if den < 2 * (num % den) then num / den + 1
  else if (num / den) % 2 = 0 then num / den
  else num / den + 1

/-- Whether `2 ^ e ≤ num / den`. -/
def atLeastPow2 (num den : Nat) (e : Int) : Bool :=
  if 0 ≤ e then decide (den * 2 ^ e.toNat ≤ num) else decide (den ≤ num * 2 ^ (-e).toNat)

/-- One `std::stof` for running the embedding on concrete inputs: the binary32 nearest
to the decimal (ties to even, subnormals included), and `std::out_of_range` when that
is beyond the largest finite binary32.  Libraries also differ (some report underflow as
`std::out_of_range` too), which is why the theorems are stated for every `stof`. -/
def stofNearest : StofFn := fun value_str =>
  let body := value_str.drop (signLength value_str)
  let fraction := (body.dropWhile (· ≠ '.')).drop 1
  let num := digitsValue (body.takeWhile (· ≠ '.') ++ fraction)
  let den := 10 ^ fraction.length
  let sign := if value_str.head? = some '-' then 2 ^ 31 else 0
  if num = 0 then .ok ⟨sign⟩
  else
    let guess : Int := (Nat.log2 num : Int) - (Nat.log2 den : Int)
    let floorLog : Int := if atLeastPow2 num den guess then guess else guess - 1
    let e : Int := max floorLog (-126)
    let m := if e ≤ 23 then roundHalfEven (num * 2 ^ (23 - e).toNat) den
             else roundHalfEven num (den * 2 ^ (e - 23).toNat)
    let e2 : Int := if m = 2 ^ 24 then e + 1 else e
    let m2 := if m = 2 ^ 24 then 2 ^ 23 else m
    if 127 < e2 then .error .out_of_range
    else if m2 < 2 ^ 23 then .ok ⟨sign + m2⟩
    else .ok ⟨sign + (e2 + 127).toNat * 2 ^ 23 + (m2 - 2 ^ 23)⟩

/-- The local variables of the loop of `ParseArrayElements`.  `bracket_level` is an
`int` in the source; a text needs more than 2^31 brackets to take it out of range, and
the embedding lets it range over all integers. -/
structure ArrayScan where
  elements : List Value
  curr_element : Str
  bracket_level : Int
  in_string : Bool

/-- The loop of `ParseArrayElements` (parser.cpp 203-232) over the rest of `content`,
with `ParseValue` passed as `pv`; `none` is the `return std::vector<Value>()` inside
the loop. -/
def ParseArrayLoop (pv : Str → Except Thrown Value) :
    Str → ArrayScan → Except Thrown (Option ArrayScan)
  | [], st => .ok (some st)
  | c :: cs, st =>
    if c = '"' then
      ParseArrayLoop pv cs
        { st with in_string := !st.in_string, curr_element := st.curr_element ++ [c] }
    else if st.in_string = false then
      if c = '[' then
        ParseArrayLoop pv cs
          { st with bracket_level := st.bracket_level + 1, curr_element := st.curr_element ++ [c] }
      else if c = ']' then
        ParseArrayLoop pv cs
          { st with bracket_level := st.bracket_level - 1, curr_element := st.curr_element ++ [c] }
      else if c = ',' ∧ st.bracket_level = 0 then
        if !(Trim st.curr_element).isEmpty then
          match pv (Trim st.curr_element) with
          | .error e => .error e
          | .ok parsed_elem =>
            if parsed_elem.IsInvalid then .ok none
            else
              ParseArrayLoop pv cs
                { st with elements := st.elements ++ [parsed_elem], curr_element := [] }
        else ParseArrayLoop pv cs { st with curr_element := [] }
      else ParseArrayLoop pv cs { st with curr_element := st.curr_element ++ [c] }
    else ParseArrayLoop pv cs { st with curr_element := st.curr_element ++ [c] }

/-- What `ParseArrayElements` does after its loop (parser.cpp 234-247), `st` holding the
local variables the loop leaves. -/
def ParseArrayTail (pv : Str → Except Thrown Value) (st : ArrayScan) :
    Except Thrown (List Value) :=
  if st.bracket_level ≠ 0 ∨ st.in_string = true then .ok []
  else if !(Trim st.curr_element).isEmpty then
    match pv (Trim st.curr_element) with
    | .error e => .error e
    | .ok parsed_elem =>
      if parsed_elem.IsInvalid then .ok [] else .ok (st.elements ++ [parsed_elem])
  else .ok st.elements

/-- `ParseArrayElements`, with `ParseValue` passed as `pv`. -/
def ParseArrayElements (pv : Str → Except Thrown Value) (value_str : Str) :
    Except Thrown (List Value) :=
  let content := Trim (substr value_str 1 (value_str.length - 2))
  if content.isEmpty then .ok []
  else
    match ParseArrayLoop pv content ⟨[], [], 0, false⟩ with
    | .error e => .error e
    | .ok none => .ok []
    | .ok (some st) => ParseArrayTail pv st

/-- The body of `ParseValue`, with the recursive call (through `ParseArrayElements`)
passed as `pv`. -/
def ParseValueBody (stof : StofFn) (pv : Str → Except Thrown Value) (value_str : Str) :
    Except Thrown Value :=
  if IsStringValue value_str then .ok (.string (substr value_str 1 (value_str.length - 2)))
  else if IsBoolValue value_str then .ok (.bool (decide (value_str = "true".toList)))
  else if IsArrayValue value_str then
    match ParseArrayElements pv value_str with
    | .error e => .error e
    | .ok elements =>
      if elements.isEmpty then
        if (Trim (substr value_str 1 (value_str.length - 2))).isEmpty then .ok (.array [])
        else .ok .invalid
      else .ok (.array elements)
  else if IsFloatValue value_str then
    match stof value_str with
    | .error e => .error e
    | .ok f => .ok (.float f)
  else if IsIntValue value_str then
    match stoi value_str with
    | .error e => .error e
    | .ok i => .ok (.int i)
  else .ok .invalid

/-- `ParseValue` unrolled to a recursion depth: the elements of an array literal are
classified at depth one less.  Depth 0 is never reached from `ParseValue`
(`ParseValueDepth_eq`). -/
def ParseValueDepth (stof : StofFn) : Nat → Str → Except Thrown Value
  | 0, _ => .ok .invalid
  | depth + 1, value_str => ParseValueBody stof (ParseValueDepth stof depth) value_str

/-- `ParseValue`: an element of an array literal is shorter than the literal, so the
length of the token bounds the recursion depth. -/
def ParseValue (stof : StofFn) (value_str : Str) : Except Thrown Value :=
  ParseValueDepth stof (value_str.length + 1) value_str

/-! ## parser.cpp: `Config` and `parse` -/

/-- The class `Config` of parser.h. -/
structure Config where
  valid_ : Bool
  root_ : Value

/-- `Config::Config`. -/
def Config.new : Config := ⟨true, Value.CreateSection⟩

def Config.valid (self : Config) : Bool := self.valid_

def Config.SetValid (self : Config) (valid : Bool) : Config := ⟨valid, self.root_⟩

def Config.GetRoot (self : Config) : Value := self.root_

/-- The loop of `Config::Get` over all parts but the last: the section it ends in,
`none` where the loop returns `Value()`. -/
def GetLoop : List Str → Value → Option Value
  | [], current_section => some current_section
  | part :: rest, current_section =>
    match current_section.GetRef part with
    | none => none
    | some next => if !next.IsSection then none else GetLoop rest next

/-- `Config::Get` from line 306 on, `parts` being `SplitPath(path)`. -/
def GetParts (parts : List Str) (root : Value) : Value :=
  match parts.getLast? with
  | none => .invalid
  | some back =>
    match GetLoop parts.dropLast root with
    | none => .invalid
    | some current_section =>
      match current_section.GetRef back with
      | some result => result
      | none => .invalid

/-- `Config::Get`. -/
def Config.Get (self : Config) (path : Str) : Value :=
  if !self.valid_ then .invalid else GetParts (SplitPath path) self.root_

/-- The variables of `parse` that live across the lines. -/
structure ParseState where
  config : Config
  current_section_path : List Str

/-- What the body of the loop of `parse` does with control: go on with the next line,
or `return config`. -/
inductive LineResult
  | proceed (st : ParseState)
  | stop (config : Config)

/-- The branch of the loop body of `parse` for a section line (parser.cpp 335-364). -/
def parseSectionLine (st : ParseState) (line : Str) : LineResult :=
  let section_name := ExtractSectionName line
  if section_name.isEmpty then .stop (st.config.SetValid false)
  else if section_name.head? = some '.' ∨ section_name.getLast? = some '.' then
    .stop (st.config.SetValid false)
  else
    let section_parts := SplitPath section_name
    if !section_parts.all IsValidKey then .stop (st.config.SetValid false)
    else
      .proceed ⟨⟨st.config.valid_, update id section_parts st.config.root_⟩, section_parts⟩

/-- The branch of the loop body of `parse` for a key-value line from line 372 on, with
`key` and `value` as lines 369-370 compute them.  `walked` is the root after the loop
377-380, `target` the value `target_section` points to. -/
def parseKeyValueLine (stof : StofFn) (st : ParseState) (key value : Str) :
    Except Thrown LineResult :=
  if key.isEmpty ∨ IsValidKey key = false then .ok (.stop (st.config.SetValid false))
  else
    let walked : Config :=
      ⟨st.config.valid_, update id st.current_section_path st.config.root_⟩
    let target := resolve st.current_section_path st.config.root_
    if (match target.GetRef key with
        | some existing => !existing.IsSection
        | none => false) then .ok (.stop (walked.SetValid false))
    else
      match ParseValue stof value with
      | .error e => .error e
      | .ok parsed_value =>
        if parsed_value.IsInvalid then .ok (.stop (walked.SetValid false))
        else
          .ok (.proceed
            ⟨⟨st.config.valid_, update (fun t => t.SetKeyValue key parsed_value)
                st.current_section_path st.config.root_⟩, st.current_section_path⟩)

/-- The body of the loop of `parse` (parser.cpp 330-400); `IsKeyValueLine(line)` is
`line.find('=') != npos`, and the position found is the `index` of line 367. -/
def parseLine (stof : StofFn) (st : ParseState) (raw_line : Str) : Except Thrown LineResult :=
  let line := Trim (RemoveComment raw_line)
  if line.isEmpty then .ok (.proceed st)
  else if IsSectionLine line then .ok (parseSectionLine st line)
  else
    match find '=' line 0 with
    | some index =>
      parseKeyValueLine stof st (Trim (substr line 0 index)) (Trim (line.drop (index + 1)))
    | none => .ok (.stop (st.config.SetValid false))

/-- The loop of `parse` over the lines that are left, and the `return config` after it. -/
def parseLoop (stof : StofFn) : List Str → ParseState → Except Thrown Config
  | [], st => .ok st.config
  | raw_line :: rest, st =>
    match parseLine stof st raw_line with
    | .error e => .error e
    | .ok (.stop config) => .ok config
    | .ok (.proceed st') => parseLoop stof rest st'

/-- The state of `parse` before the first line. -/
def ParseState.initial : ParseState := ⟨Config.new, []⟩

/-- `parse` on the sequence of lines `SplitLines` yields. -/
def parseLines (stof : StofFn) (lines : List Str) : Except Thrown Config :=
  parseLoop stof lines ParseState.initial

/-- `parse(const std::string&)`. -/
def parse (stof : StofFn) (str : Str) : Except Thrown Config :=
  parseLines stof (SplitLines str)

/-! ## Notions the statements use -/

/-- The state of the loop of `parse` after it has gone through all of `lines` from
`st`: `none` when one of them made `parse` return or throw. -/
def stateAfter (stof : StofFn) : List Str → ParseState → Option ParseState
  | [], st => some st
  | raw_line :: rest, st =>
    match parseLine stof st raw_line with
    | .ok (.proceed st') => stateAfter stof rest st'
    | _ => none

/-- A state of the loop of `parse` that some input reaches. -/
def Reached (stof : StofFn) (st : ParseState) : Prop :=
  ∃ lines : List Str, stateAfter stof lines ParseState.initial = some st

/-- The node a list of keys leads to, each step a `GetRef`: `none` when a key is
missing or a node on the way is not a section. -/
def lookup : List Str → Value → Option Value
  | [], v => some v
  | part :: rest, v =>
    match v.GetRef part with
    | none => none
    | some child => lookup rest child

/-- The dotted path `s1.s2.….sn` of a list of keys. -/
def dotted : List Str → Str
  | [] => []
  | [part] => part
  | part :: rest => part ++ '.' :: dotted rest

/-- The pieces of a path split on `.`: the texts before the first dot, between two
dots that follow each other, and after the last dot. -/
def splitOnDots : Str → List Str
  | [] => [[]]
  | c :: cs =>
    if c = '.' then [] :: splitOnDots cs
    else
      match splitOnDots cs with
      | [] => [[c]]
      | piece :: pieces => (c :: piece) :: pieces

/-- The non-empty pieces of a path split on `.`. -/
def pathSegments (path : Str) : List Str :=
  (splitOnDots path).filter (fun piece => !piece.isEmpty)

/-- The decimal rendering of an integer: its digits without leading zero, after a `-`
when it is negative. -/
def decimal (n : Int) : Str := (toString n).toList

/-- An optional sign: nothing, `+` or `-`. -/
def IsSign (sign : Str) : Prop := sign = [] ∨ sign = ['+'] ∨ sign = ['-']

/-- One or more decimal digits. -/
def IsDigits (digits : Str) : Prop := digits ≠ [] ∧ ∀ c ∈ digits, c.isDigit = true

/-- The integer literals of the grammar: an optional sign, then one or more digits. -/
def IsIntLiteral (token : Str) : Prop :=
  ∃ sign digits, IsSign sign ∧ IsDigits digits ∧ token = sign ++ digits

/-- The float literals of the grammar: an optional sign, one or more digits, a `.`,
and one or more digits. -/
def IsFloatLiteral (token : Str) : Prop :=
  ∃ sign whole frac, IsSign sign ∧ IsDigits whole ∧ IsDigits frac ∧
    token = sign ++ whole ++ '.' :: frac

/-- The test `IsFloatValue` makes of the text after the sign (parser.cpp 176-195):
a first `.` that is neither its first nor its last character, and digits around it. -/
def floatBody (b : Str) : Bool :=
  match find '.' b 0 with
  | none => false
  | some d =>
    if d = 0 then false
    else if d = b.length - 1 then false
    else (b.take d).all IsDigit && (b.drop (d + 1)).all IsDigit

/-- The characters of a key: an ASCII letter, a digit, `-` or `_`. -/
def KeyChar (c : Char) : Prop :=
  c.isAlpha = true ∨ c.isDigit = true ∨ c = '-' ∨ c = '_'

/-- The tokens written one after the other with `, ` between them. -/
def commaSeparated : List Str → Str
  | [] => []
  | [token] => token
  | token :: rest => token ++ ',' :: ' ' :: commaSeparated rest

/-- The key and the value token of a raw line that the loop body of `parse` takes as a
key-value line (parser.cpp 330-370): `none` for any other line. -/
def keyValueOf (raw_line : Str) : Option (Str × Str) :=
  let line := Trim (RemoveComment raw_line)
  if line.isEmpty ∨ IsSectionLine line = true then none
  else
    match find '=' line 0 with
    | some index => some (Trim (substr line 0 index), Trim (line.drop (index + 1)))
    | none => none

/-- The section path of a raw line that the loop body of `parse` takes as a section line
and does not reject in 338-355: `none` for any other line. -/
def headerOf (raw_line : Str) : Option (List Str) :=
  let line := Trim (RemoveComment raw_line)
  if line.isEmpty ∨ IsSectionLine line = false then none
  else if (ExtractSectionName line).isEmpty then none
  else if (ExtractSectionName line).head? = some '.' ∨
      (ExtractSectionName line).getLast? = some '.' then none
  else if !(SplitPath (ExtractSectionName line)).all IsValidKey then none
  else some (SplitPath (ExtractSectionName line))

/-- The line `raw_line`, met in state `st`, keeps clear of the entry under the keys `r`:
a section line the loop body accepts does not name a path strictly below `r`, and the
dotted path of a key-value line (current section path, then its key) is neither a
prefix of `r` nor below `r`. -/
def Keeps (r : List Str) (st : ParseState) (raw_line : Str) : Prop :=
  match headerOf raw_line, keyValueOf raw_line with
  | some h, _ => ¬ (r <+: h ∧ r ≠ h)
  | none, some (key, _) =>
    ¬ (st.current_section_path ++ [key] <+: r) ∧ ¬ (r <+: st.current_section_path ++ [key])
  | none, none => True

/-- Every line of `lines`, gone through by the loop of `parse` from `st`, keeps clear of
the entry under the keys `r`. -/
def Kept (stof : StofFn) (r : List Str) : List Str → ParseState → Prop
  | [], _ => True
  | raw_line :: rest, st =>
    Keeps r st raw_line ∧
      match parseLine stof st raw_line with
      | .ok (.proceed st') => Kept stof r rest st'
      | _ => True

/-- The values of `bracket_level` and `in_string` after the loop of `ParseArrayElements`
has read `text`, from given values (parser.cpp 206-215): a quote toggles `in_string`,
and outside a string `[` and `]` raise and lower `bracket_level`. -/
def scanNesting : Str → Int × Bool → Int × Bool
  | [], nesting => nesting
  | c :: cs, (bracket_level, in_string) =>
    if c = '"' then scanNesting cs (bracket_level, !in_string)
    else if in_string = false then
      if c = '[' then scanNesting cs (bracket_level + 1, in_string)
      else if c = ']' then scanNesting cs (bracket_level - 1, in_string)
      else scanNesting cs (bracket_level, in_string)
    else scanNesting cs (bracket_level, in_string)

/-- The segments the loop of `ParseArrayElements` cuts `text` into, `curr` being the
segment it is in and `nesting` the values of `bracket_level` and `in_string`: a comma
met outside a string at `bracket_level` 0 ends a segment (parser.cpp 216).  The last
segment is the one the end of the text ends. -/
def topSegments : Str → Int × Bool → Str → List Str
  | [], _, curr => [curr]
  | c :: cs, (bracket_level, in_string), curr =>
    if c = '"' then topSegments cs (bracket_level, !in_string) (curr ++ [c])
    else if in_string = false then
      if c = '[' then topSegments cs (bracket_level + 1, in_string) (curr ++ [c])
      else if c = ']' then topSegments cs (bracket_level - 1, in_string) (curr ++ [c])
      else if c = ',' ∧ bracket_level = 0 then curr :: topSegments cs (bracket_level, in_string) []
      else topSegments cs (bracket_level, in_string) (curr ++ [c])
    else topSegments cs (bracket_level, in_string) (curr ++ [c])

/-- The loop of `ParseArrayElements`, reading `text` from the given values of
`bracket_level` and `in_string`, meets no comma that ends an element: none outside a
string at `bracket_level` 0 (parser.cpp 216). -/
def noTopComma : Str → Int × Bool → Bool
  | [], _ => true
  | c :: cs, (bracket_level, in_string) =>
    if c = '"' then noTopComma cs (bracket_level, !in_string)
    else if in_string = false then
      if c = '[' then noTopComma cs (bracket_level + 1, in_string)
      else if c = ']' then noTopComma cs (bracket_level - 1, in_string)
      else if c = ',' ∧ bracket_level = 0 then false
      else noTopComma cs (bracket_level, in_string)
    else noTopComma cs (bracket_level, in_string)

/-- The token is read as one piece wherever it stands in an array literal: met
outside a string at a `bracket_level` that is not negative, it holds no comma that ends
an element, and it leaves `bracket_level` and `in_string` as it met them. -/
def Sealed (token : Str) : Prop :=
  ∀ bracket_level : Int, 0 ≤ bracket_level →
    noTopComma token (bracket_level, false) = true ∧
      scanNesting token (bracket_level, false) = (bracket_level, false)

/-- The text is read as one piece inside a pair of brackets: met outside a string at a
`bracket_level` of 1 or more, it holds no comma that ends an element of the array
around, and it leaves `bracket_level` and `in_string` as it met them. -/
def SealedInside (text : Str) : Prop :=
  ∀ bracket_level : Int, 1 ≤ bracket_level →
    noTopComma text (bracket_level, false) = true ∧
      scanNesting text (bracket_level, false) = (bracket_level, false)

/-- Every key of every section of the tree satisfies `IsValidKey`. -/
inductive KeysValid : Value → Prop
  | leaf (v : Value) (h : v.IsSection = false) : KeysValid v
  | sect (m : List (Str × Value)) (hkeys : ∀ k v, (k, v) ∈ m → IsValidKey k = true)
      (hvalues : ∀ k v, (k, v) ∈ m → KeysValid v) : KeysValid (.sect m)

/-- The value `w` is held in the value `v`: as an element of the array `v` or as the
value of an entry of the section `v`, or in a value held in `v`. -/
inductive Inside : Value → Value → Prop
  | element (xs : List Value) (x : Value) (h : x ∈ xs) : Inside x (.array xs)
  | child (m : List (Str × Value)) (k : Str) (x : Value) (h : (k, x) ∈ m) : Inside x (.sect m)
  | deeper (w x v : Value) (h1 : Inside w x) (h2 : Inside x v) : Inside w v

/-- The value is not Invalid, and neither is any value held in it. -/
inductive Sound : Value → Prop
  | int (i : Int) : Sound (.int i)
  | float (f : Binary32) : Sound (.float f)
  | bool (b : Bool) : Sound (.bool b)
  | string (s : Str) : Sound (.string s)
  | array (xs : List Value) (h : ∀ x, x ∈ xs → Sound x) : Sound (.array xs)
  | sect (m : List (Str × Value)) (h : ∀ k x, (k, x) ∈ m → Sound x) : Sound (.sect m)

/-- The walk along the current section path (parser.cpp 377-380) changes nothing. -/
def WalkStable (st : ParseState) : Prop :=
  update id st.current_section_path st.config.root_ = st.config.root_

end omfl

/-! # Theorems -/

namespace omfl

/-! ## The map of a section -/

theorem mapFind_mapSet_self (key : Str) (value : Value) (m : List (Str × Value)) :
    mapFind key (mapSet key value m) = some value := by
  induction m with
  | nil => simp [mapSet, mapFind]
  | cons kv rest ih =>
    obtain ⟨k, v⟩ := kv
    by_cases h : k = key
    · simp [mapSet, mapFind, h]
    · simp [mapSet, mapFind, h, ih]

theorem mapFind_mapSet_ne (key other : Str) (value : Value) (m : List (Str × Value))
    (hne : other ≠ key) : mapFind other (mapSet key value m) = mapFind other m := by
  induction m with
  | nil =>
    have : ¬ key = other := fun h => hne h.symm
    simp [mapSet, mapFind, this]
  | cons kv rest ih =>
    obtain ⟨k, v⟩ := kv
    by_cases h : k = key
    · subst h
      have : ¬ k = other := fun h => hne h.symm
      simp [mapSet, mapFind, this]
    · by_cases h2 : k = other
      · subst h2
        simp [mapSet, mapFind, h]
      · simp [mapSet, mapFind, h, h2, ih]

theorem mapSet_mapSet (key : Str) (v w : Value) (m : List (Str × Value)) :
    mapSet key w (mapSet key v m) = mapSet key w m := by
  induction m with
  | nil => simp [mapSet]
  | cons kv rest ih =>
    obtain ⟨k, x⟩ := kv
    by_cases h : k = key
    · simp [mapSet, h]
    · simp [mapSet, h, ih]

theorem mapSet_of_mapFind (key : Str) (v : Value) (m : List (Str × Value))
    (h : mapFind key m = some v) : mapSet key v m = m := by
  induction m with
  | nil => simp [mapFind] at h
  | cons kv rest ih =>
    obtain ⟨k, x⟩ := kv
    by_cases hk : k = key
    · simp [mapFind, hk] at h
      simp [mapSet, hk, h]
    · simp [mapFind, hk] at h
      simp [mapSet, hk, ih h]

/-! ## Walking a section path -/

theorem GetOrCreateSection_find (v : Value) (key : Str) :
    mapFind key (v.GetOrCreateSection key).1 = some (v.GetOrCreateSection key).2 := by
  unfold Value.GetOrCreateSection
  cases h : mapFind key v.asMap with
  | none => simp [mapFind_mapSet_self]
  | some child => simp [h]

theorem GetOrCreateSection_sect_mapSet (key : Str) (x : Value) (m : List (Str × Value)) :
    (Value.sect (mapSet key x m)).GetOrCreateSection key = (mapSet key x m, x) := by
  simp [Value.GetOrCreateSection, Value.asMap, mapFind_mapSet_self]

theorem update_update (f g : Value → Value) (parts : List Str) (v : Value) :
    update g parts (update f parts v) = update (fun t => g (f t)) parts v := by
  induction parts generalizing v with
  | nil => rfl
  | cons part rest ih =>
    simp only [update, GetOrCreateSection_sect_mapSet, mapSet_mapSet, ih]

theorem resolve_update (f : Value → Value) (parts : List Str) (v : Value) :
    resolve parts (update f parts v) = f (resolve parts v) := by
  induction parts generalizing v with
  | nil => rfl
  | cons part rest ih =>
    simp only [update, resolve, GetOrCreateSection_sect_mapSet, ih]

/-! ## The loop of `parse` -/

theorem parseSectionLine_stop (st : ParseState) (line : Str) (c : Config)
    (h : parseSectionLine st line = .stop c) : c = ⟨false, st.config.root_⟩ := by
  unfold parseSectionLine at h
  simp only [Config.SetValid] at h
  split_ifs at h <;> (injection h with h; exact h.symm)

theorem parseKeyValueLine_stop (stof : StofFn) (st : ParseState) (key value : Str)
    (c : Config) (h : parseKeyValueLine stof st key value = .ok (.stop c)) :
    c = ⟨false, st.config.root_⟩ ∨
      c = ⟨false, update id st.current_section_path st.config.root_⟩ := by
  unfold parseKeyValueLine at h
  simp only [Config.SetValid] at h
  split_ifs at h
  · left; injection h with h; injection h with h; exact h.symm
  · right; injection h with h; injection h with h; exact h.symm
  · split at h
    · cases h
    · split_ifs at h
      · right; injection h with h; injection h with h; exact h.symm
      · injection h with h; cases h

theorem parseLine_stop (stof : StofFn) (st : ParseState) (raw_line : Str) (c : Config)
    (h : parseLine stof st raw_line = .ok (.stop c)) :
    c = ⟨false, st.config.root_⟩ ∨
      c = ⟨false, update id st.current_section_path st.config.root_⟩ := by
  unfold parseLine at h
  simp only [Config.SetValid] at h
  split_ifs at h
  · injection h with h; cases h
  · injection h with h
    exact Or.inl (parseSectionLine_stop st _ c h)
  · split at h
    · exact parseKeyValueLine_stop stof st _ _ c h
    · left; injection h with h; injection h with h; exact h.symm

theorem parseLine_stop_of_stable (stof : StofFn) (st : ParseState) (raw_line : Str)
    (c : Config) (hst : WalkStable st) (h : parseLine stof st raw_line = .ok (.stop c)) :
    c = ⟨false, st.config.root_⟩ := by
  rcases parseLine_stop stof st raw_line c h with h1 | h1
  · exact h1
  · rw [h1, hst]

theorem parseSectionLine_proceed (st st' : ParseState) (line : Str)
    (h : parseSectionLine st line = .proceed st') :
    st'.config.valid_ = st.config.valid_ ∧ WalkStable st' := by
  unfold parseSectionLine at h
  dsimp only at h
  split_ifs at h
  injection h with h
  subst h
  exact ⟨rfl, update_update id id _ _⟩

theorem parseKeyValueLine_proceed (stof : StofFn) (st st' : ParseState) (key value : Str)
    (h : parseKeyValueLine stof st key value = .ok (.proceed st')) :
    st'.config.valid_ = st.config.valid_ ∧ WalkStable st' := by
  unfold parseKeyValueLine at h
  dsimp only at h
  split_ifs at h
  · cases h
  · cases h
  · split at h
    · cases h
    · split_ifs at h
      · cases h
      · injection h with h
        injection h with h
        subst h
        exact ⟨rfl, update_update _ id _ _⟩

theorem parseLine_proceed (stof : StofFn) (st st' : ParseState) (raw_line : Str)
    (hst : WalkStable st) (h : parseLine stof st raw_line = .ok (.proceed st')) :
    st'.config.valid_ = st.config.valid_ ∧ WalkStable st' := by
  unfold parseLine at h
  dsimp only at h
  split_ifs at h
  · injection h with h
    injection h with h
    subst h
    exact ⟨rfl, hst⟩
  · injection h with h
    exact parseSectionLine_proceed st st' _ h
  · split at h
    · exact parseKeyValueLine_proceed stof st st' _ _ h
    · injection h with h; cases h

theorem stateAfter_invariant (stof : StofFn) (lines : List Str) (st st' : ParseState)
    (hst : WalkStable st) (h : stateAfter stof lines st = some st') :
    st'.config.valid_ = st.config.valid_ ∧ WalkStable st' := by
  induction lines generalizing st with
  | nil =>
    simp only [stateAfter, Option.some.injEq] at h
    subst h
    exact ⟨rfl, hst⟩
  | cons raw_line rest ih =>
    simp only [stateAfter] at h
    split at h
    · rename_i st1 h1
      obtain ⟨hv, hs⟩ := parseLine_proceed stof st st1 raw_line hst h1
      obtain ⟨hv', hs'⟩ := ih st1 hs h
      exact ⟨hv'.trans hv, hs'⟩
    · cases h

theorem WalkStable_initial : WalkStable ParseState.initial := rfl

theorem parseLine_of_keyValueOf (stof : StofFn) (st : ParseState) (raw_line key value : Str)
    (h : keyValueOf raw_line = some (key, value)) :
    parseLine stof st raw_line = parseKeyValueLine stof st key value := by
  unfold keyValueOf at h
  unfold parseLine
  dsimp only at h ⊢
  split_ifs at h with h1
  rw [not_or] at h1
  obtain ⟨h2, h3⟩ := h1
  rw [if_neg h2, if_neg h3]
  split at h
  · rename_i index hidx
    simp only [Option.some.injEq, Prod.mk.injEq] at h
    rw [h.1, h.2]
  · cases h

theorem parseLine_of_headerOf (stof : StofFn) (st : ParseState) (raw_line : Str)
    (parts : List Str) (h : headerOf raw_line = some parts) :
    parseLine stof st raw_line =
      .ok (.proceed ⟨⟨st.config.valid_, update id parts st.config.root_⟩, parts⟩) := by
  unfold headerOf at h
  unfold parseLine parseSectionLine
  dsimp only at h ⊢
  split_ifs at h with h1 h2 h3 h4
  rw [not_or] at h1
  obtain ⟨h5, h6⟩ := h1
  simp only [Bool.not_eq_false] at h6
  simp only [Option.some.injEq] at h
  rw [if_neg h5, if_pos h6, if_neg h2, if_neg h3, if_neg h4, h]

theorem parseLoop_of_stateAfter (stof : StofFn) (pre rest : List Str) (st0 st : ParseState)
    (h : stateAfter stof pre st0 = some st) :
    parseLoop stof (pre ++ rest) st0 = parseLoop stof rest st := by
  induction pre generalizing st0 with
  | nil =>
    simp only [stateAfter, Option.some.injEq] at h
    subst h
    rfl
  | cons raw_line more ih =>
    simp only [stateAfter] at h
    split at h
    · rename_i st1 h1
      simp only [List.cons_append, parseLoop, h1]
      exact ih st1 h
    · cases h

theorem stateAfter_of_parseLoop_valid (stof : StofFn) (lines : List Str) (st0 : ParseState)
    (c : Config) (h : parseLoop stof lines st0 = .ok c) (hvalid : c.valid_ = true) :
    ∃ st, stateAfter stof lines st0 = some st ∧ st.config = c := by
  induction lines generalizing st0 with
  | nil =>
    simp only [parseLoop, Except.ok.injEq] at h
    exact ⟨st0, rfl, h⟩
  | cons raw_line rest ih =>
    simp only [parseLoop] at h
    split at h
    · cases h
    · rename_i c1 h1
      injection h with h
      subst h
      rcases parseLine_stop stof st0 raw_line c1 h1 with h2 | h2 <;>
        · rw [h2] at hvalid
          cases hvalid
    · rename_i st1 h1
      obtain ⟨st, hst, hc⟩ := ih st1 h
      exact ⟨st, by simp only [stateAfter, h1, hst], hc⟩

/-! ## Paths: `lookup`, `SplitPath` and `Config::Get` -/

theorem GetRef_of_not_section (v : Value) (key : Str) (h : v.IsSection = false) :
    v.GetRef key = none := by
  cases v <;> simp_all [Value.GetRef, Value.IsSection]

theorem GetParts_eq_lookup (parts : List Str) (root : Value) (hne : parts ≠ []) :
    GetParts parts root = (lookup parts root).getD .invalid := by
  induction parts generalizing root with
  | nil => exact absurd rfl hne
  | cons p rest ih =>
    cases rest with
    | nil =>
      simp only [GetParts, List.getLast?_singleton, List.dropLast_single, GetLoop, lookup]
      cases root.GetRef p <;> rfl
    | cons q more =>
      have ih2 := fun r => ih r (List.cons_ne_nil q more)
      simp only [GetParts, List.getLast?_cons_cons, List.dropLast_cons₂, GetLoop, lookup] at ih2 ⊢
      cases hp : root.GetRef p with
      | none => cases (List.getLast? (q :: more)) <;> rfl
      | some next =>
        cases hs : next.IsSection with
        | false =>
          simp only [hs, Bool.not_false, if_true, GetRef_of_not_section next q hs]
          cases (List.getLast? (q :: more)) <;> rfl
        | true =>
          simp only [hs, Bool.not_true, Bool.false_eq_true, if_false]
          exact ih2 next

theorem SplitPathFrom_append (curr part rest : Str) (h : '.' ∉ part) :
    SplitPathFrom curr (part ++ rest) = SplitPathFrom (curr ++ part) rest := by
  induction part generalizing curr with
  | nil => simp
  | cons c cs ih =>
    have hc : c ≠ '.' := fun e => h (by simp [e])
    have hcs : '.' ∉ cs := fun e => h (by simp [e])
    show SplitPathFrom curr (c :: (cs ++ rest)) = _
    simp only [SplitPathFrom, hc, if_false]
    rw [ih _ hcs]
    simp

theorem SplitPath_dotted (parts : List Str) (h : ∀ p ∈ parts, p ≠ [] ∧ '.' ∉ p) :
    SplitPath (dotted parts) = parts := by
  unfold SplitPath
  induction parts with
  | nil => rfl
  | cons p rest ih =>
    obtain ⟨hp1, hp2⟩ := h p (by simp)
    have hrest : ∀ q ∈ rest, q ≠ [] ∧ '.' ∉ q := fun q hq => h q (by simp [hq])
    cases rest with
    | nil =>
      have := SplitPathFrom_append [] p [] hp2
      simp only [List.append_nil, List.nil_append] at this
      simp only [dotted, this, SplitPathFrom]
      cases p with
      | nil => exact absurd rfl hp1
      | cons c cs => rfl
    | cons q more =>
      simp only [dotted] at ih ⊢
      rw [SplitPathFrom_append [] p _ hp2]
      cases p with
      | nil => exact absurd rfl hp1
      | cons c cs =>
        simp only [List.nil_append, SplitPathFrom, List.isEmpty_cons, Bool.not_false, if_true]
        rw [ih hrest]

theorem lookup_append (a b : List Str) (v : Value) :
    lookup (a ++ b) v = (lookup a v).bind (lookup b) := by
  induction a generalizing v with
  | nil => rfl
  | cons p rest ih =>
    simp only [List.cons_append, lookup]
    cases v.GetRef p with
    | none => rfl
    | some child => exact ih child

theorem lookup_update (f : Value → Value) (parts : List Str) (v : Value) :
    lookup parts (update f parts v) = some (f (resolve parts v)) := by
  induction parts generalizing v with
  | nil => rfl
  | cons part rest ih =>
    simp only [update, lookup, resolve, Value.GetRef, mapFind_mapSet_self, ih]

theorem GetRef_SetKeyValue_self (t : Value) (key : Str) (value : Value) :
    (t.SetKeyValue key value).GetRef key = some value := by
  simp only [Value.SetKeyValue, Value.GetRef, mapFind_mapSet_self]

theorem GetRef_SetKeyValue_ne (t : Value) (key other : Str) (value : Value)
    (hne : other ≠ key) (ht : t.IsSection = true) :
    (t.SetKeyValue key value).GetRef other = t.GetRef other := by
  cases t <;> simp_all [Value.SetKeyValue, Value.GetRef, Value.asMap, Value.IsSection,
    mapFind_mapSet_ne]

theorem lookup_update_SetKeyValue (parts : List Str) (key : Str) (value root : Value) :
    lookup (parts ++ [key]) (update (fun t => t.SetKeyValue key value) parts root) =
      some value := by
  rw [lookup_append, lookup_update]
  simp only [Option.bind, lookup, GetRef_SetKeyValue_self]

theorem mapFind_GetOrCreateSection_ne (v : Value) (key other : Str) (hne : other ≠ key) :
    mapFind other (v.GetOrCreateSection key).1 = mapFind other v.asMap := by
  unfold Value.GetOrCreateSection
  cases h : mapFind key v.asMap with
  | none => simp only [mapFind_mapSet_ne _ _ _ _ hne]
  | some child => rfl

theorem GetOrCreateSection_snd_of_find (v : Value) (key : Str) (c : Value)
    (h : mapFind key v.asMap = some c) : (v.GetOrCreateSection key).2 = c := by
  simp only [Value.GetOrCreateSection, h]

theorem GetRef_eq_mapFind_asMap (v : Value) (key : Str) (c : Value)
    (h : v.GetRef key = some c) : mapFind key v.asMap = some c := by
  cases v <;> simp_all [Value.GetRef, Value.asMap]

/-- Frame property of the walk: a node found under `r` stays where it is when the walk
goes along `h` and mutates the node at `h` by `f`, unless `r` is a proper prefix of `h`
(the walk then goes through the node itself) or `f` disturbs what lies under `h`. -/
theorem lookup_update_frame (f : Value → Value) (h r : List Str) (v x : Value)
    (hl : lookup r v = some x)
    (hpre : ¬ (r <+: h ∧ r ≠ h))
    (hf : ∀ rest node, r = h ++ rest → lookup rest node = some x →
      lookup rest (f node) = some x) :
    lookup r (update f h v) = some x := by
  induction h generalizing r v with
  | nil => exact hf r v rfl hl
  | cons p hs ih =>
    cases r with
    | nil => exact absurd ⟨List.nil_prefix, (List.cons_ne_nil p hs).symm⟩ hpre
    | cons q rs =>
      simp only [lookup] at hl
      cases hq : v.GetRef q with
      | none => rw [hq] at hl; cases hl
      | some c =>
        rw [hq] at hl
        have hm := GetRef_eq_mapFind_asMap v q c hq
        simp only [update, lookup, Value.GetRef]
        by_cases hpq : q = p
        · subst hpq
          rw [mapFind_mapSet_self, GetOrCreateSection_snd_of_find v q c hm]
          refine ih rs c hl ?_ ?_
          · rintro ⟨h1, h2⟩
            exact hpre ⟨(List.cons_prefix_cons.mpr ⟨rfl, h1⟩), fun e => h2 (List.cons.inj e).2⟩
          · intro rest node hr
            exact hf rest node (by rw [hr]; rfl)
        · rw [mapFind_mapSet_ne _ _ _ _ hpq, mapFind_GetOrCreateSection_ne v p q hpq, hm]
          exact hl

theorem IsValidKey_ne_nil (key : Str) (h : IsValidKey key = true) : key ≠ [] := by
  intro e
  subst e
  simp [IsValidKey] at h

theorem IsValidKey_no_dot (key : Str) (h : IsValidKey key = true) : '.' ∉ key := by
  intro hmem
  unfold IsValidKey at h
  split_ifs at h
  have := List.all_eq_true.mp h '.' hmem
  revert this
  decide

theorem Get_dotted (root : Value) (parts : List Str) (hne : parts ≠ [])
    (hkeys : ∀ p ∈ parts, IsValidKey p = true) :
    Config.Get ⟨true, root⟩ (dotted parts) = (lookup parts root).getD .invalid := by
  have hs : SplitPath (dotted parts) = parts :=
    SplitPath_dotted parts (fun p hp => ⟨IsValidKey_ne_nil p (hkeys p hp), IsValidKey_no_dot p (hkeys p hp)⟩)
  simp only [Config.Get, Bool.not_true, Bool.false_eq_true, if_false, hs]
  exact GetParts_eq_lookup parts root hne

/-! ## What the loop body does with a line -/

theorem ParseValueBody_not_section (stof : StofFn) (pv : Str → Except Thrown Value)
    (value_str : Str) (v : Value) (h : ParseValueBody stof pv value_str = .ok v) :
    v.IsSection = false := by
  unfold ParseValueBody at h
  repeat' split at h
  all_goals first
    | (injection h with h; subst h; rfl)
    | cases h

theorem ParseValue_not_section (stof : StofFn) (value_str : Str) (v : Value)
    (h : ParseValue stof value_str = .ok v) : v.IsSection = false :=
  ParseValueBody_not_section stof _ value_str v h

theorem headerOf_keyValueOf (raw_line : Str) (h : List Str)
    (hh : headerOf raw_line = some h) : keyValueOf raw_line = none := by
  unfold headerOf at hh
  unfold keyValueOf
  dsimp only at hh ⊢
  split_ifs at hh with h1
  rw [not_or] at h1
  simp only [Bool.not_eq_false] at h1
  rw [if_pos (Or.inr h1.2)]

theorem keyValueOf_headerOf (raw_line : Str) (kv : Str × Str)
    (hk : keyValueOf raw_line = some kv) : headerOf raw_line = none := by
  cases hh : headerOf raw_line with
  | none => rfl
  | some h => rw [headerOf_keyValueOf raw_line h hh] at hk; cases hk

/-- What the loop body of `parse` has done when it goes on with the next line. -/
theorem parseLine_proceed_cases (stof : StofFn) (st st' : ParseState) (raw_line : Str)
    (h : parseLine stof st raw_line = .ok (.proceed st')) :
    (st' = st ∧ headerOf raw_line = none ∧ keyValueOf raw_line = none) ∨
    (∃ parts, headerOf raw_line = some parts ∧
      st' = ⟨⟨st.config.valid_, update id parts st.config.root_⟩, parts⟩) ∨
    (∃ key value parsed, keyValueOf raw_line = some (key, value) ∧ IsValidKey key = true ∧
      ParseValue stof value = .ok parsed ∧ parsed.IsInvalid = false ∧
      st' = ⟨⟨st.config.valid_, update (fun t => t.SetKeyValue key parsed)
        st.current_section_path st.config.root_⟩, st.current_section_path⟩) := by
  by_cases hblank : (Trim (RemoveComment raw_line)).isEmpty = true
  · left
    have h1 : parseLine stof st raw_line = .ok (.proceed st) := by
      unfold parseLine
      simp only [hblank, if_true]
    rw [h1] at h
    injection h with h
    injection h with h
    refine ⟨h.symm, ?_, ?_⟩
    · unfold headerOf
      simp only [hblank, true_or, if_true]
    · unfold keyValueOf
      simp only [hblank, true_or, if_true]
  · right
    cases hh : headerOf raw_line with
    | some parts =>
      left
      rw [parseLine_of_headerOf stof st raw_line parts hh] at h
      injection h with h
      injection h with h
      exact ⟨parts, rfl, h.symm⟩
    | none =>
      right
      cases hk : keyValueOf raw_line with
      | none =>
        exfalso
        unfold parseLine at h
        unfold headerOf at hh
        unfold keyValueOf at hk
        dsimp only at h hh hk
        rw [if_neg hblank] at h
        by_cases hsec : IsSectionLine (Trim (RemoveComment raw_line)) = true
        · rw [if_pos hsec] at h
          injection h with h
          unfold parseSectionLine at h
          dsimp only at h
          have hc : ¬ ((Trim (RemoveComment raw_line)).isEmpty = true ∨
              IsSectionLine (Trim (RemoveComment raw_line)) = false) := by
            rw [not_or]
            exact ⟨hblank, by simp [hsec]⟩
          rw [if_neg hc] at hh
          split_ifs at h hh
        · rw [if_neg hsec] at h
          have hc : ¬ ((Trim (RemoveComment raw_line)).isEmpty = true ∨
              IsSectionLine (Trim (RemoveComment raw_line)) = true) := by
            rw [not_or]
            exact ⟨hblank, hsec⟩
          rw [if_neg hc] at hk
          split at hk
          · cases hk
          · rename_i hnone
            rw [hnone] at h
            cases h
      | some kv =>
        obtain ⟨key, value⟩ := kv
        rw [parseLine_of_keyValueOf stof st raw_line key value hk] at h
        unfold parseKeyValueLine at h
        dsimp only at h
        split_ifs at h with h1 h2
        · cases h
        · cases h
        · rw [not_or] at h1
          simp only [Bool.not_eq_false] at h1
          split at h
          · cases h
          · rename_i parsed hp
            split_ifs at h with h3
            · cases h
            · injection h with h
              injection h with h
              simp only [Bool.not_eq_true] at h3
              exact ⟨key, value, parsed, rfl, h1.2, hp, h3, h.symm⟩

theorem headerOf_valid (raw_line : Str) (parts : List Str)
    (h : headerOf raw_line = some parts) : ∀ p ∈ parts, IsValidKey p = true := by
  unfold headerOf at h
  dsimp only at h
  split_ifs at h with h1 h2 h3 h4
  simp only [Option.some.injEq] at h
  simp only [Bool.not_eq_true, Bool.not_eq_false'] at h4
  rw [← h]
  exact fun p hp => List.all_eq_true.mp h4 p hp

theorem stateAfter_path_valid (stof : StofFn) (lines : List Str) (st st' : ParseState)
    (h : stateAfter stof lines st = some st')
    (hst : ∀ p ∈ st.current_section_path, IsValidKey p = true) :
    ∀ p ∈ st'.current_section_path, IsValidKey p = true := by
  induction lines generalizing st with
  | nil =>
    simp only [stateAfter, Option.some.injEq] at h
    subst h
    exact hst
  | cons raw_line rest ih =>
    simp only [stateAfter] at h
    split at h
    · rename_i st1 h1
      refine ih st1 h ?_
      rcases parseLine_proceed_cases stof st st1 raw_line h1 with
        ⟨e, -, -⟩ | ⟨parts, hh, e⟩ | ⟨key, value, parsed, -, -, -, -, e⟩
      · rw [e]; exact hst
      · rw [e]; exact headerOf_valid raw_line parts hh
      · rw [e]; exact hst
    · cases h

theorem stateAfter_append (stof : StofFn) (pre rest : List Str) (st : ParseState) :
    stateAfter stof (pre ++ rest) st = (stateAfter stof pre st).bind (stateAfter stof rest) := by
  induction pre generalizing st with
  | nil => rfl
  | cons raw_line more ih =>
    simp only [List.cons_append, stateAfter]
    split
    · exact ih _
    · rfl

theorem lookup_kept_step (stof : StofFn) (r : List Str) (x : Value) (st st' : ParseState)
    (raw_line : Str) (hstep : parseLine stof st raw_line = .ok (.proceed st'))
    (hkeeps : Keeps r st raw_line) (hl : lookup r st.config.root_ = some x) :
    lookup r st'.config.root_ = some x := by
  rcases parseLine_proceed_cases stof st st' raw_line hstep with
    ⟨e, -, -⟩ | ⟨parts, hh, e⟩ | ⟨key, value, parsed, hk, -, -, -, e⟩
  · rw [e]; exact hl
  · rw [e]
    unfold Keeps at hkeeps
    rw [hh] at hkeeps
    exact lookup_update_frame id parts r _ x hl hkeeps (fun _ _ _ hn => hn)
  · rw [e]
    unfold Keeps at hkeeps
    rw [keyValueOf_headerOf raw_line _ hk, hk] at hkeeps
    obtain ⟨hk1, hk2⟩ := hkeeps
    refine lookup_update_frame _ st.current_section_path r _ x hl ?_ ?_
    · rintro ⟨h1, -⟩
      exact hk2 (h1.trans (List.prefix_append _ _))
    · intro rest node hr hn
      cases rest with
      | nil =>
        exfalso
        apply hk2
        rw [hr, List.append_nil]
        exact List.prefix_append _ _
      | cons q rs =>
        have hq : q ≠ key := by
          intro e2
          apply hk1
          rw [hr, e2]
          exact (List.prefix_append_right_inj _).mpr (List.cons_prefix_cons.mpr ⟨rfl, List.nil_prefix⟩)
        simp only [lookup] at hn ⊢
        cases hg : node.GetRef q with
        | none => rw [hg] at hn; cases hn
        | some c =>
          have hsec : node.IsSection = true := by
            cases node <;> simp_all [Value.GetRef, Value.IsSection]
          rw [GetRef_SetKeyValue_ne node key q parsed hq hsec, hg]
          rw [hg] at hn
          exact hn

theorem lookup_kept (stof : StofFn) (r : List Str) (x : Value) (lines : List Str)
    (st st' : ParseState) (h : stateAfter stof lines st = some st')
    (hkept : Kept stof r lines st) (hl : lookup r st.config.root_ = some x) :
    lookup r st'.config.root_ = some x := by
  induction lines generalizing st with
  | nil =>
    simp only [stateAfter, Option.some.injEq] at h
    subst h
    exact hl
  | cons raw_line rest ih =>
    simp only [stateAfter] at h
    split at h
    · rename_i st1 h1
      have hrest := hkept.2
      rw [h1] at hrest
      exact ih st1 h hrest (lookup_kept_step stof r x st st1 raw_line h1 hkept.1 hl)
    · cases h

/-! ## The keys of the tree -/

theorem mem_of_mapFind (key : Str) (v : Value) (m : List (Str × Value))
    (h : mapFind key m = some v) : (key, v) ∈ m := by
  induction m with
  | nil => simp [mapFind] at h
  | cons kv rest ih =>
    obtain ⟨k, x⟩ := kv
    by_cases hk : k = key
    · simp only [mapFind, hk, if_true, Option.some.injEq] at h
      simp [hk, h]
    · simp only [mapFind, hk, if_false] at h
      exact List.mem_cons_of_mem _ (ih h)

theorem mem_mapSet (key : Str) (value : Value) (m : List (Str × Value)) (k : Str) (v : Value)
    (h : (k, v) ∈ mapSet key value m) : (k, v) ∈ m ∨ (k = key ∧ v = value) := by
  induction m with
  | nil =>
    simp only [mapSet, List.mem_singleton, Prod.mk.injEq] at h
    exact Or.inr h
  | cons kv rest ih =>
    obtain ⟨k0, x⟩ := kv
    by_cases hk : k0 = key
    · simp only [mapSet, hk, if_true, List.mem_cons, Prod.mk.injEq] at h
      rcases h with h | h
      · exact Or.inr h
      · exact Or.inl (List.mem_cons_of_mem _ h)
    · simp only [mapSet, hk, if_false, List.mem_cons, Prod.mk.injEq] at h
      rcases h with h | h
      · left; simp [h.1, h.2]
      · rcases ih h with h2 | h2
        · exact Or.inl (List.mem_cons_of_mem _ h2)
        · exact Or.inr h2

theorem KeysValid.asMap_keys {v : Value} (h : KeysValid v) :
    ∀ k x, (k, x) ∈ v.asMap → IsValidKey k = true ∧ KeysValid x := by
  cases h with
  | leaf v hv =>
    intro k x hm
    cases v <;> simp_all [Value.asMap, Value.IsSection]
  | sect m hkeys hvalues =>
    intro k x hm
    exact ⟨hkeys k x hm, hvalues k x hm⟩

theorem KeysValid.mapSet {m : List (Str × Value)} {key : Str} {value : Value}
    (hm : ∀ k x, (k, x) ∈ m → IsValidKey k = true ∧ KeysValid x)
    (hkey : IsValidKey key = true) (hvalue : KeysValid value) :
    KeysValid (.sect (mapSet key value m)) := by
  refine KeysValid.sect _ ?_ ?_
  · intro k x hx
    rcases mem_mapSet key value m k x hx with h | ⟨h1, -⟩
    · exact (hm k x h).1
    · rw [h1]; exact hkey
  · intro k x hx
    rcases mem_mapSet key value m k x hx with h | ⟨-, h2⟩
    · exact (hm k x h).2
    · rw [h2]; exact hvalue

theorem KeysValid.CreateSection : KeysValid Value.CreateSection :=
  KeysValid.sect [] (fun _ _ h => by simp at h) (fun _ _ h => by simp at h)

theorem KeysValid.GetOrCreateSection {v : Value} (h : KeysValid v) (key : Str)
    (hkey : IsValidKey key = true) :
    (∀ k x, (k, x) ∈ (v.GetOrCreateSection key).1 → IsValidKey k = true ∧ KeysValid x) ∧
      KeysValid (v.GetOrCreateSection key).2 := by
  unfold Value.GetOrCreateSection
  cases hf : mapFind key v.asMap with
  | none =>
    refine ⟨?_, KeysValid.CreateSection⟩
    intro k x hx
    rcases mem_mapSet _ _ _ k x hx with h1 | ⟨h1, h2⟩
    · exact h.asMap_keys k x h1
    · rw [h1, h2]; exact ⟨hkey, KeysValid.CreateSection⟩
  | some child =>
    exact ⟨h.asMap_keys, (h.asMap_keys key child (mem_of_mapFind key child _ hf)).2⟩

theorem KeysValid.update {f : Value → Value} (hf : ∀ t, KeysValid t → KeysValid (f t))
    (parts : List Str) (hparts : ∀ p ∈ parts, IsValidKey p = true) (v : Value)
    (h : KeysValid v) : KeysValid (update f parts v) := by
  induction parts generalizing v with
  | nil => exact hf v h
  | cons p rest ih =>
    have hp := hparts p (by simp)
    have hg := h.GetOrCreateSection p hp
    simp only [omfl.update]
    exact KeysValid.mapSet hg.1 hp (ih (fun q hq => hparts q (by simp [hq])) _ hg.2)

theorem KeysValid.resolve (parts : List Str) (hparts : ∀ p ∈ parts, IsValidKey p = true)
    (v : Value) (h : KeysValid v) : KeysValid (resolve parts v) := by
  induction parts generalizing v with
  | nil => exact h
  | cons p rest ih =>
    have hp := hparts p (by simp)
    simp only [omfl.resolve]
    exact ih (fun q hq => hparts q (by simp [hq])) _ (h.GetOrCreateSection p hp).2

theorem KeysValid.SetKeyValue {t : Value} (h : KeysValid t) (key : Str) (value : Value)
    (hkey : IsValidKey key = true) (hvalue : KeysValid value) :
    KeysValid (t.SetKeyValue key value) :=
  KeysValid.mapSet h.asMap_keys hkey hvalue

theorem KeysValid.GetRef {t : Value} (h : KeysValid t) (key : Str) (x : Value)
    (hx : t.GetRef key = some x) : IsValidKey key = true ∧ KeysValid x :=
  h.asMap_keys key x (mem_of_mapFind key x _ (GetRef_eq_mapFind_asMap t key x hx))

theorem stateAfter_keys_valid (stof : StofFn) (lines : List Str) (st st' : ParseState)
    (h : stateAfter stof lines st = some st')
    (hpath : ∀ p ∈ st.current_section_path, IsValidKey p = true)
    (hroot : KeysValid st.config.root_) : KeysValid st'.config.root_ := by
  induction lines generalizing st with
  | nil =>
    simp only [stateAfter, Option.some.injEq] at h
    subst h
    exact hroot
  | cons raw_line rest ih =>
    simp only [stateAfter] at h
    split at h
    · rename_i st1 h1
      have hp1 := stateAfter_path_valid stof [raw_line] st st1
        (by simp only [stateAfter, h1]) hpath
      refine ih st1 h hp1 ?_
      rcases parseLine_proceed_cases stof st st1 raw_line h1 with
        ⟨e, -, -⟩ | ⟨parts, hh, e⟩ | ⟨key, value, parsed, -, hkey, hp, -, e⟩
      · rw [e]; exact hroot
      · rw [e]
        exact KeysValid.update (fun t ht => ht) parts (headerOf_valid raw_line parts hh) _ hroot
      · rw [e]
        exact KeysValid.update
          (fun t ht => ht.SetKeyValue key parsed hkey
            (KeysValid.leaf parsed (ParseValue_not_section stof value parsed hp)))
          _ hpath _ hroot
    · cases h

/-- What holds in every state the loop of `parse` reaches: the document is still valid,
the walk along the current section path changes nothing, and the current section path
and all keys of the tree satisfy `IsValidKey`. -/
theorem reached_invariant (stof : StofFn) (lines : List Str) (st : ParseState)
    (h : stateAfter stof lines ParseState.initial = some st) :
    st.config.valid_ = true ∧ WalkStable st ∧
      (∀ p ∈ st.current_section_path, IsValidKey p = true) ∧ KeysValid st.config.root_ := by
  have hp0 : ∀ p ∈ ParseState.initial.current_section_path, IsValidKey p = true :=
    fun p hp => by simp [ParseState.initial] at hp
  obtain ⟨h1, h2⟩ := stateAfter_invariant stof lines _ st WalkStable_initial h
  exact ⟨h1, h2, stateAfter_path_valid stof lines _ st h hp0,
    stateAfter_keys_valid stof lines _ st h hp0 KeysValid.CreateSection⟩

/-! ## `ParseValue`: the recursion depth -/

theorem skipSpaces_length_le (s : Str) : (skipSpaces s).length ≤ s.length := by
  induction s with
  | nil => simp [skipSpaces]
  | cons c cs ih =>
    simp only [skipSpaces]
    split_ifs
    · exact Nat.le_succ_of_le ih
    · exact Nat.le_refl _

theorem Trim_length_le (s : Str) : (Trim s).length ≤ s.length := by
  unfold Trim
  rw [List.length_reverse]
  calc (skipSpaces (skipSpaces s).reverse).length
      ≤ (skipSpaces s).reverse.length := skipSpaces_length_le _
    _ = (skipSpaces s).length := List.length_reverse _
    _ ≤ s.length := skipSpaces_length_le s

/-- The loop of `ParseArrayElements` calls `ParseValue` only on texts no longer than
what it has accumulated and has still to read. -/
theorem ParseArrayLoop_congr (pv pv' : Str → Except Thrown Value) (bound : Nat)
    (hpv : ∀ t : Str, t.length ≤ bound → pv t = pv' t) (rest : Str) (st : ArrayScan)
    (hb : st.curr_element.length + rest.length ≤ bound) :
    ParseArrayLoop pv rest st = ParseArrayLoop pv' rest st := by
  induction rest generalizing st with
  | nil => rfl
  | cons c cs ih =>
    simp only [List.length_cons] at hb
    have hcur : (Trim st.curr_element).length ≤ bound :=
      (Trim_length_le _).trans (by omega)
    simp only [ParseArrayLoop]
    rw [hpv _ hcur]
    have h1 : ∀ st' : ArrayScan, st'.curr_element.length ≤ st.curr_element.length + 1 →
        ParseArrayLoop pv cs st' = ParseArrayLoop pv' cs st' :=
      fun st' h => ih st' (by omega)
    split_ifs
    all_goals first
      | exact h1 _ (by simp)
      | (cases pv' (Trim st.curr_element) with
         | error e => rfl
         | ok parsed =>
           dsimp only
           split_ifs
           · rfl
           · exact h1 _ (by simp))

theorem ParseArrayLoop_curr_length (pv : Str → Except Thrown Value) (rest : Str)
    (st st' : ArrayScan) (h : ParseArrayLoop pv rest st = .ok (some st')) :
    st'.curr_element.length ≤ st.curr_element.length + rest.length := by
  induction rest generalizing st with
  | nil =>
    simp only [ParseArrayLoop, Except.ok.injEq, Option.some.injEq] at h
    subst h
    simp
  | cons c cs ih =>
    simp only [ParseArrayLoop] at h
    simp only [List.length_cons]
    split_ifs at h
    all_goals first
      | (have hlen := ih _ h; simp at hlen; omega)
      | (split at h
         · cases h
         · split_ifs at h
           · cases h
           · have := ih _ h
             simp at this
             omega)

theorem ParseArrayElements_congr (pv pv' : Str → Except Thrown Value) (value_str : Str)
    (hpv : ∀ t : Str, t.length + 2 ≤ value_str.length → pv t = pv' t) :
    ParseArrayElements pv value_str = ParseArrayElements pv' value_str := by
  have hsub : (substr value_str 1 (value_str.length - 2)).length ≤ value_str.length - 2 := by
    simp only [substr, List.length_take, List.length_drop]
    omega
  have hcontent := (Trim_length_le (substr value_str 1 (value_str.length - 2))).trans hsub
  by_cases hlen : value_str.length < 2
  · have h0 : (Trim (substr value_str 1 (value_str.length - 2))).length = 0 := by omega
    have h1 : Trim (substr value_str 1 (value_str.length - 2)) = [] :=
      List.length_eq_zero.mp h0
    simp only [ParseArrayElements, h1, List.isEmpty_nil, if_true]
  · have hpv2 : ∀ t : Str,
        t.length ≤ (Trim (substr value_str 1 (value_str.length - 2))).length →
          pv t = pv' t :=
      fun t ht => hpv t (by omega)
    have hloop := ParseArrayLoop_congr pv pv' _ hpv2
      (Trim (substr value_str 1 (value_str.length - 2))) ⟨[], [], 0, false⟩ (by simp)
    simp only [ParseArrayElements]
    rw [hloop]
    split_ifs
    · rfl
    · cases hr : ParseArrayLoop pv' (Trim (substr value_str 1 (value_str.length - 2)))
          ⟨[], [], 0, false⟩ with
      | error e => rfl
      | ok r =>
        cases r with
        | none => rfl
        | some st =>
          have hlen2 := ParseArrayLoop_curr_length pv' _ _ st hr
          simp only [List.length_nil, Nat.zero_add] at hlen2
          have := hpv2 (Trim st.curr_element) ((Trim_length_le _).trans hlen2)
          simp only [ParseArrayTail, this]

theorem ParseValueBody_congr (stof : StofFn) (pv pv' : Str → Except Thrown Value)
    (value_str : Str) (hpv : ∀ t : Str, t.length + 2 ≤ value_str.length → pv t = pv' t) :
    ParseValueBody stof pv value_str = ParseValueBody stof pv' value_str := by
  simp only [ParseValueBody, ParseArrayElements_congr pv pv' value_str hpv]

theorem ParseValueDepth_stable (stof : StofFn) (n : Nat) :
    ∀ (m : Nat) (s : Str), s.length < n → s.length < m →
      ParseValueDepth stof n s = ParseValueDepth stof m s := by
  induction n with
  | zero => intro m s h; omega
  | succ n ih =>
    intro m s hn hm
    cases m with
    | zero => omega
    | succ m =>
      simp only [ParseValueDepth]
      exact ParseValueBody_congr stof _ _ s (fun t ht => ih m t (by omega) (by omega))

/-- The recursion depth `ParseValue` starts from is never used up: any larger depth
gives the same result. -/
theorem ParseValueDepth_eq (stof : StofFn) (n : Nat) (s : Str) (h : s.length < n) :
    ParseValueDepth stof n s = ParseValue stof s :=
  ParseValueDepth_stable stof n (s.length + 1) s h (Nat.lt_succ_self _)

/-- The defining equation of `ParseValue` (parser.cpp 250-281): the recursive calls are
calls of `ParseValue` itself. -/
theorem ParseValue_eq (stof : StofFn) (s : Str) :
    ParseValue stof s = ParseValueBody stof (ParseValue stof) s := by
  show ParseValueBody stof (ParseValueDepth stof s.length) s = _
  exact ParseValueBody_congr stof _ _ s (fun t ht => ParseValueDepth_eq stof _ t (by omega))

/-! ## The loop of `ParseArrayElements` -/

theorem ParseArrayLoop_append (pv : Str → Except Thrown Value) (x y : Str) (st : ArrayScan) :
    ParseArrayLoop pv (x ++ y) st =
      match ParseArrayLoop pv x st with
      | .ok (some st') => ParseArrayLoop pv y st'
      | other => other := by
  induction x generalizing st with
  | nil => rfl
  | cons c cs ih =>
    simp only [List.cons_append, ParseArrayLoop]
    split_ifs
    all_goals first
      | exact ih _
      | (cases pv (Trim st.curr_element) with
         | error e => rfl
         | ok parsed =>
           dsimp only
           split_ifs
           · rfl
           · exact ih _)

theorem ParseArrayLoop_nesting (pv : Str → Except Thrown Value) (x : Str) (st st' : ArrayScan)
    (h : ParseArrayLoop pv x st = .ok (some st')) :
    (st'.bracket_level, st'.in_string) = scanNesting x (st.bracket_level, st.in_string) := by
  induction x generalizing st with
  | nil =>
    simp only [ParseArrayLoop, Except.ok.injEq, Option.some.injEq] at h
    subst h
    rfl
  | cons c cs ih =>
    simp only [ParseArrayLoop] at h
    simp only [scanNesting]
    split_ifs at h ⊢
    all_goals first
      | (have h2 := ih _ h; exact h2)
      | (split at h
         · cases h
         · split_ifs at h
           · cases h
           · have h2 := ih _ h
             exact h2)

theorem scanNesting_skipSpaces (s : Str) (nesting : Int × Bool) :
    scanNesting (skipSpaces s) nesting = scanNesting s nesting := by
  induction s with
  | nil => rfl
  | cons c cs ih =>
    obtain ⟨level, in_string⟩ := nesting
    simp only [skipSpaces]
    split_ifs with hc
    · simp only [IsSpace, decide_eq_true_eq] at hc
      subst hc
      rw [ih]
      simp only [scanNesting]
      cases in_string <;> simp
    · rfl

theorem skipSpaces_append_of_ne (a r : Str) (c : Char) (hc : c ≠ ' ') :
    skipSpaces (a ++ c :: r) = skipSpaces a ++ c :: r := by
  induction a with
  | nil => simp [skipSpaces, IsSpace, hc]
  | cons x xs ih =>
    simp only [List.cons_append, skipSpaces]
    split_ifs
    · exact ih
    · rfl

theorem skipSpaces_of_spaces (spaces : Str) (h : ∀ c ∈ spaces, c = ' ') :
    skipSpaces spaces = [] := by
  induction spaces with
  | nil => rfl
  | cons x xs ih =>
    have hx : x = ' ' := h x (by simp)
    simp only [skipSpaces, IsSpace, hx, decide_True, if_true]
    exact ih (fun c hc => h c (by simp [hc]))

theorem Trim_of_spaces (spaces : Str) (h : ∀ c ∈ spaces, c = ' ') : Trim spaces = [] := by
  simp [Trim, skipSpaces_of_spaces spaces h, skipSpaces]

/-- `Trim` around a character that is not a space: the spaces go at the two ends only. -/
theorem Trim_append_of_ne (a r : Str) (c : Char) (hc : c ≠ ' ') :
    Trim (a ++ c :: r) = skipSpaces a ++ c :: (skipSpaces r.reverse).reverse := by
  unfold Trim
  rw [skipSpaces_append_of_ne a r c hc]
  have : (skipSpaces a ++ c :: r).reverse = r.reverse ++ c :: (skipSpaces a).reverse := by
    simp
  rw [this, skipSpaces_append_of_ne _ _ c hc]
  simp

theorem trimRight_append_of_ne (x b : Str) (c : Char) (hc : c ≠ ' ') :
    (skipSpaces (x ++ c :: b).reverse).reverse = x ++ c :: (skipSpaces b.reverse).reverse := by
  have : (x ++ c :: b).reverse = b.reverse ++ c :: x.reverse := by simp
  rw [this, skipSpaces_append_of_ne _ _ c hc]
  simp

theorem ParseArrayLoop_spaces (pv : Str → Except Thrown Value) (spaces rest : Str)
    (h : ∀ c ∈ spaces, c = ' ') (st : ArrayScan) :
    ParseArrayLoop pv (spaces ++ rest) st =
      ParseArrayLoop pv rest { st with curr_element := st.curr_element ++ spaces } := by
  induction spaces generalizing st with
  | nil => simp
  | cons x xs ih =>
    have hx : x = ' ' := h x (by simp)
    subst hx
    show ParseArrayLoop pv (' ' :: (xs ++ rest)) st = _
    simp only [ParseArrayLoop]
    have e1 : ¬ (' ' = '"') := by decide
    have e2 : ¬ (' ' = '[') := by decide
    have e3 : ¬ (' ' = ']') := by decide
    have e4 : ¬ (' ' = ',') := by decide
    simp only [e1, e2, e3, e4, false_and, if_false, ite_self]
    rw [ih (fun c hc => h c (by simp [hc]))]
    simp

/-- At bracket depth 0 and outside a string, a segment of spaces between two commas
leaves the loop of `ParseArrayElements` where it was. -/
theorem ParseArrayLoop_blank_segment (pv : Str → Except Thrown Value) (spaces rest : Str)
    (h : ∀ c ∈ spaces, c = ' ') (elements : List Value) :
    ParseArrayLoop pv (spaces ++ ',' :: rest) ⟨elements, [], 0, false⟩ =
      ParseArrayLoop pv rest ⟨elements, [], 0, false⟩ := by
  rw [ParseArrayLoop_spaces pv spaces _ h]
  simp only [List.nil_append, ParseArrayLoop]
  have e1 : ¬ (',' = '"') := by decide
  have e2 : ¬ (',' = '[') := by decide
  have e3 : ¬ (',' = ']') := by decide
  simp [e1, e2, e3, Trim_of_spaces spaces h]

theorem ParseArrayLoop_doubled_comma (pv : Str → Except Thrown Value) (spaces rest : Str)
    (h : ∀ c ∈ spaces, c = ' ') (st : ArrayScan)
    (hlevel : st.bracket_level = 0) (hstring : st.in_string = false) :
    ParseArrayLoop pv (',' :: (spaces ++ ',' :: rest)) st =
      ParseArrayLoop pv (',' :: rest) st := by
  obtain ⟨elements, curr, level, in_string⟩ := st
  simp only at hlevel hstring
  subst hlevel hstring
  have e1 : ¬ (',' = '"') := by decide
  have e2 : ¬ (',' = '[') := by decide
  have e3 : ¬ (',' = ']') := by decide
  simp only [ParseArrayLoop, e1, e2, e3, if_false, and_self, if_true,
    ParseArrayLoop_blank_segment pv spaces rest h]

/-! ## Walks along a path that exists -/

theorem update_id_of_lookup (parts : List Str) (v x : Value) (h : lookup parts v = some x) :
    update id parts v = v := by
  induction parts generalizing v with
  | nil => rfl
  | cons p rest ih =>
    simp only [lookup] at h
    cases hg : v.GetRef p with
    | none => rw [hg] at h; cases h
    | some c =>
      rw [hg] at h
      have hm := GetRef_eq_mapFind_asMap v p c hg
      simp only [update, GetOrCreateSection_snd_of_find v p c hm, ih c h]
      simp only [Value.GetOrCreateSection, hm, mapSet_of_mapFind p c _ hm]
      cases v <;> simp_all [Value.GetRef, Value.asMap]

theorem resolve_of_lookup (parts : List Str) (v x : Value) (h : lookup parts v = some x) :
    resolve parts v = x := by
  induction parts generalizing v with
  | nil => simpa [lookup] using h
  | cons p rest ih =>
    simp only [lookup] at h
    cases hg : v.GetRef p with
    | none => rw [hg] at h; cases h
    | some c =>
      rw [hg] at h
      have hm := GetRef_eq_mapFind_asMap v p c hg
      simp only [resolve, GetOrCreateSection_snd_of_find v p c hm]
      exact ih c h

theorem KeysValid.lookup {v : Value} (h : KeysValid v) (parts : List Str) (x : Value)
    (hx : lookup parts v = some x) : KeysValid x := by
  induction parts generalizing v with
  | nil =>
    simp only [omfl.lookup, Option.some.injEq] at hx
    rw [← hx]; exact h
  | cons p rest ih =>
    simp only [omfl.lookup] at hx
    cases hg : v.GetRef p with
    | none => rw [hg] at hx; cases hx
    | some c =>
      rw [hg] at hx
      exact ih (h.GetRef p c hg).2 hx

theorem parseKeyValueLine_accept (stof : StofFn) (st : ParseState) (key value : Str)
    (parsed : Value) (hkey : IsValidKey key = true)
    (hfree : ∀ existing, (resolve st.current_section_path st.config.root_).GetRef key =
      some existing → existing.IsSection = true)
    (hvalue : ParseValue stof value = .ok parsed) (hparsed : parsed.IsInvalid = false) :
    parseKeyValueLine stof st key value =
      .ok (.proceed ⟨⟨st.config.valid_, update (fun t => t.SetKeyValue key parsed)
        st.current_section_path st.config.root_⟩, st.current_section_path⟩) := by
  have hne : key.isEmpty = false := by
    cases key with
    | nil => simp [IsValidKey] at hkey
    | cons c cs => rfl
  have hguard : (match (resolve st.current_section_path st.config.root_).GetRef key with
      | some existing => !existing.IsSection
      | none => false) = false := by
    cases hg : (resolve st.current_section_path st.config.root_).GetRef key with
    | none => rfl
    | some existing => simp only [hfree existing hg, Bool.not_true]
  unfold parseKeyValueLine
  simp [hne, hkey, hguard, hvalue, hparsed]

/-! ## Array literals -/

theorem substr_bracket (body : Str) :
    substr ('[' :: (body ++ [']'])) 1 (('[' :: (body ++ [']'])).length - 2) = body := by
  simp [substr]

theorem IsStringValue_bracket (rest : Str) : IsStringValue ('[' :: rest) = false := by
  simp [IsStringValue]

theorem IsBoolValue_bracket (rest : Str) : IsBoolValue ('[' :: rest) = false := by
  simp [IsBoolValue]

theorem IsArrayValue_bracket (body : Str) : IsArrayValue ('[' :: (body ++ [']'])) = true := by
  have h : ('[' :: (body ++ [']'])).getLast? = some ']' := by
    rw [← List.cons_append, List.getLast?_append]
    rfl
  simp [IsArrayValue, h]

theorem ParseArrayElements_bracket_congr (pv : Str → Except Thrown Value) (body1 body2 : Str)
    (hne1 : Trim body1 ≠ []) (hne2 : Trim body2 ≠ [])
    (hloop : ParseArrayLoop pv (Trim body1) ⟨[], [], 0, false⟩ =
      ParseArrayLoop pv (Trim body2) ⟨[], [], 0, false⟩) :
    ParseArrayElements pv ('[' :: (body1 ++ [']'])) =
      ParseArrayElements pv ('[' :: (body2 ++ [']'])) := by
  have h1 : (Trim body1).isEmpty = false := by
    cases h : Trim body1 with
    | nil => exact absurd h hne1
    | cons c cs => rfl
  have h2 : (Trim body2).isEmpty = false := by
    cases h : Trim body2 with
    | nil => exact absurd h hne2
    | cons c cs => rfl
  simp only [ParseArrayElements, substr_bracket, h1, h2, hloop]

theorem ParseValueBody_bracket_congr (stof : StofFn) (pv : Str → Except Thrown Value)
    (body1 body2 : Str) (hne1 : Trim body1 ≠ []) (hne2 : Trim body2 ≠ [])
    (helements : ParseArrayElements pv ('[' :: (body1 ++ [']'])) =
      ParseArrayElements pv ('[' :: (body2 ++ [']']))) :
    ParseValueBody stof pv ('[' :: (body1 ++ [']'])) =
      ParseValueBody stof pv ('[' :: (body2 ++ [']'])) := by
  have h1 : (Trim body1).isEmpty = false := by
    cases h : Trim body1 with
    | nil => exact absurd h hne1
    | cons c cs => rfl
  have h2 : (Trim body2).isEmpty = false := by
    cases h : Trim body2 with
    | nil => exact absurd h hne2
    | cons c cs => rfl
  simp only [ParseValueBody, IsStringValue_bracket, IsBoolValue_bracket, IsArrayValue_bracket,
    substr_bracket, h1, h2, Bool.false_eq_true, if_false, if_true, helements]

theorem skipSpaces_spaces_append (spaces r : Str) (h : ∀ c ∈ spaces, c = ' ') :
    skipSpaces (spaces ++ r) = skipSpaces r := by
  induction spaces with
  | nil => rfl
  | cons x xs ih =>
    have hx : x = ' ' := h x (by simp)
    simp only [List.cons_append, skipSpaces, IsSpace, hx, decide_True, if_true]
    exact ih (fun c hc => h c (by simp [hc]))

theorem skipSpaces_append (x r : Str) :
    skipSpaces (x ++ r) = if skipSpaces x = [] then skipSpaces r else skipSpaces x ++ r := by
  induction x with
  | nil => simp [skipSpaces]
  | cons c cs ih =>
    simp only [List.cons_append, skipSpaces]
    split_ifs with h1 h2 h3
    · exact ih.trans (if_pos h2)
    · exact ih.trans (if_neg h2)
    · cases h3
    · rfl

theorem skipSpaces_decompose (s : Str) :
    ∃ spaces : Str, (∀ c ∈ spaces, c = ' ') ∧ s = spaces ++ skipSpaces s := by
  induction s with
  | nil => exact ⟨[], by simp, rfl⟩
  | cons c cs ih =>
    simp only [skipSpaces]
    split_ifs with h
    · obtain ⟨sp, hsp, he⟩ := ih
      simp only [IsSpace, decide_eq_true_eq] at h
      refine ⟨c :: sp, ?_, by rw [List.cons_append, ← he]⟩
      intro x hx
      rcases List.mem_cons.mp hx with h1 | h1
      · rw [h1, h]
      · exact hsp x h1
    · exact ⟨[], by simp, rfl⟩

theorem trimRight_decompose (s : Str) :
    ∃ spaces : Str, (∀ c ∈ spaces, c = ' ') ∧ s = (skipSpaces s.reverse).reverse ++ spaces := by
  obtain ⟨sp, hsp, he⟩ := skipSpaces_decompose s.reverse
  refine ⟨sp.reverse, fun c hc => hsp c (List.mem_reverse.mp hc), ?_⟩
  have := congrArg List.reverse he
  simpa using this

theorem Trim_append_spaces (x spaces : Str) (h : ∀ c ∈ spaces, c = ' ') :
    Trim (x ++ spaces) = Trim x := by
  have hrev : ∀ c ∈ spaces.reverse, c = ' ' := fun c hc => h c (List.mem_reverse.mp hc)
  unfold Trim
  rw [skipSpaces_append]
  split_ifs with h1
  · rw [h1, skipSpaces_of_spaces spaces h]
  · rw [List.reverse_append, skipSpaces_spaces_append _ _ hrev]

theorem scanNesting_append (x y : Str) (nesting : Int × Bool) :
    scanNesting (x ++ y) nesting = scanNesting y (scanNesting x nesting) := by
  induction x generalizing nesting with
  | nil => rfl
  | cons c cs ih =>
    obtain ⟨level, in_string⟩ := nesting
    simp only [List.cons_append, scanNesting]
    split_ifs <;> exact ih _

theorem scanNesting_spaces (spaces : Str) (h : ∀ c ∈ spaces, c = ' ') (nesting : Int × Bool) :
    scanNesting spaces nesting = nesting := by
  have := scanNesting_skipSpaces spaces nesting
  rw [skipSpaces_of_spaces spaces h] at this
  exact this.symm

theorem scanNesting_Trim (s : Str) (nesting : Int × Bool) :
    scanNesting (Trim s) nesting = scanNesting s nesting := by
  obtain ⟨sp, hsp, he⟩ := trimRight_decompose (skipSpaces s)
  have h1 : scanNesting (skipSpaces s) nesting = scanNesting (Trim s) nesting := by
    conv => lhs; rw [he]
    rw [scanNesting_append, scanNesting_spaces sp hsp]
    rfl
  rw [← h1, scanNesting_skipSpaces]

theorem ParseArrayTail_cleared (pv : Str → Except Thrown Value) (elements : List Value) :
    ParseArrayTail pv ⟨elements, [], 0, false⟩ = .ok elements := by
  simp [ParseArrayTail, Trim, skipSpaces]

/-- A comma after the last element, with nothing or only spaces after it, adds no
element: the elements are those of the literal without it. -/
theorem ParseArrayElements_trailing_comma (pv : Str → Except Thrown Value) (a spaces : Str)
    (hspaces : ∀ c ∈ spaces, c = ' ') (htop : scanNesting a (0, false) = (0, false))
    (hne : Trim a ≠ []) :
    ParseArrayElements pv ('[' :: (a ++ ',' :: spaces ++ [']'])) =
      ParseArrayElements pv ('[' :: (a ++ [']'])) := by
  have hc : (',' : Char) ≠ ' ' := by decide
  have hrev : ∀ c ∈ spaces.reverse, c = ' ' :=
    fun c hc => hspaces c (List.mem_reverse.mp hc)
  have ht1 : Trim (a ++ ',' :: spaces) = skipSpaces a ++ [','] := by
    rw [Trim_append_of_ne a _ ',' hc, skipSpaces_of_spaces _ hrev]
    rfl
  obtain ⟨sp2, hsp2, he⟩ := trimRight_decompose (skipSpaces a)
  have he2 : skipSpaces a = Trim a ++ sp2 := he
  have h1 : (Trim (a ++ ',' :: spaces)).isEmpty = false := by
    rw [ht1]; cases skipSpaces a <;> rfl
  have h2 : (Trim a).isEmpty = false := by
    cases h : Trim a with
    | nil => exact absurd h hne
    | cons c cs => rfl
  simp only [ParseArrayElements, substr_bracket, h1, h2, Bool.false_eq_true, if_false]
  rw [ht1, he2, List.append_assoc, ParseArrayLoop_append]
  cases hr : ParseArrayLoop pv (Trim a) ⟨[], [], 0, false⟩ with
  | error e => rfl
  | ok r =>
    cases r with
    | none => rfl
    | some st =>
      have hn := ParseArrayLoop_nesting _ _ _ st hr
      rw [scanNesting_Trim, htop] at hn
      simp only [Prod.mk.injEq] at hn
      obtain ⟨elements, curr, level, in_string⟩ := st
      simp only at hn
      obtain ⟨hl, hs⟩ := hn
      subst hl hs
      have e1 : ¬ (',' = '"') := by decide
      have e2 : ¬ (',' = '[') := by decide
      have e3 : ¬ (',' = ']') := by decide
      simp only [ParseArrayLoop_spaces pv sp2 _ hsp2, ParseArrayLoop, e1, e2, e3, if_false,
        and_self, if_true, Trim_append_spaces curr sp2 hsp2, ParseArrayTail, ne_eq,
        not_true_eq_false, Bool.false_eq_true, or_self]
      split_ifs
      · cases pv (Trim curr) with
        | error e => rfl
        | ok parsed =>
          dsimp only
          split_ifs
          · rfl
          · simp [Trim, skipSpaces]
      · simp [Trim, skipSpaces]

/-! ## What holds of the root all along `parse` -/

theorem parseLoop_root_invariant (stof : StofFn) (P : Value → Prop)
    (hid : ∀ parts v, P v → P (update id parts v))
    (hset : ∀ key value parsed path v, ParseValue stof value = .ok parsed →
      parsed.IsInvalid = false → P v →
      P (update (fun t => t.SetKeyValue key parsed) path v))
    (lines : List Str) (st : ParseState) (c : Config)
    (h : parseLoop stof lines st = .ok c) (hroot : P st.config.root_) : P c.root_ := by
  induction lines generalizing st with
  | nil =>
    simp only [parseLoop, Except.ok.injEq] at h
    subst h
    exact hroot
  | cons raw_line rest ih =>
    simp only [parseLoop] at h
    split at h
    · cases h
    · rename_i c1 h1
      injection h with h
      subst h
      rcases parseLine_stop stof st raw_line c1 h1 with h2 | h2
      · rw [h2]; exact hroot
      · rw [h2]; exact hid _ _ hroot
    · rename_i st1 h1
      refine ih st1 h ?_
      rcases parseLine_proceed_cases stof st st1 raw_line h1 with
        ⟨h2, -, -⟩ | ⟨parts, -, h2⟩ | ⟨key, value, parsed, -, -, hv, hp, h2⟩
      · rw [h2]; exact hroot
      · rw [h2]; exact hid _ _ hroot
      · rw [h2]; exact hset key value parsed _ _ hv hp hroot

theorem update_IsSection (f : Value → Value) (hf : ∀ t, t.IsSection = true → (f t).IsSection = true)
    (parts : List Str) (v : Value) (h : v.IsSection = true) :
    (update f parts v).IsSection = true := by
  cases parts with
  | nil => exact hf v h
  | cons p rest => rfl

theorem Sound.not_invalid {v : Value} (h : Sound v) : v.IsInvalid = false := by
  cases h <;> rfl

theorem Sound.asMap {v : Value} (h : Sound v) : ∀ k x, (k, x) ∈ v.asMap → Sound x := by
  cases h <;> first
    | (intro k x hm; simp [Value.asMap] at hm; done)
    | (rename_i m hm; exact hm)

theorem Sound.ofCreateSection : Sound Value.CreateSection :=
  Sound.sect [] (fun _ _ h => by simp at h)

theorem Sound.ofMapSet {m : List (Str × Value)} {key : Str} {value : Value}
    (hm : ∀ k x, (k, x) ∈ m → Sound x) (hvalue : Sound value) :
    Sound (.sect (mapSet key value m)) := by
  refine Sound.sect _ ?_
  intro k x hx
  rcases mem_mapSet key value m k x hx with h | ⟨-, h2⟩
  · exact hm k x h
  · rw [h2]; exact hvalue

theorem Sound.ofGetOrCreateSection {v : Value} (h : Sound v) (key : Str) :
    (∀ k x, (k, x) ∈ (v.GetOrCreateSection key).1 → Sound x) ∧
      Sound (v.GetOrCreateSection key).2 := by
  unfold Value.GetOrCreateSection
  cases hf : mapFind key v.asMap with
  | none =>
    refine ⟨?_, Sound.ofCreateSection⟩
    intro k x hx
    rcases mem_mapSet _ _ _ k x hx with h1 | ⟨-, h2⟩
    · exact h.asMap k x h1
    · rw [h2]; exact Sound.ofCreateSection
  | some child =>
    exact ⟨h.asMap, h.asMap key child (mem_of_mapFind key child _ hf)⟩

theorem Sound.ofUpdate {f : Value → Value} (hf : ∀ t, Sound t → Sound (f t))
    (parts : List Str) (v : Value) (h : Sound v) : Sound (update f parts v) := by
  induction parts generalizing v with
  | nil => exact hf v h
  | cons p rest ih =>
    have hg := h.ofGetOrCreateSection p
    simp only [omfl.update]
    exact Sound.ofMapSet hg.1 (ih _ hg.2)

theorem Sound.ofInside {w v : Value} (hin : Inside w v) (h : Sound v) : Sound w := by
  induction hin with
  | element xs x hx =>
    cases h with
    | array _ hxs => exact hxs x hx
  | child m k x hx =>
    cases h with
    | sect _ hm => exact hm k x hx
  | deeper w x v _ _ ih1 ih2 => exact ih1 (ih2 h)

theorem Sound.ofLookup (parts : List Str) (v x : Value) (h : Sound v)
    (hx : lookup parts v = some x) : Sound x := by
  induction parts generalizing v with
  | nil =>
    simp only [omfl.lookup, Option.some.injEq] at hx
    rw [← hx]; exact h
  | cons p rest ih =>
    simp only [omfl.lookup] at hx
    split at hx
    · cases hx
    · rename_i child hc
      exact ih child (h.asMap p child (mem_of_mapFind p child _
        (GetRef_eq_mapFind_asMap v p child hc))) hx

theorem ParseArrayLoop_sound (pv : Str → Except Thrown Value)
    (hpv : ∀ s v, pv s = .ok v → v.IsInvalid = false → Sound v)
    (text : Str) (st st' : ArrayScan) (hst : ∀ x, x ∈ st.elements → Sound x)
    (h : ParseArrayLoop pv text st = .ok (some st')) : ∀ x, x ∈ st'.elements → Sound x := by
  induction text generalizing st with
  | nil =>
    simp only [ParseArrayLoop, Except.ok.injEq, Option.some.injEq] at h
    subst h
    exact hst
  | cons c cs ih =>
    simp only [ParseArrayLoop] at h
    split_ifs at h with h1 h2 h3 h4 h5 h6
    · refine ih _ ?_ h; exact hst
    · refine ih _ ?_ h; exact hst
    · refine ih _ ?_ h; exact hst
    · split at h
      · cases h
      · rename_i parsed hp
        split_ifs at h with hi
        · cases h
        · refine ih _ ?_ h
          intro x hx
          simp only [List.mem_append, List.mem_singleton] at hx
          rcases hx with hx | hx
          · exact hst x hx
          · rw [hx]; exact hpv _ _ hp (by simpa using hi)
    · refine ih _ ?_ h; exact hst
    · refine ih _ ?_ h; exact hst
    · refine ih _ ?_ h; exact hst

theorem ParseArrayElements_sound (pv : Str → Except Thrown Value)
    (hpv : ∀ s v, pv s = .ok v → v.IsInvalid = false → Sound v)
    (value_str : Str) (elements : List Value)
    (h : ParseArrayElements pv value_str = .ok elements) : ∀ x, x ∈ elements → Sound x := by
  unfold ParseArrayElements at h
  dsimp only at h
  split_ifs at h
  · injection h with h
    subst h
    intro x hx
    simp at hx
  · split at h
    · cases h
    · injection h with h
      subst h
      intro x hx
      simp at hx
    · rename_i st hst
      have hel := ParseArrayLoop_sound pv hpv _ _ st (fun x hx => by simp at hx) hst
      unfold ParseArrayTail at h
      split_ifs at h
      · injection h with h
        subst h
        intro x hx
        simp at hx
      · split at h
        · cases h
        · rename_i parsed hp
          split_ifs at h with hi
          · injection h with h
            subst h
            intro x hx
            simp at hx
          · injection h with h
            subst h
            intro x hx
            simp only [List.mem_append, List.mem_singleton] at hx
            rcases hx with hx | hx
            · exact hel x hx
            · rw [hx]; exact hpv _ _ hp (by simpa using hi)
      · injection h with h
        subst h
        exact hel

theorem ParseValueBody_sound (stof : StofFn) (pv : Str → Except Thrown Value)
    (hpv : ∀ s v, pv s = .ok v → v.IsInvalid = false → Sound v)
    (value_str : Str) (v : Value) (h : ParseValueBody stof pv value_str = .ok v)
    (hv : v.IsInvalid = false) : Sound v := by
  unfold ParseValueBody at h
  by_cases h1 : IsStringValue value_str = true
  · rw [if_pos h1] at h
    injection h with h; subst h; exact Sound.string _
  rw [if_neg h1] at h
  by_cases h2 : IsBoolValue value_str = true
  · rw [if_pos h2] at h
    injection h with h; subst h; exact Sound.bool _
  rw [if_neg h2] at h
  by_cases h3 : IsArrayValue value_str = true
  · rw [if_pos h3] at h
    split at h
    · cases h
    · rename_i elements he
      have hs := ParseArrayElements_sound pv hpv _ _ he
      split_ifs at h
      · injection h with h; subst h; exact Sound.array _ (fun x hx => by simp at hx)
      · injection h with h; subst h; cases hv
      · injection h with h; subst h; exact Sound.array _ hs
  rw [if_neg h3] at h
  by_cases h4 : IsFloatValue value_str = true
  · rw [if_pos h4] at h
    split at h
    · cases h
    · injection h with h; subst h; exact Sound.float _
  rw [if_neg h4] at h
  by_cases h5 : IsIntValue value_str = true
  · rw [if_pos h5] at h
    split at h
    · cases h
    · injection h with h; subst h; exact Sound.int _
  rw [if_neg h5] at h
  injection h with h; subst h; cases hv

theorem ParseValueDepth_sound (stof : StofFn) (depth : Nat) (value_str : Str) (v : Value)
    (h : ParseValueDepth stof depth value_str = .ok v) (hv : v.IsInvalid = false) :
    Sound v := by
  induction depth generalizing value_str v with
  | zero =>
    simp only [ParseValueDepth, Except.ok.injEq] at h
    subst h
    cases hv
  | succ depth ih =>
    exact ParseValueBody_sound stof _ (fun s x hs hx => ih s x hs hx) value_str v h hv

/-- A value `ParseValue` returns is Invalid, or holds no Invalid value. -/
theorem ParseValue_sound (stof : StofFn) (value_str : Str) (v : Value)
    (h : ParseValue stof value_str = .ok v) (hv : v.IsInvalid = false) : Sound v :=
  ParseValueDepth_sound stof _ value_str v h hv

theorem parseLoop_sound (stof : StofFn) (lines : List Str) (st : ParseState) (c : Config)
    (h : parseLoop stof lines st = .ok c) (hroot : Sound st.config.root_) : Sound c.root_ :=
  parseLoop_root_invariant stof Sound
    (fun parts v hv => Sound.ofUpdate (fun _ ht => ht) parts v hv)
    (fun _ value parsed path v hp hi hv =>
      Sound.ofUpdate (fun _ ht => Sound.ofMapSet ht.asMap (ParseValue_sound stof value parsed hp hi))
        path v hv)
    lines st c h hroot

theorem parseLoop_IsSection (stof : StofFn) (lines : List Str) (st : ParseState) (c : Config)
    (h : parseLoop stof lines st = .ok c) (hroot : st.config.root_.IsSection = true) :
    c.root_.IsSection = true :=
  parseLoop_root_invariant stof (fun v => v.IsSection = true)
    (fun parts v hv => update_IsSection id (fun _ ht => ht) parts v hv)
    (fun key _ parsed path v _ _ hv =>
      update_IsSection (fun t => t.SetKeyValue key parsed) (fun _ _ => rfl) path v hv)
    lines st c h hroot

/-! ## `SplitPath` and the pieces of a path -/

theorem splitOnDots_ne_nil (path : Str) : splitOnDots path ≠ [] := by
  cases path with
  | nil => simp [splitOnDots]
  | cons c cs =>
    simp only [splitOnDots]
    split_ifs
    · simp
    · split <;> simp

theorem splitOnDots_append (a b : Str) :
    splitOnDots (a ++ '.' :: b) = splitOnDots a ++ splitOnDots b := by
  induction a with
  | nil => simp [splitOnDots]
  | cons c cs ih =>
    show splitOnDots (c :: (cs ++ '.' :: b)) = _
    simp only [splitOnDots]
    rw [ih]
    split_ifs
    · rfl
    · cases hs : splitOnDots cs with
      | nil => exact absurd hs (splitOnDots_ne_nil cs)
      | cons piece pieces => rfl

theorem splitOnDots_of_no_dot (k : Str) (h : '.' ∉ k) : splitOnDots k = [k] := by
  induction k with
  | nil => rfl
  | cons c cs ih =>
    have hc : c ≠ '.' := fun e => h (by simp [e])
    have hcs : '.' ∉ cs := fun e => h (by simp [e])
    simp only [splitOnDots, hc, if_false, ih hcs]

theorem pathSegments_append (a b : Str) :
    pathSegments (a ++ '.' :: b) = pathSegments a ++ pathSegments b := by
  simp only [pathSegments, splitOnDots_append, List.filter_append]

theorem pathSegments_of_key (k : Str) (hk : k ≠ []) (h : '.' ∉ k) : pathSegments k = [k] := by
  cases k with
  | nil => exact absurd rfl hk
  | cons c cs => simp [pathSegments, splitOnDots_of_no_dot _ h]

theorem SplitPathFrom_eq_pieces (curr path : Str) :
    SplitPathFrom curr path =
      ((curr ++ (splitOnDots path).headD []) :: (splitOnDots path).tail).filter
        (fun piece => !piece.isEmpty) := by
  induction path generalizing curr with
  | nil =>
    cases curr <;> simp [SplitPathFrom, splitOnDots]
  | cons c cs ih =>
    have hcons : ∀ l : List Str, l ≠ [] → ([] ++ l.headD []) :: l.tail = l := by
      intro l hl
      cases l with
      | nil => exact absurd rfl hl
      | cons x xs => rfl
    by_cases hc : c = '.'
    · simp only [SplitPathFrom, splitOnDots, hc, if_true, List.headD_cons, List.tail_cons,
        List.append_nil]
      cases curr with
      | nil =>
        simp only [List.isEmpty_nil, Bool.not_true, Bool.false_eq_true, if_false]
        rw [ih, hcons _ (splitOnDots_ne_nil cs)]
        simp
      | cons x xs =>
        simp only [List.isEmpty_cons, Bool.not_false, if_true]
        rw [ih, hcons _ (splitOnDots_ne_nil cs)]
        simp
    · simp only [SplitPathFrom, splitOnDots, hc, if_false]
      rw [ih]
      cases hs : splitOnDots cs with
      | nil => exact absurd hs (splitOnDots_ne_nil cs)
      | cons piece pieces => simp

/-- `SplitPath` returns the non-empty pieces of the path split on `.`. -/
theorem SplitPath_eq_pathSegments (path : Str) : SplitPath path = pathSegments path := by
  unfold SplitPath pathSegments
  rw [SplitPathFrom_eq_pieces]
  cases hs : splitOnDots path with
  | nil => exact absurd hs (splitOnDots_ne_nil path)
  | cons piece pieces => simp

theorem foldl_Get_invalid (parts : List Str) : parts.foldl Value.Get .invalid = .invalid := by
  induction parts with
  | nil => rfl
  | cons p rest ih => exact ih

theorem foldl_Get_eq_lookup (parts : List Str) (v : Value) :
    parts.foldl Value.Get v = (lookup parts v).getD .invalid := by
  induction parts generalizing v with
  | nil => rfl
  | cons p rest ih =>
    simp only [List.foldl_cons, lookup, Value.Get]
    cases v.GetRef p with
    | none => exact foldl_Get_invalid rest
    | some child => exact ih child

theorem GetParts_eq_foldl (parts : List Str) (root : Value) :
    GetParts parts root = if parts = [] then .invalid else parts.foldl Value.Get root := by
  by_cases h : parts = []
  · subst h; rfl
  · rw [if_neg h, GetParts_eq_lookup parts root h, foldl_Get_eq_lookup]

theorem Get_of_not_section (v : Value) (key : Str) (h : v.IsSection = false) :
    v.Get key = .invalid := by
  cases v <;> simp_all [Value.Get, Value.GetRef, Value.IsSection]

/-! ## Decimal renderings and quoted strings -/

theorem decimal_ofNat (m : Nat) : decimal (m : Int) = Nat.toDigits 10 m := rfl

theorem decimal_negSucc (m : Nat) :
    decimal (Int.negSucc m) = '-' :: Nat.toDigits 10 (m + 1) := rfl

theorem digitChar_value (k : Nat) (h : k < 10) :
    (Nat.digitChar k).toNat - '0'.toNat = k ∧ IsDigit (Nat.digitChar k) = true := by
  interval_cases k <;> exact ⟨rfl, rfl⟩

theorem toDigitsCore_value (fuel n : Nat) (ds : List Char) (h : n < fuel) :
    (Nat.toDigitsCore 10 fuel n ds).foldl (fun acc c => 10 * acc + (c.toNat - '0'.toNat)) 0 =
      ds.foldl (fun acc c => 10 * acc + (c.toNat - '0'.toNat)) n := by
  induction fuel generalizing n ds with
  | zero => omega
  | succ fuel ih =>
    simp only [Nat.toDigitsCore]
    have hd := (digitChar_value (n % 10) (Nat.mod_lt _ (by decide))).1
    split_ifs with h0
    · simp only [List.foldl_cons, hd, Nat.mul_zero, Nat.zero_add]
      congr 1
      omega
    · rw [ih (n / 10) _ (by omega)]
      simp only [List.foldl_cons, hd]
      congr 1
      omega

theorem toDigitsCore_digits (fuel n : Nat) (ds : List Char) (h : ∀ c ∈ ds, IsDigit c = true) :
    ∀ c ∈ Nat.toDigitsCore 10 fuel n ds, IsDigit c = true := by
  induction fuel generalizing n ds with
  | zero => exact h
  | succ fuel ih =>
    have hd := (digitChar_value (n % 10) (Nat.mod_lt _ (by decide))).2
    have hcons : ∀ c ∈ Nat.digitChar (n % 10) :: ds, IsDigit c = true := by
      intro c hc
      rcases List.mem_cons.1 hc with hc | hc
      · rw [hc]; exact hd
      · exact h c hc
    simp only [Nat.toDigitsCore]
    split_ifs
    · exact hcons
    · exact ih _ _ hcons

theorem toDigitsCore_ne_nil (fuel n : Nat) (ds : List Char) (h : 0 < fuel ∨ ds ≠ []) :
    Nat.toDigitsCore 10 fuel n ds ≠ [] := by
  induction fuel generalizing n ds with
  | zero =>
    rcases h with h | h
    · omega
    · exact h
  | succ fuel ih =>
    simp only [Nat.toDigitsCore]
    split_ifs
    · simp
    · exact ih _ _ (Or.inr (by simp))

theorem digitsValue_toDigits (n : Nat) : digitsValue (Nat.toDigits 10 n) = n :=
  toDigitsCore_value (n + 1) n [] (by omega)

theorem toDigits_digits (n : Nat) : (Nat.toDigits 10 n).all IsDigit = true :=
  List.all_eq_true.2 (toDigitsCore_digits (n + 1) n [] (fun c hc => by simp at hc))

theorem toDigits_ne_nil (n : Nat) : Nat.toDigits 10 n ≠ [] :=
  toDigitsCore_ne_nil (n + 1) n [] (Or.inl (by omega))

theorem find_none_of_not_mem (c : Char) (s : Str) (pos : Nat) (h : c ∉ s) :
    find c s pos = none := by
  induction s generalizing pos with
  | nil => rfl
  | cons x xs ih =>
    have hx : x ≠ c := fun e => h (by simp [e])
    have hxs : c ∉ xs := fun e => h (by simp [e])
    cases pos with
    | zero => simp only [find, hx, if_false, ih 0 hxs, Option.map_none']
    | succ pos => simp only [find, ih pos hxs, Option.map_none']

theorem not_mem_of_all_digits (c : Char) (hc : IsDigit c = false) (s : Str)
    (h : s.all IsDigit = true) : c ∉ s := by
  intro hm
  rw [List.all_eq_true.1 h c hm] at hc
  cases hc

theorem ParseValue_of_digits (stof : StofFn) (sign ds : Str) (hne : ds ≠ [])
    (hd : ds.all IsDigit = true) (hsign : sign = [] ∨ sign = ['-'])
    (number : Int)
    (hnumber : number = if sign = ['-'] then -(digitsValue ds : Int) else digitsValue ds)
    (hlo : -2147483648 ≤ number) (hhi : number ≤ 2147483647) :
    ParseValue stof (sign ++ ds) = .ok (.int number) := by
  obtain ⟨d, rest, rfl⟩ := List.exists_cons_of_ne_nil hne
  have hdd : IsDigit d = true := List.all_eq_true.1 hd d (by simp)
  have hnot : ∀ c, IsDigit c = false → c ∉ d :: rest :=
    fun c hc => not_mem_of_all_digits c hc _ hd
  have hd1 : d ≠ '"' := fun e => hnot '"' rfl (by simp [e])
  have hd2 : d ≠ '[' := fun e => hnot '[' rfl (by simp [e])
  have hd3 : d ≠ '+' := fun e => hnot '+' rfl (by simp [e])
  have hd4 : d ≠ '-' := fun e => hnot '-' rfl (by simp [e])
  have hdot : '.' ∉ d :: rest := hnot '.' rfl
  rw [ParseValue_eq]
  rcases hsign with hs | hs
  · subst hs
    rw [if_neg (by decide)] at hnumber
    subst hnumber
    simp only [List.nil_append]
    have h1 : IsStringValue (d :: rest) = false := by
      simp [IsStringValue, hd1]
    have h2 : IsBoolValue (d :: rest) = false := by
      simp only [IsBoolValue, Bool.or_eq_false_iff, decide_eq_false_iff_not]
      constructor
      · intro e
        exact hnot 't' rfl (by rw [e]; decide)
      · intro e
        exact hnot 'f' rfl (by rw [e]; decide)
    have h3 : IsArrayValue (d :: rest) = false := by
      simp [IsArrayValue, hd2]
    have h0 : signLength (d :: rest) = 0 := by
      simp [signLength, hd3, hd4]
    have h4 : IsFloatValue (d :: rest) = false := by
      simp [IsFloatValue, h0, find_none_of_not_mem '.' _ 0 hdot]
    have h5 : IsIntValue (d :: rest) = true := by
      simp only [IsIntValue, h0, List.drop_zero, hd]
      simp
    have h6 : stoi (d :: rest) = .ok (digitsValue (d :: rest) : Int) := by
      simp only [stoi, h0, List.drop_zero, List.head?_cons, Option.some.injEq, hd4, if_false]
      rw [if_neg (by omega)]
    simp only [ParseValueBody, h1, h2, h3, h4, h5, h6, if_true, Bool.false_eq_true, if_false]
  · subst hs
    rw [if_pos rfl] at hnumber
    subst hnumber
    have h1 : IsStringValue ('-' :: d :: rest) = false := by
      simp [IsStringValue]
    have h2 : IsBoolValue ('-' :: d :: rest) = false := by
      simp [IsBoolValue]
    have h3 : IsArrayValue ('-' :: d :: rest) = false := by
      simp [IsArrayValue]
    have h0 : signLength ('-' :: d :: rest) = 1 := by
      simp [signLength]
    have hdot2 : '.' ∉ '-' :: d :: rest := by
      intro hm
      rcases List.mem_cons.1 hm with hm | hm
      · cases hm
      · exact hdot hm
    have h4 : IsFloatValue ('-' :: d :: rest) = false := by
      simp [IsFloatValue, h0, find_none_of_not_mem '.' _ 1 hdot2]
    have h5 : IsIntValue ('-' :: d :: rest) = true := by
      simp only [IsIntValue, h0, List.drop_succ_cons, List.drop_zero, hd]
      simp
    have h6 : stoi ('-' :: d :: rest) = .ok (-(digitsValue (d :: rest) : Int)) := by
      simp only [stoi, h0, List.drop_succ_cons, List.drop_zero, List.head?_cons, if_true]
      rw [if_neg (by omega)]
    show ParseValueBody stof (ParseValue stof) ('-' :: d :: rest) = _
    simp only [ParseValueBody, h1, h2, h3, h4, h5, h6, if_true, Bool.false_eq_true, if_false]

theorem ParseValue_decimal (stof : StofFn) (n : Int) (hlo : -2147483648 ≤ n)
    (hhi : n ≤ 2147483647) : ParseValue stof (decimal n) = .ok (.int n) := by
  cases n with
  | ofNat m =>
    have h := ParseValue_of_digits stof [] (Nat.toDigits 10 m) (toDigits_ne_nil m)
      (toDigits_digits m) (Or.inl rfl) (Int.ofNat m)
      (by simp [digitsValue_toDigits]) hlo hhi
    exact h
  | negSucc m =>
    have h := ParseValue_of_digits stof ['-'] (Nat.toDigits 10 (m + 1)) (toDigits_ne_nil _)
      (toDigits_digits _) (Or.inr rfl) (Int.negSucc m)
      (by simp [digitsValue_toDigits, Int.negSucc_eq]) hlo hhi
    exact h

theorem find_zero_of_mem (c : Char) (s r : Str) (h : c ∈ s) :
    ∃ k, k < s.length ∧ find c (s ++ r) 0 = some k := by
  induction s with
  | nil => simp at h
  | cons x xs ih =>
    by_cases hx : x = c
    · exact ⟨0, by simp, by simp [find, hx]⟩
    · have hxs : c ∈ xs := by
        rcases List.mem_cons.1 h with h1 | h1
        · exact absurd h1.symm hx
        · exact h1
      obtain ⟨k, hk, hf⟩ := ih hxs
      refine ⟨k + 1, by simp [hk], ?_⟩
      show find c (x :: (xs ++ r)) 0 = _
      simp only [find, hx, if_false, hf, Option.map_some']

theorem find_zero_first (c : Char) (s r : Str) (h : c ∉ s) :
    find c (s ++ c :: r) 0 = some s.length := by
  induction s with
  | nil => simp [find]
  | cons x xs ih =>
    have hx : x ≠ c := fun e => h (by simp [e])
    have hxs : c ∉ xs := fun e => h (by simp [e])
    show find c (x :: (xs ++ c :: r)) 0 = _
    simp only [find, hx, if_false, ih hxs, Option.map_some', List.length_cons]

theorem ends_decompose (t : Str) (a b : Char) (hlen : 2 ≤ t.length)
    (hhead : t.head? = some a) (hlast : t.getLast? = some b) :
    ∃ s, t = a :: (s ++ [b]) := by
  cases t with
  | nil => simp at hhead
  | cons x rest =>
    simp only [List.head?_cons, Option.some.injEq] at hhead
    subst hhead
    have hne : rest ≠ [] := by
      intro e
      subst e
      simp at hlen
    refine ⟨rest.dropLast, ?_⟩
    have h1 : (x :: rest).getLast? = rest.getLast? := by
      cases rest with
      | nil => exact absurd rfl hne
      | cons y ys => rfl
    rw [h1, List.getLast?_eq_getLast _ hne, Option.some.injEq] at hlast
    rw [← hlast, List.dropLast_append_getLast hne]

theorem getLast?_ends (a b : Char) (s : Str) : (a :: (s ++ [b])).getLast? = some b := by
  rw [← List.cons_append, List.getLast?_append]
  rfl

/-- `IsStringValue` holds of the tokens made of a quote, a text without quote, and a
quote. -/
theorem IsStringValue_iff (t : Str) :
    IsStringValue t = true ↔ ∃ s, t = '"' :: (s ++ ['"']) ∧ '"' ∉ s := by
  constructor
  · intro h
    unfold IsStringValue at h
    split_ifs at h with h1
    simp only [not_or, not_lt, ne_eq, not_not] at h1
    obtain ⟨s, hs⟩ := ends_decompose t '"' '"' h1.1 h1.2.1 h1.2.2
    refine ⟨s, hs, ?_⟩
    intro hmem
    obtain ⟨k, hk, hf⟩ := find_zero_of_mem '"' s ['"'] hmem
    subst hs
    simp only [find, hf, Option.map_some', List.length_cons, List.length_append,
      List.length_singleton] at h
    split_ifs at h with h2
    omega
  · rintro ⟨s, rfl, hs⟩
    unfold IsStringValue
    have hf : find '"' ('"' :: (s ++ ['"'])) 1 = some (s.length + 1) := by
      simp only [find, find_zero_first '"' s [] hs, Option.map_some']
    rw [if_neg, hf]
    · simp
    · simp [getLast?_ends]

theorem ParseValue_quoted (stof : StofFn) (s : Str) (h : '"' ∉ s) :
    ParseValue stof ('"' :: (s ++ ['"'])) = .ok (.string s) := by
  rw [ParseValue_eq]
  have h1 : IsStringValue ('"' :: (s ++ ['"'])) = true := (IsStringValue_iff _).2 ⟨s, rfl, h⟩
  have h2 : substr ('"' :: (s ++ ['"'])) 1 (('"' :: (s ++ ['"'])).length - 2) = s := by
    simp [substr]
  simp only [ParseValueBody, h1, if_true, h2]

/-! ## The number tests and the grammar -/

theorem IsDigit_eq_isDigit (c : Char) : IsDigit c = c.isDigit := rfl

theorem IsDigits_iff (digits : Str) :
    IsDigits digits ↔ digits ≠ [] ∧ digits.all IsDigit = true := by
  simp only [IsDigits, List.all_eq_true, IsDigit_eq_isDigit]

theorem find_drop (c : Char) (t : Str) (pos : Nat) :
    find c t pos = (find c (t.drop pos) 0).map (· + pos) := by
  induction t generalizing pos with
  | nil => cases pos <;> rfl
  | cons x xs ih =>
    cases pos with
    | zero =>
      simp only [List.drop_zero, Nat.add_zero]
      cases find c (x :: xs) 0 <;> rfl
    | succ pos =>
      simp only [find, List.drop_succ_cons, ih pos]
      cases find c (List.drop pos xs) 0 <;> rfl

theorem find_zero_spec (c : Char) (b : Str) (d : Nat) (h : find c b 0 = some d) :
    ∃ whole rest, b = whole ++ c :: rest ∧ c ∉ whole ∧ d = whole.length := by
  induction b generalizing d with
  | nil => cases h
  | cons x xs ih =>
    by_cases hx : x = c
    · simp only [find, hx, if_true, Option.some.injEq] at h
      exact ⟨[], xs, by simp [hx], by simp, h.symm⟩
    · simp only [find, hx, if_false] at h
      cases hf : find c xs 0 with
      | none => simp [hf] at h
      | some k =>
        simp only [hf, Option.map_some', Option.some.injEq] at h
        obtain ⟨whole, rest, h1, h2, h3⟩ := ih k hf
        refine ⟨x :: whole, rest, by simp [h1], ?_, by simp [← h, h3]⟩
        intro hm
        rcases List.mem_cons.1 hm with hm | hm
        · exact hx hm.symm
        · exact h2 hm

theorem floatBody_iff (b : Str) :
    floatBody b = true ↔ ∃ whole frac, IsDigits whole ∧ IsDigits frac ∧ b = whole ++ '.' :: frac := by
  constructor
  · intro h
    unfold floatBody at h
    split at h
    · cases h
    · rename_i d hd
      obtain ⟨whole, frac, hb, -, hlen⟩ := find_zero_spec '.' b d hd
      subst hb hlen
      split_ifs at h with h1 h2
      simp only [List.take_left', List.length_append, List.length_cons,
        Bool.and_eq_true] at h h2
      have h3 : List.drop (whole.length + 1) (whole ++ '.' :: frac) = frac := by
        rw [List.drop_append_eq_append_drop]
        simp [List.drop_eq_nil_of_le]
      rw [h3] at h
      refine ⟨whole, frac, (IsDigits_iff _).2 ⟨?_, h.1⟩, (IsDigits_iff _).2 ⟨?_, h.2⟩, rfl⟩
      · intro e
        exact h1 (by simp [e])
      · intro e
        subst e
        exact h2 (by simp)
  · rintro ⟨whole, frac, hw, hf, rfl⟩
    rw [IsDigits_iff] at hw hf
    have hdot : '.' ∉ whole := not_mem_of_all_digits '.' rfl whole hw.2
    unfold floatBody
    rw [find_zero_first '.' whole frac hdot]
    have h1 : whole.length ≠ 0 := fun e => hw.1 (List.length_eq_zero.1 e)
    have h2 : frac.length ≠ 0 := fun e => hf.1 (List.length_eq_zero.1 e)
    have h3 : List.drop (whole.length + 1) (whole ++ '.' :: frac) = frac := by
      rw [List.drop_append_eq_append_drop]
      simp [List.drop_eq_nil_of_le]
    simp only [h1, if_false, List.length_append, List.length_cons, h3, List.take_left', hw.2,
      hf.2, Bool.and_self]
    rw [if_neg (by omega)]

theorem IsFloatValue_signed (sg : Char) (xs : Str) (h : sg = '+' ∨ sg = '-') :
    IsFloatValue (sg :: xs) = floatBody xs := by
  have hs : signLength (sg :: xs) = 1 := by
    rcases h with h | h <;> simp [signLength, h]
  unfold IsFloatValue floatBody
  simp only [hs, List.isEmpty_cons, Bool.false_eq_true, if_false, find, List.length_cons]
  cases hf : find '.' xs 0 with
  | none =>
    simp only [Option.map_none']
    split_ifs <;> rfl
  | some d =>
    obtain ⟨whole, rest, hb, -, hlen⟩ := find_zero_spec '.' xs d hf
    have hd : d < xs.length := by
      rw [hb, hlen]
      simp
    have hne : ¬ (True ∧ xs.length + 1 = 1) := by omega
    simp only [Option.map_some', substr, List.drop_succ_cons, List.drop_zero,
      Nat.add_sub_cancel, true_and]
    by_cases h0 : d = 0
    · simp [h0]
    · by_cases h1 : d = xs.length - 1
      · have h2 : d + 1 = xs.length + 1 - 1 := by omega
        simp [h0, h1, h2]
        omega
      · have h2 : ¬ d + 1 = xs.length + 1 - 1 := by omega
        have h3 : ¬ xs.length + 1 = 1 := by omega
        have h4 : ¬ d + 1 = xs.length := by omega
        simp only [h0, h1, h2, h3, h4, Nat.add_eq_right, if_false]

theorem IsFloatValue_unsigned (t : Str) (h1 : t.head? ≠ some '+') (h2 : t.head? ≠ some '-') :
    IsFloatValue t = floatBody t := by
  have hs : signLength t = 0 := by
    simp [signLength, h1, h2]
  cases t with
  | nil => rfl
  | cons x xs =>
    unfold IsFloatValue floatBody
    simp only [hs, List.isEmpty_cons, Bool.false_eq_true, if_false, substr, List.drop_zero,
      Nat.sub_zero, Nat.zero_ne_one, false_and]

theorem IsIntValue_signed (sg : Char) (xs : Str) (h : sg = '+' ∨ sg = '-') :
    IsIntValue (sg :: xs) = (!xs.isEmpty && xs.all IsDigit) := by
  have hs : signLength (sg :: xs) = 1 := by
    rcases h with h | h <;> simp [signLength, h]
  unfold IsIntValue
  cases xs with
  | nil => simp [hs]
  | cons y ys => simp [hs]

theorem IsIntValue_unsigned (t : Str) (h1 : t.head? ≠ some '+') (h2 : t.head? ≠ some '-') :
    IsIntValue t = (!t.isEmpty && t.all IsDigit) := by
  have hs : signLength t = 0 := by
    simp [signLength, h1, h2]
  cases t with
  | nil => rfl
  | cons x xs =>
    unfold IsIntValue
    simp [hs]

theorem head_of_digits (digits rest : Str) (h : IsDigits digits) :
    (digits ++ rest).head? ≠ some '+' ∧ (digits ++ rest).head? ≠ some '-' := by
  rw [IsDigits_iff] at h
  obtain ⟨d, ds, rfl⟩ := List.exists_cons_of_ne_nil h.1
  have h1 : d ≠ '+' := fun e => not_mem_of_all_digits '+' rfl _ h.2 (by simp [e])
  have h2 : d ≠ '-' := fun e => not_mem_of_all_digits '-' rfl _ h.2 (by simp [e])
  simp [h1, h2]

theorem IsSign_cases (t : Str) :
    (∃ sg xs, (sg = '+' ∨ sg = '-') ∧ t = sg :: xs) ∨
      (t.head? ≠ some '+' ∧ t.head? ≠ some '-') := by
  cases t with
  | nil => right; simp
  | cons x xs =>
    by_cases h1 : x = '+'
    · exact Or.inl ⟨x, xs, Or.inl h1, rfl⟩
    · by_cases h2 : x = '-'
      · exact Or.inl ⟨x, xs, Or.inr h2, rfl⟩
      · right; simp [h1, h2]

/-- `IsFloatValue` holds of the float literals of the grammar and of nothing else. -/
theorem IsFloatValue_iff (t : Str) : IsFloatValue t = true ↔ IsFloatLiteral t := by
  constructor
  · intro h
    rcases IsSign_cases t with ⟨sg, xs, hsg, rfl⟩ | ⟨h1, h2⟩
    · rw [IsFloatValue_signed sg xs hsg, floatBody_iff] at h
      obtain ⟨whole, frac, hw, hf, rfl⟩ := h
      refine ⟨[sg], whole, frac, ?_, hw, hf, rfl⟩
      rcases hsg with e | e
      · exact Or.inr (Or.inl (by rw [e]))
      · exact Or.inr (Or.inr (by rw [e]))
    · rw [IsFloatValue_unsigned t h1 h2, floatBody_iff] at h
      obtain ⟨whole, frac, hw, hf, rfl⟩ := h
      exact ⟨[], whole, frac, Or.inl rfl, hw, hf, rfl⟩
  · rintro ⟨sign, whole, frac, hs, hw, hf, rfl⟩
    rcases hs with e | e | e
    · subst e
      have hh := head_of_digits whole ('.' :: frac) hw
      rw [List.nil_append, IsFloatValue_unsigned _ hh.1 hh.2, floatBody_iff]
      exact ⟨whole, frac, hw, hf, rfl⟩
    · subst e
      show IsFloatValue ('+' :: (whole ++ '.' :: frac)) = true
      rw [IsFloatValue_signed _ _ (Or.inl rfl), floatBody_iff]
      exact ⟨whole, frac, hw, hf, rfl⟩
    · subst e
      show IsFloatValue ('-' :: (whole ++ '.' :: frac)) = true
      rw [IsFloatValue_signed _ _ (Or.inr rfl), floatBody_iff]
      exact ⟨whole, frac, hw, hf, rfl⟩

theorem intBody_iff (xs : Str) : (!xs.isEmpty && xs.all IsDigit) = true ↔ IsDigits xs := by
  rw [IsDigits_iff]
  cases xs <;> simp

/-- `IsIntValue` holds of the integer literals of the grammar and of nothing else. -/
theorem IsIntValue_iff (t : Str) : IsIntValue t = true ↔ IsIntLiteral t := by
  constructor
  · intro h
    rcases IsSign_cases t with ⟨sg, xs, hsg, rfl⟩ | ⟨h1, h2⟩
    · rw [IsIntValue_signed sg xs hsg, intBody_iff] at h
      refine ⟨[sg], xs, ?_, h, rfl⟩
      rcases hsg with e | e
      · exact Or.inr (Or.inl (by rw [e]))
      · exact Or.inr (Or.inr (by rw [e]))
    · rw [IsIntValue_unsigned t h1 h2, intBody_iff] at h
      exact ⟨[], t, Or.inl rfl, h, rfl⟩
  · rintro ⟨sign, digits, hs, hd, rfl⟩
    rcases hs with e | e | e
    · subst e
      have hh := head_of_digits digits [] hd
      rw [List.append_nil] at hh
      rw [List.nil_append, IsIntValue_unsigned _ hh.1 hh.2, intBody_iff]
      exact hd
    · subst e
      show IsIntValue ('+' :: digits) = true
      rw [IsIntValue_signed _ _ (Or.inl rfl), intBody_iff]
      exact hd
    · subst e
      show IsIntValue ('-' :: digits) = true
      rw [IsIntValue_signed _ _ (Or.inr rfl), intBody_iff]
      exact hd

theorem floatBody_not_digits (xs : Str) (h : xs.all IsDigit = true) : floatBody xs = false := by
  unfold floatBody
  rw [find_none_of_not_mem '.' xs 0 (not_mem_of_all_digits '.' rfl xs h)]

/-- No token passes both `IsFloatValue` and `IsIntValue`. -/
theorem not_float_and_int (t : Str) : ¬ (IsFloatValue t = true ∧ IsIntValue t = true) := by
  rintro ⟨hf, hi⟩
  rcases IsSign_cases t with ⟨sg, xs, hsg, rfl⟩ | ⟨h1, h2⟩
  · rw [IsIntValue_signed sg xs hsg, Bool.and_eq_true] at hi
    rw [IsFloatValue_signed sg xs hsg, floatBody_not_digits xs hi.2] at hf
    cases hf
  · rw [IsIntValue_unsigned t h1 h2, Bool.and_eq_true] at hi
    rw [IsFloatValue_unsigned t h1 h2, floatBody_not_digits t hi.2] at hf
    cases hf

/-! ## Keys -/

theorem IsKeyChar_iff (c : Char) : IsKeyChar c = true ↔ KeyChar c := by
  have h1 : (decide ('a' ≤ c) && decide (c ≤ 'z')) = c.isLower := rfl
  have h2 : (decide ('A' ≤ c) && decide (c ≤ 'Z')) = c.isUpper := rfl
  have h3 : (decide ('0' ≤ c) && decide (c ≤ '9')) = c.isDigit := rfl
  unfold IsKeyChar KeyChar
  rw [h1, h2, h3]
  simp only [Char.isAlpha, Bool.or_eq_true, decide_eq_true_eq]
  tauto

theorem IsValidKey_iff (k : Str) : IsValidKey k = true ↔ k ≠ [] ∧ ∀ c ∈ k, KeyChar c := by
  unfold IsValidKey
  cases k with
  | nil => simp
  | cons x xs =>
    simp only [List.isEmpty_cons, Bool.false_eq_true, if_false, List.all_eq_true, ne_eq,
      reduceCtorEq, not_false_eq_true, true_and, IsKeyChar_iff]

theorem mem_SplitPathFrom (c : Char) (hc : c ≠ '.') (curr s : Str) (h : c ∈ curr ++ s) :
    ∃ p ∈ SplitPathFrom curr s, c ∈ p := by
  induction s generalizing curr with
  | nil =>
    rw [List.append_nil] at h
    cases curr with
    | nil => simp at h
    | cons x xs => exact ⟨x :: xs, by simp [SplitPathFrom], h⟩
  | cons x xs ih =>
    by_cases hx : x = '.'
    · have h2 : c ∈ curr ∨ c ∈ xs := by
        simp only [List.mem_append, List.mem_cons] at h
        rcases h with h | h | h
        · exact Or.inl h
        · exact absurd (h.trans hx) hc
        · exact Or.inr h
      cases curr with
      | nil =>
        simp only [SplitPathFrom, hx, if_true, List.isEmpty_nil, Bool.not_true,
          Bool.false_eq_true, if_false]
        rcases h2 with h2 | h2
        · simp at h2
        · exact ih [] (by simpa using h2)
      | cons y ys =>
        simp only [SplitPathFrom, hx, if_true, List.isEmpty_cons, Bool.not_false]
        rcases h2 with h2 | h2
        · exact ⟨y :: ys, by simp, h2⟩
        · obtain ⟨p, hp, hcp⟩ := ih [] (by simpa using h2)
          exact ⟨p, by simp [hp], hcp⟩
    · simp only [SplitPathFrom, hx, if_false]
      exact ih (curr ++ [x]) (by simpa using h)

theorem parseSectionLine_of_bad_char (st : ParseState) (line : Str) (c : Char)
    (hsec : IsSectionLine line = true) (hc : c ∈ line) (hc1 : c ≠ '[') (hc2 : c ≠ ']')
    (hc3 : c ≠ '.') (hc4 : IsKeyChar c = false) :
    parseSectionLine st line = .stop ⟨false, st.config.root_⟩ := by
  have hs := hsec
  simp only [IsSectionLine, Bool.and_eq_true, decide_eq_true_eq] at hs
  obtain ⟨name, hname⟩ := ends_decompose line '[' ']' hs.1.1 hs.1.2 hs.2
  have hn : ExtractSectionName line = name := by
    simp only [ExtractSectionName, hsec, Bool.not_true, Bool.false_eq_true, if_false]
    rw [hname]
    exact substr_bracket name
  have hcn : c ∈ name := by
    rw [hname] at hc
    simp only [List.mem_cons, List.mem_append, List.not_mem_nil, or_false] at hc
    rcases hc with hc | hc | hc
    · exact absurd hc hc1
    · exact hc
    · exact absurd hc hc2
  obtain ⟨p, hp, hcp⟩ := mem_SplitPathFrom c hc3 [] name (by simpa using hcn)
  have hbad : (SplitPath name).all IsValidKey = false := by
    rw [List.all_eq_false]
    refine ⟨p, hp, ?_⟩
    intro hv
    unfold IsValidKey at hv
    split_ifs at hv
    rw [List.all_eq_true.1 hv c hcp] at hc4
    cases hc4
  unfold parseSectionLine
  simp only [hn, hbad, Config.SetValid, Bool.not_false, if_true]
  split_ifs <;> rfl

theorem stateAfter_blank (stof : StofFn) (pre : List Str) (st : ParseState)
    (h : ∀ l ∈ pre, Trim (RemoveComment l) = []) : stateAfter stof pre st = some st := by
  induction pre with
  | nil => rfl
  | cons l rest ih =>
    have hl : parseLine stof st l = .ok (.proceed st) := by
      unfold parseLine
      simp [h l (by simp)]
    simp only [stateAfter, hl]
    exact ih (fun x hx => h x (by simp [hx]))

theorem mem_of_find (c : Char) (s : Str) (pos index : Nat) (h : find c s pos = some index) :
    c ∈ s := by
  rw [find_drop] at h
  cases hf : find c (s.drop pos) 0 with
  | none => simp [hf] at h
  | some d =>
    obtain ⟨whole, rest, hb, -, -⟩ := find_zero_spec c _ d hf
    have hm : c ∈ s.drop pos := by
      rw [hb]
      simp
    exact List.mem_of_mem_drop hm

/-! ## `RemoveComment` -/

theorem RemoveCommentFrom_cut (s : Str) (in_string : Bool) (i : Nat)
    (hi : s[i]? = some '#')
    (heven : ((s.take i).count '"' + in_string.toNat) % 2 = 0)
    (hfirst : ∀ j, j < i → s[j]? = some '#' →
      ((s.take j).count '"' + in_string.toNat) % 2 = 1) :
    RemoveCommentFrom in_string s = s.take i := by
  induction s generalizing in_string i with
  | nil => simp at hi
  | cons c cs ih =>
    cases i with
    | zero =>
      simp only [List.getElem?_cons_zero, Option.some.injEq] at hi
      subst hi
      have hb : in_string = false := by
        cases in_string
        · rfl
        · simp at heven
      subst hb
      simp [RemoveCommentFrom]
    | succ i =>
      simp only [List.getElem?_cons_succ] at hi
      by_cases hq : c = '"'
      · subst hq
        simp only [RemoveCommentFrom, if_true, List.take_succ_cons, List.cons.injEq, true_and]
        refine ih (!in_string) i hi ?_ ?_
        · simp only [List.take_succ_cons, List.count_cons_self] at heven
          cases in_string <;> simp only [Bool.not_false, Bool.not_true, Bool.toNat_true,
            Bool.toNat_false] at heven ⊢ <;> omega
        · intro j hj hjs
          have h := hfirst (j + 1) (by omega) (by simpa using hjs)
          simp only [List.take_succ_cons, List.count_cons_self] at h
          cases in_string <;> simp only [Bool.not_false, Bool.not_true, Bool.toNat_true,
            Bool.toNat_false] at h ⊢ <;> omega
      · have hcount : ∀ k, ((c :: cs).take (k + 1)).count '"' = (cs.take k).count '"' := by
          intro k
          simp only [List.take_succ_cons]
          exact List.count_cons_of_ne (Ne.symm hq) _
        have hnot : ¬ (c = '#' ∧ in_string = false) := by
          rintro ⟨h1, h2⟩
          have h := hfirst 0 (by omega) (by simp [h1])
          simp [h2] at h
        simp only [RemoveCommentFrom, hq, if_false, hnot, List.take_succ_cons, List.cons.injEq,
          true_and]
        refine ih in_string i hi ?_ ?_
        · rw [← hcount]; exact heven
        · intro j hj hjs
          rw [← hcount]
          exact hfirst (j + 1) (by omega) (by simpa using hjs)

theorem RemoveCommentFrom_whole (s : Str) (in_string : Bool)
    (hnone : ∀ j, s[j]? = some '#' → ((s.take j).count '"' + in_string.toNat) % 2 = 1) :
    RemoveCommentFrom in_string s = s := by
  induction s generalizing in_string with
  | nil => rfl
  | cons c cs ih =>
    by_cases hq : c = '"'
    · subst hq
      simp only [RemoveCommentFrom, if_true, List.cons.injEq, true_and]
      refine ih (!in_string) ?_
      intro j hjs
      have h := hnone (j + 1) (by simpa using hjs)
      simp only [List.take_succ_cons, List.count_cons_self] at h
      cases in_string <;> simp only [Bool.not_false, Bool.not_true, Bool.toNat_true,
        Bool.toNat_false] at h ⊢ <;> omega
    · have hcount : ∀ k, ((c :: cs).take (k + 1)).count '"' = (cs.take k).count '"' := by
        intro k
        simp only [List.take_succ_cons]
        exact List.count_cons_of_ne (Ne.symm hq) _
      have hnot : ¬ (c = '#' ∧ in_string = false) := by
        rintro ⟨h1, h2⟩
        have h := hnone 0 (by simp [h1])
        simp [h2] at h
      simp only [RemoveCommentFrom, hq, if_false, hnot, List.cons.injEq, true_and]
      refine ih in_string ?_
      intro j hjs
      rw [← hcount]
      exact hnone (j + 1) (by simpa using hjs)

/-! ## Brackets around nothing -/

theorem Trim_decompose (s : Str) :
    ∃ before after : Str, (∀ c ∈ before, c = ' ') ∧ (∀ c ∈ after, c = ' ') ∧
      s = before ++ Trim s ++ after := by
  obtain ⟨sp, hsp, he⟩ := skipSpaces_decompose s
  obtain ⟨sp', hsp', he'⟩ := trimRight_decompose (skipSpaces s)
  refine ⟨sp, sp', hsp, hsp', ?_⟩
  have h : Trim s = (skipSpaces (skipSpaces s).reverse).reverse := rfl
  rw [h, List.append_assoc, ← he', ← he]

theorem spaces_of_Trim_eq_nil (s : Str) (h : Trim s = []) : ∀ c ∈ s, c = ' ' := by
  obtain ⟨sp, sp', hsp, hsp', he⟩ := Trim_decompose s
  rw [h, List.append_nil] at he
  intro c hc
  rw [he, List.mem_append] at hc
  rcases hc with hc | hc
  · exact hsp c hc
  · exact hsp' c hc

theorem mem_Trim (s : Str) (c : Char) (hc : c ≠ ' ') : c ∈ Trim s ↔ c ∈ s := by
  obtain ⟨sp, sp', hsp, hsp', he⟩ := Trim_decompose s
  constructor
  · intro h
    rw [he]
    simp [h]
  · intro h
    rw [he] at h
    simp only [List.mem_append] at h
    rcases h with (h | h) | h
    · exact absurd (hsp c h) hc
    · exact h
    · exact absurd (hsp' c h) hc

theorem mem_of_mem_Trim (s : Str) (c : Char) (h : c ∈ Trim s) : c ∈ s := by
  obtain ⟨sp, sp', -, -, he⟩ := Trim_decompose s
  rw [he]
  simp [h]

theorem ParseValue_bracket (stof : StofFn) (body : Str) :
    ParseValue stof ('[' :: (body ++ [']'])) =
      match ParseArrayElements (ParseValue stof) ('[' :: (body ++ [']'])) with
      | .error e => .error e
      | .ok elements =>
        if elements.isEmpty then
          if (Trim body).isEmpty then .ok (.array []) else .ok .invalid
        else .ok (.array elements) := by
  rw [ParseValue_eq]
  simp only [ParseValueBody, IsStringValue_bracket, IsBoolValue_bracket, IsArrayValue_bracket,
    Bool.false_eq_true, if_false, if_true, substr_bracket]

theorem ParseArrayElements_bracket (pv : Str → Except Thrown Value) (body : Str) :
    ParseArrayElements pv ('[' :: (body ++ [']'])) =
      if (Trim body).isEmpty then .ok []
      else
        match ParseArrayLoop pv (Trim body) ⟨[], [], 0, false⟩ with
        | .error e => .error e
        | .ok none => .ok []
        | .ok (some st) => ParseArrayTail pv st := by
  simp only [ParseArrayElements, substr_bracket]

theorem ParseValue_blank_brackets (stof : StofFn) (spaces : Str) (h : ∀ c ∈ spaces, c = ' ') :
    ParseValue stof ('[' :: (spaces ++ [']'])) = .ok (.array []) := by
  rw [ParseValue_bracket, ParseArrayElements_bracket, Trim_of_spaces spaces h]
  rfl

theorem ParseArrayLoop_commas (pv : Str → Except Thrown Value) (x curr : Str)
    (hx : ∀ c ∈ x, c = ' ' ∨ c = ',') (hcurr : ∀ c ∈ curr, c = ' ') :
    ∃ curr', (∀ c ∈ curr', c = ' ') ∧
      ParseArrayLoop pv x ⟨[], curr, 0, false⟩ = .ok (some ⟨[], curr', 0, false⟩) := by
  induction x generalizing curr with
  | nil => exact ⟨curr, hcurr, rfl⟩
  | cons c cs ih =>
    have hcs : ∀ d ∈ cs, d = ' ' ∨ d = ',' := fun d hd => hx d (by simp [hd])
    rcases hx c (by simp) with hc | hc
    · subst hc
      obtain ⟨curr', h1, h2⟩ := ih (curr ++ [' ']) hcs (by
        intro d hd
        rcases List.mem_append.1 hd with hd | hd
        · exact hcurr d hd
        · simpa using hd)
      refine ⟨curr', h1, ?_⟩
      rw [← h2]
      simp [ParseArrayLoop]
    · subst hc
      obtain ⟨curr', h1, h2⟩ := ih [] hcs (by simp)
      refine ⟨curr', h1, ?_⟩
      rw [← h2]
      simp [ParseArrayLoop, Trim_of_spaces curr hcurr]

theorem ParseValue_commas (stof : StofFn) (body : Str)
    (hbody : ∀ c ∈ body, c = ' ' ∨ c = ',') (hcomma : ',' ∈ body) :
    ParseValue stof ('[' :: (body ++ [']'])) = .ok .invalid := by
  have hne : (Trim body).isEmpty = false := by
    have hm : ',' ∈ Trim body := (mem_Trim body ',' (by decide)).2 hcomma
    cases hb : Trim body with
    | nil => rw [hb] at hm; simp at hm
    | cons x xs => rfl
  obtain ⟨curr', h1, h2⟩ := ParseArrayLoop_commas (ParseValue stof) (Trim body) []
    (fun c hc => hbody c (mem_of_mem_Trim body c hc)) (by simp)
  have ht : ParseArrayTail (ParseValue stof) ⟨[], curr', 0, false⟩ = .ok [] := by
    simp [ParseArrayTail, Trim_of_spaces curr' h1]
  rw [ParseValue_bracket, ParseArrayElements_bracket]
  simp only [hne, Bool.false_eq_true, if_false, h2, ht, List.isEmpty_nil, if_true]

theorem bracket_of_array (stof : StofFn) (t : Str) (xs : List Value)
    (h : ParseValue stof t = .ok (.array xs)) : ∃ body, t = '[' :: (body ++ [']']) := by
  rw [ParseValue_eq] at h
  unfold ParseValueBody at h
  by_cases h1 : IsStringValue t = true
  · rw [if_pos h1] at h; cases h
  rw [if_neg h1] at h
  by_cases h2 : IsBoolValue t = true
  · rw [if_pos h2] at h; cases h
  rw [if_neg h2] at h
  by_cases h3 : IsArrayValue t = true
  · simp only [IsArrayValue, Bool.and_eq_true, decide_eq_true_eq] at h3
    exact ends_decompose t '[' ']' h3.1.1 h3.1.2 h3.2
  rw [if_neg h3] at h
  by_cases h4 : IsFloatValue t = true
  · rw [if_pos h4] at h
    split at h <;> cases h
  rw [if_neg h4] at h
  by_cases h5 : IsIntValue t = true
  · rw [if_pos h5] at h
    split at h <;> cases h
  rw [if_neg h5] at h
  cases h

/-! ## The segments of an array literal -/

theorem ParseArrayLoop_segments (pv : Str → Except Thrown Value) (x : Str) (st stf : ArrayScan)
    (h : ParseArrayLoop pv x st = .ok (some stf)) :
    ∃ closed, topSegments x (st.bracket_level, st.in_string) st.curr_element =
        closed ++ [stf.curr_element] ∧
      ∀ seg ∈ closed, Trim seg = [] ∨
        ∃ p, pv (Trim seg) = .ok p ∧ p.IsInvalid = false := by
  induction x generalizing st with
  | nil =>
    simp only [ParseArrayLoop, Except.ok.injEq, Option.some.injEq] at h
    subst h
    exact ⟨[], rfl, fun seg hs => by simp at hs⟩
  | cons c cs ih =>
    simp only [ParseArrayLoop] at h
    simp only [topSegments]
    split_ifs at h ⊢ with h1 h2 h3 h4 h5 h6
    · exact ih _ h
    · exact ih _ h
    · exact ih _ h
    · split at h
      · cases h
      · rename_i p hp
        split_ifs at h with hi
        · cases h
        · obtain ⟨closed, hc1, hc2⟩ := ih _ h
          refine ⟨st.curr_element :: closed, congrArg (List.cons st.curr_element) hc1, ?_⟩
          intro seg hs
          rcases List.mem_cons.1 hs with hs | hs
          · rw [hs]
            exact Or.inr ⟨p, hp, by simpa using hi⟩
          · exact hc2 seg hs
    · obtain ⟨closed, hc1, hc2⟩ := ih _ h
      refine ⟨st.curr_element :: closed, congrArg (List.cons st.curr_element) hc1, ?_⟩
      intro seg hs
      rcases List.mem_cons.1 hs with hs | hs
      · rw [hs]
        left
        simpa using h6
      · exact hc2 seg hs
    · exact ih _ h
    · exact ih _ h

/-- An array literal with a bad segment, or whose nesting does not balance, is never
classified as an Array. -/
theorem ParseValue_bad_array (stof : StofFn) (body : Str)
    (h : scanNesting body (0, false) ≠ (0, false) ∨
      ∃ seg ∈ topSegments (Trim body) (0, false) [],
        Trim seg ≠ [] ∧ ParseValue stof (Trim seg) = .ok .invalid) :
    ParseValue stof ('[' :: (body ++ [']'])) = .ok .invalid ∨
      ParseValue stof ('[' :: (body ++ [']'])) = .error .out_of_range := by
  rw [ParseValue_bracket, ParseArrayElements_bracket]
  by_cases hb : (Trim body).isEmpty = true
  · exfalso
    have hnil : Trim body = [] := List.isEmpty_iff.1 hb
    rcases h with h | ⟨seg, hs, hne, -⟩
    · rw [← scanNesting_Trim, hnil] at h
      exact h rfl
    · rw [hnil] at hs
      simp only [topSegments, List.mem_singleton] at hs
      rw [hs] at hne
      exact hne rfl
  · simp only [hb, Bool.false_eq_true, if_false]
    cases hl : ParseArrayLoop (ParseValue stof) (Trim body) ⟨[], [], 0, false⟩ with
    | error e =>
      cases e
      exact Or.inr rfl
    | ok r =>
      cases r with
      | none => exact Or.inl rfl
      | some stf =>
        left
        have hn := ParseArrayLoop_nesting _ _ _ _ hl
        rw [scanNesting_Trim] at hn
        obtain ⟨closed, hc1, hc2⟩ := ParseArrayLoop_segments _ _ _ _ hl
        have ht : ParseArrayTail (ParseValue stof) stf = .ok [] := by
          unfold ParseArrayTail
          by_cases hbal : stf.bracket_level ≠ 0 ∨ stf.in_string = true
          · rw [if_pos hbal]
          · rw [if_neg hbal]
            have hbal2 : (stf.bracket_level, stf.in_string) = (0, false) := by
              rw [not_or] at hbal
              simp only [ne_eq, not_not, Bool.not_eq_true] at hbal
              rw [hbal.1, hbal.2]
            rcases h with h | ⟨seg, hs, hne, hinv⟩
            · exact absurd (hn.symm.trans hbal2) h
            · simp only at hc1
              rw [hc1, List.mem_append, List.mem_singleton] at hs
              rcases hs with hs | hs
              · rcases hc2 seg hs with h1 | ⟨p, hp, hpi⟩
                · exact absurd h1 hne
                · rw [hinv] at hp
                  injection hp with hp
                  rw [← hp] at hpi
                  cases hpi
              · rw [← hs]
                have hne2 : (!(Trim seg).isEmpty) = true := by
                  cases ht : Trim seg with
                  | nil => exact absurd ht hne
                  | cons y ys => rfl
                rw [if_pos hne2, hinv]
                rfl
        simp only [ht, List.isEmpty_nil, if_true]

/-! ## Tokens the loop of `ParseArrayElements` reads as one piece -/

theorem noTopComma_append (a b : Str) (nesting : Int × Bool) :
    noTopComma (a ++ b) nesting =
      (noTopComma a nesting && noTopComma b (scanNesting a nesting)) := by
  induction a generalizing nesting with
  | nil => simp [noTopComma, scanNesting]
  | cons c cs ih =>
    obtain ⟨level, in_string⟩ := nesting
    simp only [List.cons_append, noTopComma, scanNesting]
    split_ifs <;> first | exact ih _ | simp

theorem ParseArrayLoop_absorb (pv : Str → Except Thrown Value) (x rest : Str) (st : ArrayScan)
    (h : noTopComma x (st.bracket_level, st.in_string) = true) :
    ParseArrayLoop pv (x ++ rest) st =
      ParseArrayLoop pv rest
        ⟨st.elements, st.curr_element ++ x,
          (scanNesting x (st.bracket_level, st.in_string)).1,
          (scanNesting x (st.bracket_level, st.in_string)).2⟩ := by
  induction x generalizing st with
  | nil => simp [scanNesting]
  | cons c cs ih =>
    obtain ⟨elements, curr, level, in_string⟩ := st
    simp only [noTopComma] at h
    simp only [List.cons_append, ParseArrayLoop, scanNesting]
    split_ifs at h ⊢ with h1 h2 h3 h4 h5
    · have h0 := ih ⟨elements, curr ++ [c], level, !in_string⟩ h
      simpa using h0
    · have h0 := ih ⟨elements, curr ++ [c], level + 1, in_string⟩ h
      simpa using h0
    · have h0 := ih ⟨elements, curr ++ [c], level - 1, in_string⟩ h
      simpa using h0
    · have h0 := ih ⟨elements, curr ++ [c], level, in_string⟩ h
      simpa using h0
    · have h0 := ih ⟨elements, curr ++ [c], level, in_string⟩ h
      simpa using h0

theorem first_top_comma (x : Str) (nesting : Int × Bool) :
    noTopComma x nesting = true ∨
      ∃ seg rest, x = seg ++ ',' :: rest ∧ noTopComma seg nesting = true ∧
        scanNesting seg nesting = (0, false) := by
  induction x generalizing nesting with
  | nil => exact Or.inl rfl
  | cons c cs ih =>
    obtain ⟨level, in_string⟩ := nesting
    have hstep : ∀ nesting' : Int × Bool,
        noTopComma [c] (level, in_string) = true →
        scanNesting [c] (level, in_string) = nesting' →
        noTopComma (c :: cs) (level, in_string) = true ∨
          ∃ seg rest, c :: cs = seg ++ ',' :: rest ∧
            noTopComma seg (level, in_string) = true ∧
            scanNesting seg (level, in_string) = (0, false) := by
      intro nesting' h1 h2
      have happ : ∀ y, noTopComma (c :: y) (level, in_string) = noTopComma y nesting' := by
        intro y
        have h3 := noTopComma_append [c] y (level, in_string)
        rw [List.singleton_append, h1, h2, Bool.true_and] at h3
        exact h3
      rcases ih nesting' with h | ⟨seg, rest, hx, hn, hs⟩
      · exact Or.inl ((happ cs).trans h)
      · refine Or.inr ⟨c :: seg, rest, by rw [hx]; rfl, (happ seg).trans hn, ?_⟩
        have h4 := scanNesting_append [c] seg (level, in_string)
        rw [List.singleton_append] at h4
        rw [h4, h2, hs]
    by_cases h1 : c = '"'
    · exact hstep (level, !in_string) (by simp [noTopComma, h1]) (by simp [scanNesting, h1])
    by_cases h2 : in_string = false
    · by_cases h3 : c = '['
      · exact hstep (level + 1, in_string) (by simp [noTopComma, h1, h2, h3])
          (by simp [scanNesting, h1, h2, h3])
      by_cases h4 : c = ']'
      · exact hstep (level - 1, in_string) (by simp [noTopComma, h1, h2, h3, h4])
          (by simp [scanNesting, h1, h2, h3, h4])
      by_cases h5 : c = ',' ∧ level = 0
      · refine Or.inr ⟨[], cs, by rw [h5.1]; rfl, rfl, ?_⟩
        rw [h5.2, h2]
        rfl
      · exact hstep (level, in_string) (by simp [noTopComma, h1, h2, h3, h4, h5])
          (by simp [scanNesting, h1, h2, h3, h4])
    · exact hstep (level, in_string) (by simp [noTopComma, h1, h2])
        (by simp [scanNesting, h1, h2])

theorem scan_plain (t : Str) (h : ∀ c ∈ t, c ≠ '"' ∧ c ≠ '[' ∧ c ≠ ']' ∧ c ≠ ',')
    (nesting : Int × Bool) : noTopComma t nesting = true ∧ scanNesting t nesting = nesting := by
  induction t with
  | nil => exact ⟨rfl, rfl⟩
  | cons c cs ih =>
    obtain ⟨level, in_string⟩ := nesting
    obtain ⟨h1, h2, h3, h4⟩ := h c (by simp)
    have hcs := ih (fun d hd => h d (by simp [hd]))
    simp only [noTopComma, scanNesting, h1, h2, h3, h4, if_false, false_and]
    split_ifs <;> exact hcs

theorem scan_in_string (s : Str) (h : '"' ∉ s) (level : Int) :
    noTopComma s (level, true) = true ∧ scanNesting s (level, true) = (level, true) := by
  induction s with
  | nil => exact ⟨rfl, rfl⟩
  | cons c cs ih =>
    have hc : c ≠ '"' := fun e => h (by simp [e])
    have hcs := ih (fun e => h (by simp [e]))
    simp only [noTopComma, scanNesting, hc, if_false, Bool.true_eq_false]
    exact hcs

theorem Sealed.of_plain (t : Str) (h : ∀ c ∈ t, c ≠ '"' ∧ c ≠ '[' ∧ c ≠ ']' ∧ c ≠ ',') :
    Sealed t :=
  fun level _ => scan_plain t h (level, false)

theorem Sealed.of_spaces (spaces : Str) (h : ∀ c ∈ spaces, c = ' ') : Sealed spaces :=
  Sealed.of_plain spaces (fun c hc => by rw [h c hc]; decide)

theorem Sealed.append {a b : Str} (ha : Sealed a) (hb : Sealed b) : Sealed (a ++ b) := by
  intro level hl
  rw [noTopComma_append, scanNesting_append, (ha level hl).1, (ha level hl).2,
    (hb level hl).1, (hb level hl).2]
  exact ⟨rfl, rfl⟩

theorem Sealed.quoted (s : Str) (h : '"' ∉ s) : Sealed ('"' :: (s ++ ['"'])) := by
  intro level _
  have hs := scan_in_string s h level
  have h1 : noTopComma ('"' :: (s ++ ['"'])) (level, false) =
      noTopComma (s ++ ['"']) (level, true) := by
    simp [noTopComma]
  have h2 : scanNesting ('"' :: (s ++ ['"'])) (level, false) =
      scanNesting (s ++ ['"']) (level, true) := by
    simp [scanNesting]
  rw [h1, h2, noTopComma_append, scanNesting_append, hs.1, hs.2]
  exact ⟨rfl, rfl⟩

theorem Sealed.toInside {t : Str} (h : Sealed t) : SealedInside t :=
  fun level hl => h level (by omega)

theorem SealedInside.concat {a b : Str} (ha : SealedInside a) (hb : SealedInside b) :
    SealedInside (a ++ b) := by
  intro level hl
  rw [noTopComma_append, scanNesting_append, (ha level hl).1, (ha level hl).2,
    (hb level hl).1, (hb level hl).2]
  exact ⟨rfl, rfl⟩

theorem SealedInside.comma : SealedInside [','] := by
  intro level hl
  have h0 : ¬ level = 0 := by omega
  simp [noTopComma, scanNesting, h0]

theorem SealedInside.of_Trim {s : Str} (h : SealedInside (Trim s)) : SealedInside s := by
  obtain ⟨sp, sp', hsp, hsp', he⟩ := Trim_decompose s
  rw [he]
  exact ((Sealed.of_spaces sp hsp).toInside.concat h).concat (Sealed.of_spaces sp' hsp').toInside

theorem SealedInside.of_blank {s : Str} (h : Trim s = []) : SealedInside s :=
  (Sealed.of_spaces s (spaces_of_Trim_eq_nil s h)).toInside

theorem Sealed.brackets {body : Str} (h : SealedInside body) :
    Sealed ('[' :: (body ++ [']'])) := by
  intro level hl
  have hb := h (level + 1) (by omega)
  have h1 : noTopComma ('[' :: (body ++ [']'])) (level, false) =
      noTopComma (body ++ [']']) (level + 1, false) := by
    simp [noTopComma]
  have h2 : scanNesting ('[' :: (body ++ [']'])) (level, false) =
      scanNesting (body ++ [']']) (level + 1, false) := by
    simp [scanNesting]
  rw [h1, h2, noTopComma_append, scanNesting_append, hb.1, hb.2]
  simp [noTopComma, scanNesting]

theorem ParseArrayLoop_at_comma (pv : Str → Except Thrown Value) (rest seg : Str)
    (elements : List Value) :
    ParseArrayLoop pv (',' :: rest) ⟨elements, seg, 0, false⟩ =
      if !(Trim seg).isEmpty then
        match pv (Trim seg) with
        | .error e => .error e
        | .ok parsed_elem =>
          if parsed_elem.IsInvalid then .ok none
          else ParseArrayLoop pv rest ⟨elements ++ [parsed_elem], [], 0, false⟩
      else ParseArrayLoop pv rest ⟨elements, [], 0, false⟩ := by
  have e1 : ¬ (',' = '"') := by decide
  have e2 : ¬ (',' = '[') := by decide
  have e3 : ¬ (',' = ']') := by decide
  simp only [ParseArrayLoop, e1, e2, e3, if_false, if_true, and_self]

/-- A run of the loop of `ParseArrayElements` that ends balanced, each of its elements
accepted, went over a text that is read as one piece inside a pair of brackets, when
the accepted elements are. -/
theorem SealedInside.of_run (pv : Str → Except Thrown Value) (bound : Nat)
    (hpv : ∀ e p, e.length < bound → pv e = .ok p → p.IsInvalid = false → Sealed e)
    (x : Str) (hx : x.length < bound) (elements : List Value) (stf : ArrayScan)
    (hrun : ParseArrayLoop pv x ⟨elements, [], 0, false⟩ = .ok (some stf))
    (hlevel : stf.bracket_level = 0) (hstring : stf.in_string = false)
    (hlast : Trim stf.curr_element = [] ∨
      ∃ p, pv (Trim stf.curr_element) = .ok p ∧ p.IsInvalid = false) :
    SealedInside x := by
  have hseg : ∀ seg : Str, seg.length < bound →
      (Trim seg = [] ∨ ∃ p, pv (Trim seg) = .ok p ∧ p.IsInvalid = false) →
      SealedInside seg := by
    intro seg hlen hs
    rcases hs with hs | ⟨p, hp, hpi⟩
    · exact SealedInside.of_blank hs
    · exact SealedInside.of_Trim
        (hpv _ p (Nat.lt_of_le_of_lt (Trim_length_le seg) hlen) hp hpi).toInside
  obtain ⟨n, hn⟩ : ∃ n, x.length = n := ⟨_, rfl⟩
  induction n using Nat.strong_induction_on generalizing x elements with
  | _ n ih =>
    rcases first_top_comma x (0, false) with h | ⟨seg, rest, hxe, hno, hscan⟩
    · have h1 := ParseArrayLoop_absorb pv x [] ⟨elements, [], 0, false⟩ h
      rw [List.append_nil] at h1
      rw [h1] at hrun
      simp only [ParseArrayLoop, List.nil_append, Except.ok.injEq, Option.some.injEq] at hrun
      subst hrun
      exact hseg x hx hlast
    · subst hxe
      have h1 := ParseArrayLoop_absorb pv seg (',' :: rest) ⟨elements, [], 0, false⟩ hno
      simp only [hscan, List.nil_append] at h1
      rw [h1, ParseArrayLoop_at_comma] at hrun
      have hlen1 : seg.length < bound := by
        simp only [List.length_append, List.length_cons] at hx
        omega
      have hlen2 : rest.length < bound := by
        simp only [List.length_append, List.length_cons] at hx
        omega
      have hlen3 : rest.length < n := by
        rw [← hn]
        simp only [List.length_append, List.length_cons]
        omega
      have hjoin : ∀ (hs : SealedInside seg) (hr : SealedInside rest),
          SealedInside (seg ++ ',' :: rest) := by
        intro hs hr
        have h2 := (hs.concat SealedInside.comma).concat hr
        simpa using h2
      by_cases hb : (!(Trim seg).isEmpty) = true
      · rw [if_pos hb] at hrun
        split at hrun
        · cases hrun
        · rename_i p hp
          by_cases hpi : p.IsInvalid = true
          · rw [if_pos hpi] at hrun
            cases hrun
          · rw [if_neg hpi] at hrun
            exact hjoin (hseg seg hlen1 (Or.inr ⟨p, hp, by simpa using hpi⟩))
              (ih rest.length hlen3 rest hlen2 _ hrun rfl)
      · rw [if_neg hb] at hrun
        have hblank : Trim seg = [] := by
          cases ht : Trim seg with
          | nil => rfl
          | cons y ys => rw [ht] at hb; exact absurd rfl hb
        exact hjoin (hseg seg hlen1 (Or.inl hblank))
          (ih rest.length hlen3 rest hlen2 _ hrun rfl)

theorem plain_of_digits (digits : Str) (h : IsDigits digits) :
    ∀ c ∈ digits, c ≠ '"' ∧ c ≠ '[' ∧ c ≠ ']' ∧ c ≠ ',' := by
  intro c hc
  have hd := h.2 c hc
  refine ⟨?_, ?_, ?_, ?_⟩ <;>
    · intro e
      rw [e] at hd
      revert hd
      decide

theorem plain_of_sign (sign : Str) (h : IsSign sign) :
    ∀ c ∈ sign, c ≠ '"' ∧ c ≠ '[' ∧ c ≠ ']' ∧ c ≠ ',' := by
  rcases h with h | h | h <;>
    · subst h
      decide

theorem Sealed.of_int (t : Str) (h : IsIntValue t = true) : Sealed t := by
  obtain ⟨sign, digits, hs, hd, rfl⟩ := (IsIntValue_iff t).1 h
  refine Sealed.of_plain _ ?_
  intro c hc
  rcases List.mem_append.1 hc with hc | hc
  · exact plain_of_sign sign hs c hc
  · exact plain_of_digits digits hd c hc

theorem Sealed.of_float (t : Str) (h : IsFloatValue t = true) : Sealed t := by
  obtain ⟨sign, whole, frac, hs, hw, hf, rfl⟩ := (IsFloatValue_iff t).1 h
  refine Sealed.of_plain _ ?_
  intro c hc
  simp only [List.mem_append, List.mem_cons] at hc
  rcases hc with (hc | hc) | hc | hc
  · exact plain_of_sign sign hs c hc
  · exact plain_of_digits whole hw c hc
  · rw [hc]; decide
  · exact plain_of_digits frac hf c hc

theorem Sealed.of_bool (t : Str) (h : IsBoolValue t = true) : Sealed t := by
  simp only [IsBoolValue, Bool.or_eq_true, decide_eq_true_eq] at h
  rcases h with h | h <;>
    · subst h
      exact Sealed.of_plain _ (by decide)

theorem ParseArrayTail_accepts (pv : Str → Except Thrown Value) (stf : ArrayScan)
    (elements : List Value) (h : ParseArrayTail pv stf = .ok elements) (hne : elements ≠ []) :
    stf.bracket_level = 0 ∧ stf.in_string = false ∧
      (Trim stf.curr_element = [] ∨
        ∃ p, pv (Trim stf.curr_element) = .ok p ∧ p.IsInvalid = false) := by
  unfold ParseArrayTail at h
  by_cases hbal : stf.bracket_level ≠ 0 ∨ stf.in_string = true
  · rw [if_pos hbal] at h
    injection h with h
    exact absurd h.symm hne
  · rw [if_neg hbal] at h
    rw [not_or] at hbal
    simp only [ne_eq, not_not, Bool.not_eq_true] at hbal
    refine ⟨hbal.1, hbal.2, ?_⟩
    by_cases hb : (!(Trim stf.curr_element).isEmpty) = true
    · rw [if_pos hb] at h
      split at h
      · cases h
      · rename_i p hp
        by_cases hpi : p.IsInvalid = true
        · rw [if_pos hpi] at h
          injection h with h
          exact absurd h.symm hne
        · exact Or.inr ⟨p, hp, by simpa using hpi⟩
    · left
      cases ht : Trim stf.curr_element with
      | nil => rfl
      | cons y ys => rw [ht] at hb; exact absurd rfl hb

theorem Sealed.of_bound (stof : StofFn) (bound : Nat) :
    ∀ t v, t.length < bound → ParseValue stof t = .ok v → v.IsInvalid = false → Sealed t := by
  induction bound with
  | zero =>
    intro t v hlen
    omega
  | succ bound ih =>
    intro t v hlen h0 hv
    have h := h0
    rw [ParseValue_eq] at h
    unfold ParseValueBody at h
    by_cases h1 : IsStringValue t = true
    · obtain ⟨s, rfl, hs⟩ := (IsStringValue_iff t).1 h1
      exact Sealed.quoted s hs
    rw [if_neg h1] at h
    by_cases h2 : IsBoolValue t = true
    · exact Sealed.of_bool t h2
    rw [if_neg h2] at h
    by_cases h3 : IsArrayValue t = true
    · simp only [IsArrayValue, Bool.and_eq_true, decide_eq_true_eq] at h3
      obtain ⟨body, rfl⟩ := ends_decompose t '[' ']' h3.1.1 h3.1.2 h3.2
      refine Sealed.brackets ?_
      by_cases hb : (Trim body).isEmpty = true
      · exact SealedInside.of_blank (List.isEmpty_iff.1 hb)
      · refine SealedInside.of_Trim ?_
        rw [ParseValue_bracket, ParseArrayElements_bracket] at h0
        simp only [hb, Bool.false_eq_true, if_false] at h0
        have hlen2 : (Trim body).length < bound := by
          have hle := Trim_length_le body
          simp only [List.length_cons, List.length_append, List.length_singleton] at hlen
          omega
        cases hl : ParseArrayLoop (ParseValue stof) (Trim body) ⟨[], [], 0, false⟩ with
        | error e =>
          rw [hl] at h0
          cases h0
        | ok r =>
          rw [hl] at h0
          cases r with
          | none =>
            simp only [List.isEmpty_nil, if_true, Except.ok.injEq] at h0
            rw [← h0] at hv
            cases hv
          | some stf =>
            simp only at h0
            cases ht : ParseArrayTail (ParseValue stof) stf with
            | error e =>
              rw [ht] at h0
              cases h0
            | ok elements =>
              rw [ht] at h0
              simp only at h0
              have hne : elements ≠ [] := by
                intro e
                rw [e] at h0
                simp only [List.isEmpty_nil, if_true, Except.ok.injEq] at h0
                rw [← h0] at hv
                cases hv
              obtain ⟨hlevel, hstring, hlast⟩ := ParseArrayTail_accepts _ stf elements ht hne
              exact SealedInside.of_run (ParseValue stof) bound
                (fun e p he hp hpi => ih e p he hp hpi) (Trim body) hlen2 [] stf hl
                hlevel hstring hlast
    rw [if_neg h3] at h
    by_cases h4 : IsFloatValue t = true
    · exact Sealed.of_float t h4
    rw [if_neg h4] at h
    by_cases h5 : IsIntValue t = true
    · exact Sealed.of_int t h5
    rw [if_neg h5] at h
    injection h with h
    rw [← h] at hv
    cases hv

/-- A token `ParseValue` accepts is read as one piece by the loop of
`ParseArrayElements`, wherever it stands in an array literal. -/
theorem Sealed.of_valid (stof : StofFn) (t : Str) (v : Value)
    (h : ParseValue stof t = .ok v) (hv : v.IsInvalid = false) : Sealed t :=
  Sealed.of_bound stof (t.length + 1) t v (Nat.lt_succ_self _) h hv

/-! ## Array literals made of accepted tokens -/

theorem head?_skipSpaces (s : Str) : (skipSpaces s).head? ≠ some ' ' := by
  induction s with
  | nil => simp [skipSpaces]
  | cons c cs ih =>
    simp only [skipSpaces]
    split_ifs with h
    · exact ih
    · simp only [IsSpace, decide_eq_true_eq] at h
      simpa using h

theorem skipSpaces_eq_self (x : Str) (h : x.head? ≠ some ' ') : skipSpaces x = x := by
  cases x with
  | nil => rfl
  | cons c cs =>
    have hc : c ≠ ' ' := by simpa using h
    simp [skipSpaces, IsSpace, hc]

theorem Trim_eq_self (x : Str) (h1 : x.head? ≠ some ' ') (h2 : x.getLast? ≠ some ' ') :
    Trim x = x := by
  unfold Trim
  rw [skipSpaces_eq_self x h1, skipSpaces_eq_self x.reverse (by simpa using h2),
    List.reverse_reverse]

theorem ends_of_Trim (s : Str) :
    (Trim s).head? ≠ some ' ' ∧ (Trim s).getLast? ≠ some ' ' := by
  constructor
  · obtain ⟨sp', -, he'⟩ := trimRight_decompose (skipSpaces s)
    have h : skipSpaces s = Trim s ++ sp' := he'
    have h0 := head?_skipSpaces s
    cases ht : Trim s with
    | nil => simp
    | cons y ys =>
      rw [h, ht] at h0
      simpa using h0
  · have h0 := head?_skipSpaces (skipSpaces s).reverse
    unfold Trim
    simpa using h0

theorem Trim_spaces_append (spaces t : Str) (h : ∀ c ∈ spaces, c = ' ') :
    Trim (spaces ++ t) = Trim t := by
  unfold Trim
  rw [skipSpaces_spaces_append spaces t h]

theorem ParseValue_nil (stof : StofFn) : ParseValue stof [] = .ok .invalid := rfl

theorem commaSeparated_ends (tokens : List Str) (hne : tokens ≠ [])
    (h : ∀ t ∈ tokens, t ≠ [] ∧ t.head? ≠ some ' ' ∧ t.getLast? ≠ some ' ') :
    commaSeparated tokens ≠ [] ∧ (commaSeparated tokens).head? ≠ some ' ' ∧
      (commaSeparated tokens).getLast? ≠ some ' ' := by
  induction tokens with
  | nil => exact absurd rfl hne
  | cons t rest ih =>
    obtain ⟨ht1, ht2, ht3⟩ := h t (by simp)
    cases rest with
    | nil => exact ⟨ht1, ht2, ht3⟩
    | cons t2 more =>
      obtain ⟨hr1, -, hr3⟩ := ih (by simp) (fun x hx => h x (by simp [hx]))
      obtain ⟨y, ys, hy⟩ := List.exists_cons_of_ne_nil ht1
      refine ⟨by simp [commaSeparated], ?_, ?_⟩
      · simp only [commaSeparated]
        rw [hy] at ht2 ⊢
        simpa using ht2
      · simp only [commaSeparated]
        have e : t ++ ',' :: ' ' :: commaSeparated (t2 :: more) =
            (t ++ [',', ' ']) ++ commaSeparated (t2 :: more) := by simp
        rw [e, List.getLast?_append]
        obtain ⟨z, hz⟩ : ∃ z, (commaSeparated (t2 :: more)).getLast? = some z := by
          cases hg : (commaSeparated (t2 :: more)).getLast? with
          | none => exact absurd (List.getLast?_eq_none_iff.1 hg) hr1
          | some z => exact ⟨z, rfl⟩
        rw [hz] at hr3 ⊢
        simpa using hr3

theorem ParseArrayLoop_tokens (pv : Str → Except Thrown Value) (tokens : List Str)
    (values : List Value)
    (h : List.Forall₂ (fun t v => Trim t = t ∧ t ≠ [] ∧ Sealed t ∧ pv t = .ok v ∧
      v.IsInvalid = false) tokens values)
    (hne : tokens ≠ []) (elements : List Value) (spaces : Str)
    (hspaces : ∀ c ∈ spaces, c = ' ') :
    ∃ stf, ParseArrayLoop pv (commaSeparated tokens) ⟨elements, spaces, 0, false⟩ =
        .ok (some stf) ∧
      ParseArrayTail pv stf = .ok (elements ++ values) := by
  induction h generalizing elements spaces with
  | nil => exact absurd rfl hne
  | @cons t v rest values' htv hrest ih =>
    obtain ⟨ht1, ht2, ht3, ht4, ht5⟩ := htv
    have hs := ht3 0 (le_refl 0)
    have habs : ∀ after, ParseArrayLoop pv (t ++ after) ⟨elements, spaces, 0, false⟩ =
        ParseArrayLoop pv after ⟨elements, spaces ++ t, 0, false⟩ := by
      intro after
      have h1 := ParseArrayLoop_absorb pv t after ⟨elements, spaces, 0, false⟩ hs.1
      simp only [hs.2] at h1
      exact h1
    have htrim : Trim (spaces ++ t) = t := by
      rw [Trim_spaces_append spaces t hspaces, ht1]
    have hne2 : (!(Trim (spaces ++ t)).isEmpty) = true := by
      rw [htrim]
      cases t with
      | nil => exact absurd rfl ht2
      | cons y ys => rfl
    cases hrest with
    | nil =>
      refine ⟨⟨elements, spaces ++ t, 0, false⟩, ?_, ?_⟩
      · have h1 := habs []
        rw [List.append_nil] at h1
        exact h1
      · have hne3 : (!t.isEmpty) = true := by
          rw [← htrim]
          exact hne2
        simp only [ParseArrayTail, ne_eq, not_true_eq_false, Bool.false_eq_true, or_self,
          if_false, hne3, if_true, htrim, ht4, ht5]
    | @cons t2 v2 more values2 htv2 hmore =>
      obtain ⟨stf, hl, htail⟩ := ih (by simp) (elements ++ [v]) [' '] (by simp)
      refine ⟨stf, ?_, ?_⟩
      · simp only [commaSeparated]
        rw [habs, ParseArrayLoop_at_comma, if_pos hne2, htrim, ht4]
        simp only [ht5, Bool.false_eq_true, if_false]
        have h2 := ParseArrayLoop_spaces pv [' '] (commaSeparated (t2 :: more)) (by simp)
          ⟨elements ++ [v], [], 0, false⟩
        simp only [List.singleton_append, List.nil_append] at h2
        rw [h2]
        exact hl
      · rw [htail]
        simp

/-! ## Claims -/

/-- C1 as stated fails: the key `c` is declared under `a.b`, the document is valid, and
`Get("a.b.c")` is Invalid, because the later line `b = 2` under `[a]` replaced the
section `a.b`. -/
theorem declared_key_lost :
    parse stofNearest "[a.b]\nc = 1\n[a]\nb = 2".toList =
        .ok ⟨true, .sect [("a".toList, .sect [("b".toList, .int 2)])]⟩ ∧
      ParseValue stofNearest "1".toList = .ok (.int 1) ∧
      Config.Get ⟨true, .sect [("a".toList, .sect [("b".toList, .int 2)])]⟩ "a.b.c".toList =
        .invalid :=
  ⟨rfl, rfl, rfl⟩

/-- C1 (amended): on a text for which `parse` returns a valid document, a key-value line
`k = v` declared under the section path `s1.….sn` is reachable by `Get("s1.….sn.k")`,
which returns the Value `ParseValue` assigns to the token `v` (not Invalid, not a
Section), provided every later line keeps clear of that entry (`Kept`): no later
key-value line is declared at a dotted path that is a prefix of `s1.….sn.k` or lies
below it, and no later section line names a path strictly below it. -/
theorem declared_key_reachable (stof : StofFn) (text : Str) (config : Config)
    (pre rest : List Str) (raw_line key value : Str) (st : ParseState)
    (htext : SplitLines text = pre ++ raw_line :: rest)
    (hparse : parse stof text = .ok config) (hvalid : config.valid = true)
    (hline : keyValueOf raw_line = some (key, value))
    (hafter : stateAfter stof (pre ++ [raw_line]) ParseState.initial = some st)
    (hkept : Kept stof (st.current_section_path ++ [key]) rest st) :
    ∃ parsed, ParseValue stof value = .ok parsed ∧ parsed.IsInvalid = false ∧
      parsed.IsSection = false ∧
      config.Get (dotted (st.current_section_path ++ [key])) = parsed := by
  unfold parse parseLines at hparse
  rw [htext] at hparse
  obtain ⟨stF, hF, hcfg⟩ := stateAfter_of_parseLoop_valid stof _ _ config hparse hvalid
  have hsplit : pre ++ raw_line :: rest = (pre ++ [raw_line]) ++ rest := by simp
  rw [hsplit, stateAfter_append, hafter] at hF
  simp only [Option.bind] at hF
  rw [stateAfter_append] at hafter
  cases hpre : stateAfter stof pre ParseState.initial with
  | none => rw [hpre] at hafter; cases hafter
  | some st0 =>
    rw [hpre] at hafter
    simp only [Option.bind, stateAfter] at hafter
    split at hafter
    · rename_i st1 h1
      simp only [Option.some.injEq] at hafter
      subst hafter
      rcases parseLine_proceed_cases stof st0 st1 raw_line h1 with
        ⟨-, -, hk⟩ | ⟨parts, hh, -⟩ | ⟨key', value', parsed, hk, hkey, hp, hinv, e⟩
      · rw [hline] at hk; cases hk
      · rw [headerOf_keyValueOf raw_line parts hh] at hline; cases hline
      · rw [hline] at hk
        simp only [Option.some.injEq, Prod.mk.injEq] at hk
        obtain ⟨hk1, hk2⟩ := hk
        subst hk1 hk2
        refine ⟨parsed, hp, hinv, ParseValue_not_section stof _ parsed hp, ?_⟩
        have hpath0 := stateAfter_path_valid stof pre _ st0 hpre
          (fun p hp => by simp [ParseState.initial] at hp)
        have hpe : st1.current_section_path = st0.current_section_path := by rw [e]
        have hl1 : lookup (st1.current_section_path ++ [key]) st1.config.root_ =
            some parsed := by
          rw [hpe]
          conv => lhs; arg 2; rw [e]
          exact lookup_update_SetKeyValue _ _ _ _
        have hlF := lookup_kept stof _ parsed rest st1 stF hF hkept hl1
        have hkeys : ∀ p ∈ st1.current_section_path ++ [key], IsValidKey p = true := by
          intro p hp
          rcases List.mem_append.mp hp with h2 | h2
          · rw [hpe] at h2; exact hpath0 p h2
          · rw [List.mem_singleton.mp h2]; exact hkey
        have hv : config.valid_ = true := hvalid
        have hc : config = ⟨true, stF.config.root_⟩ := by
          rw [← hv, hcfg]
        rw [hc, Get_dotted _ _ (by simp) hkeys, hlF]
        rfl
    · cases hafter

theorem declared_key_reachable_witness :
    ∃ parsed, ParseValue stofNearest "\"127.0.0.1\"".toList = .ok parsed ∧
      parsed.IsInvalid = false ∧ parsed.IsSection = false ∧
      Config.Get ⟨true, .sect [("servers".toList, .sect [("first".toList,
          .sect [("ip".toList, .string "127.0.0.1".toList),
            ("ports".toList, .array [.int 80, .int 443])])])]⟩
        (dotted (["servers".toList, "first".toList] ++ ["ip".toList])) = parsed :=
  declared_key_reachable stofNearest
    "[servers.first]\nip = \"127.0.0.1\"\nports = [80, 443]".toList _
    ["[servers.first]".toList] ["ports = [80, 443]".toList] "ip = \"127.0.0.1\"".toList
    "ip".toList "\"127.0.0.1\"".toList
    ⟨⟨true, .sect [("servers".toList, .sect [("first".toList,
        .sect [("ip".toList, .string "127.0.0.1".toList)])])]⟩,
      ["servers".toList, "first".toList]⟩
    rfl rfl rfl rfl rfl
    ⟨show ¬ (_ <+: _) ∧ ¬ (_ <+: _) from ⟨by decide, by decide⟩, trivial⟩

/-- C2: when `parse` returns a document whose validity flag is false, `Get` on it is the
Invalid variant for every path string, whatever the tree holds. -/
theorem Get_of_invalid_document (stof : StofFn) (text : Str) (config : Config)
    (_ : parse stof text = .ok config) (hvalid : config.valid = false) (p : Str) :
    config.Get p = .invalid := by
  have h : config.valid_ = false := hvalid
  simp [Config.Get, h]

theorem Get_of_invalid_document_witness :
    parse stofNearest "x = 1\nx = 2".toList = .ok ⟨false, .sect [("x".toList, .int 1)]⟩ ∧
      Config.Get ⟨false, .sect [("x".toList, .int 1)]⟩ "x".toList = .invalid :=
  ⟨rfl, Get_of_invalid_document stofNearest "x = 1\nx = 2".toList _ rfl rfl _⟩

/-- C3: if `parse` stays valid on the lines `pre` and the line `L` is rejected when it
comes after `pre`, then on a text whose lines are `pre`, `L` and any `rest`, `parse`
returns the invalid document whose root is exactly the root of `parse` on `pre`. -/
theorem first_failure_halts (stof : StofFn) (pre rest : List Str) (L : Str)
    (cpre cL : Config)
    (hpre : parseLines stof pre = .ok cpre) (hvalid : cpre.valid = true)
    (hL : parseLines stof (pre ++ [L]) = .ok cL) (hrej : cL.valid = false)
    (text : Str) (htext : SplitLines text = pre ++ L :: rest) :
    parse stof text = .ok ⟨false, cpre.root_⟩ := by
  obtain ⟨st, hst, hc⟩ := stateAfter_of_parseLoop_valid stof pre _ cpre hpre hvalid
  have hinv := stateAfter_invariant stof pre _ st WalkStable_initial hst
  have hstep : parseLine stof st L = .ok (.stop ⟨false, cpre.root_⟩) := by
    have h1 : parseLoop stof [L] st = .ok cL := by
      rw [← parseLoop_of_stateAfter stof pre [L] _ st hst]
      exact hL
    simp only [parseLoop] at h1
    split at h1
    · cases h1
    · rename_i c1 h2
      rw [h2, parseLine_stop_of_stable stof st L c1 hinv.2 h2, hc]
    · rename_i st1 h2
      injection h1 with h1
      have hv := (parseLine_proceed stof st st1 L hinv.2 h2).1
      rw [h1, hc] at hv
      have hv2 : cL.valid_ = false := hrej
      have hv3 : cpre.valid_ = true := hvalid
      rw [hv2, hv3] at hv
      cases hv
  unfold parse parseLines
  rw [htext, parseLoop_of_stateAfter stof pre (L :: rest) _ st hst]
  simp only [parseLoop, hstep]

theorem first_failure_halts_witness :
    parse stofNearest "x = 1\nx = 2\ny = 3".toList = .ok ⟨false, .sect [("x".toList, .int 1)]⟩ :=
  first_failure_halts stofNearest ["x = 1".toList] ["y = 3".toList] "x = 2".toList
    ⟨true, .sect [("x".toList, .int 1)]⟩ ⟨false, .sect [("x".toList, .int 1)]⟩
    rfl rfl rfl rfl "x = 1\nx = 2\ny = 3".toList rfl

/-- C4: in a state `parse` reaches after the lines `pre`, a key-value line whose key
already names a non-section Value in the current section is rejected: the loop body
returns the document with the validity flag false and the root unchanged (the stored
Value is not overwritten), and so does `parse` on `pre`, that line and any `rest`. -/
theorem duplicate_key_rejected (stof : StofFn) (pre rest : List Str) (st : ParseState)
    (hpre : stateAfter stof pre ParseState.initial = some st)
    (raw_line key value : Str) (existing : Value)
    (hline : keyValueOf raw_line = some (key, value))
    (hexisting : (resolve st.current_section_path st.config.root_).GetRef key = some existing)
    (hscalar : existing.IsSection = false) :
    parseLine stof st raw_line = .ok (.stop ⟨false, st.config.root_⟩) ∧
      parseLines stof (pre ++ raw_line :: rest) = .ok ⟨false, st.config.root_⟩ := by
  have hinv := stateAfter_invariant stof pre _ st WalkStable_initial hpre
  have hstable : update id st.current_section_path st.config.root_ = st.config.root_ := hinv.2
  have hstep : parseLine stof st raw_line = .ok (.stop ⟨false, st.config.root_⟩) := by
    rw [parseLine_of_keyValueOf stof st raw_line key value hline]
    unfold parseKeyValueLine
    simp only [hexisting, hscalar, Config.SetValid, hstable, Bool.not_false, if_true]
    split_ifs <;> rfl
  refine ⟨hstep, ?_⟩
  unfold parseLines
  rw [parseLoop_of_stateAfter stof pre (raw_line :: rest) _ st hpre]
  simp only [parseLoop, hstep]

theorem duplicate_key_rejected_witness :
    parseLine stofNearest ⟨⟨true, .sect [("x".toList, .int 1)]⟩, []⟩ "x = 2".toList =
        .ok (.stop ⟨false, .sect [("x".toList, .int 1)]⟩) ∧
      parseLines stofNearest (["x = 1".toList] ++ "x = 2".toList :: ["y = 3".toList]) =
        .ok ⟨false, .sect [("x".toList, .int 1)]⟩ :=
  duplicate_key_rejected stofNearest ["x = 1".toList] ["y = 3".toList]
    ⟨⟨true, .sect [("x".toList, .int 1)]⟩, []⟩ rfl "x = 2".toList "x".toList "2".toList
    (.int 1) rfl rfl rfl

/-- C5 (the code at the failing inputs): a section header that runs into a key holding a
non-section Value is not rejected.  `a = 1` then `[a]` is a valid document that still
holds the Int under `a`; `[a]`, `x = 1`, `[a.x]` is valid too; and `a = 1` then `[a.b]`
is valid with the Int under `a` replaced by a Section. -/
theorem header_over_scalar_accepted (stof : StofFn) :
    parse stof "a = 1\n[a]".toList = .ok ⟨true, .sect [("a".toList, .int 1)]⟩ ∧
      parse stof "[a]\nx = 1\n[a.x]".toList =
        .ok ⟨true, .sect [("a".toList, .sect [("x".toList, .int 1)])]⟩ ∧
      parse stof "a = 1\n[a.b]".toList =
        .ok ⟨true, .sect [("a".toList, .sect [("b".toList, .sect [])])]⟩ :=
  ⟨rfl, rfl, rfl⟩

/-- C6 (the code at the failing input): the header `[a..b]`, whose interior has an empty
segment between the dots, is accepted and read as `[a.b]`; a leading or a trailing dot
is rejected. -/
theorem doubled_dot_header_accepted (stof : StofFn) :
    parse stof "[a..b]".toList =
        .ok ⟨true, .sect [("a".toList, .sect [("b".toList, .sect [])])]⟩ ∧
      parse stof "[a..b]".toList = parse stof "[a.b]".toList ∧
      parse stof "[.a]".toList = .ok ⟨false, .sect []⟩ ∧
      parse stof "[a.]".toList = .ok ⟨false, .sect []⟩ :=
  ⟨rfl, rfl, rfl, rfl⟩

/-- C7 as stated fails: after `[a.b]` and `[a]` the key `b` names a Section of the
current section, and the line `b = 1` is accepted: the document is valid and the
Section is replaced by the Int. -/
theorem key_value_over_section_accepted :
    parse stofNearest "[a.b]\n[a]\nb = 1".toList =
        .ok ⟨true, .sect [("a".toList, .sect [("b".toList, .int 1)])]⟩ ∧
      parse stofNearest "[a.b]\n[a]".toList =
        .ok ⟨true, .sect [("a".toList, .sect [("b".toList, .sect [])])]⟩ :=
  ⟨rfl, rfl⟩

/-- C7 (amended): in a state `parse` reaches, a key-value line whose key already names a
Section in the current section is accepted when its value token classifies as a
non-Invalid Value: the document stays valid and the Section is replaced by that Value,
which is what the key names afterwards and what `Get` returns for its dotted path. -/
theorem key_value_replaces_section (stof : StofFn) (st : ParseState)
    (hreached : Reached stof st)
    (raw_line key value : Str) (existing parsed : Value)
    (hline : keyValueOf raw_line = some (key, value))
    (hexisting : (resolve st.current_section_path st.config.root_).GetRef key = some existing)
    (hsection : existing.IsSection = true)
    (hvalue : ParseValue stof value = .ok parsed) (hparsed : parsed.IsInvalid = false) :
    ∃ root', parseLine stof st raw_line =
        .ok (.proceed ⟨⟨true, root'⟩, st.current_section_path⟩) ∧
      (resolve st.current_section_path root').GetRef key = some parsed ∧
      parsed.IsSection = false ∧
      Config.Get ⟨true, root'⟩ (dotted (st.current_section_path ++ [key])) = parsed := by
  obtain ⟨pre, hpre⟩ := hreached
  obtain ⟨hv, -, hpath, hroot⟩ := reached_invariant stof pre st hpre
  have hkey : IsValidKey key = true :=
    ((KeysValid.resolve _ hpath _ hroot).GetRef key existing hexisting).1
  refine ⟨update (fun t => t.SetKeyValue key parsed) st.current_section_path st.config.root_,
    ?_, ?_, ParseValue_not_section stof value parsed hvalue, ?_⟩
  · rw [parseLine_of_keyValueOf stof st raw_line key value hline,
      parseKeyValueLine_accept stof st key value parsed hkey ?_ hvalue hparsed, hv]
    intro e he
    rw [hexisting] at he
    injection he with he
    rw [← he]; exact hsection
  · rw [resolve_update]
    exact GetRef_SetKeyValue_self _ _ _
  · have hkeys : ∀ p ∈ st.current_section_path ++ [key], IsValidKey p = true := by
      intro p hp
      rcases List.mem_append.mp hp with h2 | h2
      · exact hpath p h2
      · rw [List.mem_singleton.mp h2]; exact hkey
    rw [Get_dotted _ _ (by simp) hkeys, lookup_update_SetKeyValue]
    rfl

theorem key_value_replaces_section_witness :
    ∃ root', parseLine stofNearest
        ⟨⟨true, .sect [("a".toList, .sect [("b".toList, .sect [])])]⟩, ["a".toList]⟩
        "b = 1".toList = .ok (.proceed ⟨⟨true, root'⟩, ["a".toList]⟩) ∧
      (resolve ["a".toList] root').GetRef "b".toList = some (.int 1) ∧
      (Value.int 1).IsSection = false ∧
      Config.Get ⟨true, root'⟩ (dotted (["a".toList] ++ ["b".toList])) = .int 1 :=
  key_value_replaces_section stofNearest
    ⟨⟨true, .sect [("a".toList, .sect [("b".toList, .sect [])])]⟩, ["a".toList]⟩
    ⟨["[a.b]".toList, "[a]".toList], rfl⟩
    "b = 1".toList "b".toList "1".toList (.sect []) (.int 1) rfl rfl rfl rfl rfl

/-- C8 as stated fails: the literal `[1,,2]` has an empty element between the commas and
is the Array `[1, 2]`, `[1,]` is the Array `[1]`, and `x = [1,,2]` is a valid document. -/
theorem empty_element_skipped :
    ParseValue stofNearest "[1,,2]".toList = .ok (.array [.int 1, .int 2]) ∧
      ParseValue stofNearest "[1,]".toList = .ok (.array [.int 1]) ∧
      parse stofNearest "x = [1,,2]".toList =
        .ok ⟨true, .sect [("x".toList, .array [.int 1, .int 2])]⟩ :=
  ⟨rfl, rfl, rfl⟩

/-- C8 (amended): an empty element of an array literal is skipped, not rejected.  When
the text `a` ends at bracket depth 0 outside a quoted string, a second comma after
`a,` with nothing or only spaces in between changes nothing, so `ParseValue` returns
for `[a, ,b]` what it returns for `[a,b]`; and when `a` is not blank, a comma after it
with nothing or only spaces up to the closing bracket changes nothing either, so
`ParseValue` returns for `[a, ]` what it returns for `[a]`. -/
theorem empty_element_transparent (stof : StofFn) (a b spaces : Str)
    (hspaces : ∀ c ∈ spaces, c = ' ')
    (htop : scanNesting a (0, false) = (0, false)) :
    ParseValue stof ('[' :: (a ++ ',' :: (spaces ++ ',' :: b) ++ [']'])) =
        ParseValue stof ('[' :: (a ++ ',' :: b ++ [']'])) ∧
      (Trim a ≠ [] →
        ParseValue stof ('[' :: (a ++ ',' :: spaces ++ [']'])) =
          ParseValue stof ('[' :: (a ++ [']']))) := by
  have hc : (',' : Char) ≠ ' ' := by decide
  have ht1 : Trim (a ++ ',' :: (spaces ++ ',' :: b)) =
      skipSpaces a ++ ',' :: (spaces ++ ',' :: (skipSpaces b.reverse).reverse) := by
    rw [Trim_append_of_ne a _ ',' hc, trimRight_append_of_ne spaces b ',' hc]
  have ht2 : Trim (a ++ ',' :: b) = skipSpaces a ++ ',' :: (skipSpaces b.reverse).reverse :=
    Trim_append_of_ne a b ',' hc
  have ht3 : Trim (a ++ ',' :: spaces) ≠ [] := by
    rw [Trim_append_of_ne a _ ',' hc]; simp
  constructor
  · rw [ParseValue_eq stof ('[' :: (a ++ ',' :: (spaces ++ ',' :: b) ++ [']'])),
      ParseValue_eq stof ('[' :: (a ++ ',' :: b ++ [']']))]
    refine ParseValueBody_bracket_congr stof _ _ _ (by rw [ht1]; simp) (by rw [ht2]; simp)
      (ParseArrayElements_bracket_congr _ _ _ (by rw [ht1]; simp) (by rw [ht2]; simp) ?_)
    rw [ht1, ht2, ParseArrayLoop_append, ParseArrayLoop_append]
    cases hr : ParseArrayLoop (ParseValue stof) (skipSpaces a) ⟨[], [], 0, false⟩ with
    | error e => rfl
    | ok r =>
      cases r with
      | none => rfl
      | some st =>
        have hn := ParseArrayLoop_nesting _ _ _ st hr
        rw [scanNesting_skipSpaces, htop] at hn
        simp only [Prod.mk.injEq] at hn
        exact ParseArrayLoop_doubled_comma _ spaces _ hspaces st hn.1 hn.2
  · intro hne
    rw [ParseValue_eq stof ('[' :: (a ++ ',' :: spaces ++ [']'])),
      ParseValue_eq stof ('[' :: (a ++ [']']))]
    exact ParseValueBody_bracket_congr stof _ _ _ ht3 hne
      (ParseArrayElements_trailing_comma _ a spaces hspaces htop hne)

theorem empty_element_transparent_witness :
    ParseValue stofNearest "[1, ,2]".toList = ParseValue stofNearest "[1,2]".toList ∧
      (Trim "1".toList ≠ [] →
        ParseValue stofNearest "[1, ]".toList = ParseValue stofNearest "[1]".toList) :=
  empty_element_transparent stofNearest "1".toList "2".toList " ".toList (by decide) rfl

/-- C9: in a state `parse` reaches in which the path `s1.….sn` names a Section, a header
line for that path is accepted and leaves the whole tree unchanged; a following
key-value line with a fresh valid key `k` and a value token that classifies is
accepted, after which the path names the same Section with `k` added, `Get` returns
the new Value for `s1.….sn.k`, and `Get` returns every child the Section had, unchanged. -/
theorem reopen_section_preserves (stof : StofFn) (st : ParseState)
    (hreached : Reached stof st)
    (raw_header : Str) (parts : List Str) (hheader : headerOf raw_header = some parts)
    (m : List (Str × Value)) (hsect : st.config.Get (dotted parts) = .sect m)
    (raw_line key value : Str) (parsed : Value)
    (hline : keyValueOf raw_line = some (key, value))
    (hkey : IsValidKey key = true) (hfresh : mapFind key m = none)
    (hvalue : ParseValue stof value = .ok parsed) (hparsed : parsed.IsInvalid = false) :
    parseLine stof st raw_header = .ok (.proceed ⟨st.config, parts⟩) ∧
      ∃ root', parseLine stof ⟨st.config, parts⟩ raw_line =
          .ok (.proceed ⟨⟨true, root'⟩, parts⟩) ∧
        Config.Get ⟨true, root'⟩ (dotted parts) = .sect (mapSet key parsed m) ∧
        Config.Get ⟨true, root'⟩ (dotted (parts ++ [key])) = parsed ∧
        ∀ child c, mapFind child m = some c →
          Config.Get ⟨true, root'⟩ (dotted (parts ++ [child])) = c := by
  obtain ⟨pre, hpre⟩ := hreached
  obtain ⟨hv, -, -, hroot⟩ := reached_invariant stof pre st hpre
  have hparts := headerOf_valid raw_header parts hheader
  have hcfg : st.config = ⟨true, st.config.root_⟩ := by rw [← hv]
  have hne : parts ≠ [] := by
    intro e
    rw [e, hcfg] at hsect
    simp [dotted, Config.Get, SplitPath, SplitPathFrom, GetParts] at hsect
  have hlook : lookup parts st.config.root_ = some (.sect m) := by
    rw [hcfg, Get_dotted _ _ hne hparts] at hsect
    cases hl : lookup parts st.config.root_ with
    | none => rw [hl] at hsect; cases hsect
    | some x => rw [hl] at hsect; exact congrArg some hsect
  have hres : resolve parts st.config.root_ = .sect m := resolve_of_lookup _ _ _ hlook
  have hkeysm := (hroot.lookup parts _ hlook).asMap_keys
  have hkeys : ∀ k, IsValidKey k = true → ∀ p ∈ parts ++ [k], IsValidKey p = true := by
    intro k hk p hp
    rcases List.mem_append.mp hp with h2 | h2
    · exact hparts p h2
    · rw [List.mem_singleton.mp h2]; exact hk
  have hlook' : lookup parts
      (update (fun t => t.SetKeyValue key parsed) parts st.config.root_) =
        some (.sect (mapSet key parsed m)) := by
    rw [lookup_update, hres]
    rfl
  refine ⟨?_, update (fun t => t.SetKeyValue key parsed) parts st.config.root_, ?_, ?_, ?_, ?_⟩
  · rw [parseLine_of_headerOf stof st raw_header parts hheader,
      update_id_of_lookup parts _ _ hlook]
  · rw [parseLine_of_keyValueOf stof _ raw_line key value hline,
      parseKeyValueLine_accept stof _ key value parsed hkey ?_ hvalue hparsed, hv]
    intro e he
    simp only [hres, Value.GetRef, hfresh] at he
    cases he
  · rw [Get_dotted _ _ hne hparts, hlook']
    rfl
  · rw [Get_dotted _ _ (by simp) (hkeys key hkey), lookup_update_SetKeyValue]
    rfl
  · intro child c hc
    have hck : IsValidKey child = true := (hkeysm child c (mem_of_mapFind child c m hc)).1
    have hcne : child ≠ key := by
      intro e
      rw [e, hfresh] at hc
      cases hc
    rw [Get_dotted _ _ (by simp) (hkeys child hck), lookup_append, hlook']
    simp only [Option.bind, lookup, Value.GetRef, mapFind_mapSet_ne _ _ _ _ hcne, hc]
    rfl

theorem reopen_section_preserves_witness :
    parseLine stofNearest ⟨⟨true, .sect [("a".toList, .sect [("x".toList, .int 1)])]⟩,
        ["a".toList]⟩ "[a]".toList =
        .ok (.proceed ⟨⟨true, .sect [("a".toList, .sect [("x".toList, .int 1)])]⟩,
          ["a".toList]⟩) ∧
      ∃ root', parseLine stofNearest
          ⟨⟨true, .sect [("a".toList, .sect [("x".toList, .int 1)])]⟩, ["a".toList]⟩
          "y = 2".toList = .ok (.proceed ⟨⟨true, root'⟩, ["a".toList]⟩) ∧
        Config.Get ⟨true, root'⟩ (dotted ["a".toList]) =
          .sect (mapSet "y".toList (.int 2) [("x".toList, .int 1)]) ∧
        Config.Get ⟨true, root'⟩ (dotted (["a".toList] ++ ["y".toList])) = .int 2 ∧
        ∀ child c, mapFind child [("x".toList, .int 1)] = some c →
          Config.Get ⟨true, root'⟩ (dotted (["a".toList] ++ [child])) = c :=
  reopen_section_preserves stofNearest
    ⟨⟨true, .sect [("a".toList, .sect [("x".toList, .int 1)])]⟩, ["a".toList]⟩
    ⟨["[a]".toList, "x = 1".toList], rfl⟩
    "[a]".toList ["a".toList] rfl [("x".toList, .int 1)] rfl
    "y = 2".toList "y".toList "2".toList (.int 2) rfl rfl rfl rfl rfl

/-- C10 (the code at the failing input): on `x = 2147483648` the call of `std::stoi`
throws `std::out_of_range`, which `parse` does not catch: no Document is returned. -/
theorem parse_throws_on_int_overflow (stof : StofFn) :
    parse stof "x = 2147483648".toList = .error .out_of_range ∧
      parse stof "x = -2147483649".toList = .error .out_of_range ∧
      parse stof "x = 2147483647".toList = .ok ⟨true, .sect [("x".toList, .int 2147483647)]⟩ :=
  ⟨rfl, rfl, rfl⟩

/-- C11: on a valid document `Config::Get(p)` is the chain of single-key lookups along
the non-empty pieces of `p` split on `.`: Invalid when there is no such piece, and
otherwise `Value::Get` folded over the pieces from the root.  So a dot put in front,
a dot put at the end and a dot doubled inside change nothing; a path with a segment
before its last one at which the chain does not reach a Section (the segment is
missing, or names another value) gives Invalid; and `Get(p + "." + k)` is
`Get(p).Get(k)` for a path `p` with a segment and a key `k` without dot. -/
theorem Get_is_chained_lookup (config : Config) (hvalid : config.valid = true) :
    (∀ p, config.Get p =
      if pathSegments p = [] then .invalid
      else (pathSegments p).foldl Value.Get config.GetRoot) ∧
    (∀ p a b, config.Get ('.' :: p) = config.Get p ∧ config.Get (p ++ ['.']) = config.Get p ∧
      config.Get (a ++ '.' :: '.' :: b) = config.Get (a ++ '.' :: b)) ∧
    (∀ p before seg after, pathSegments p = before ++ seg :: after → after ≠ [] →
      ((before.foldl Value.Get config.GetRoot).Get seg).IsSection = false →
      config.Get p = .invalid) ∧
    (∀ p k, pathSegments p ≠ [] → k ≠ [] → '.' ∉ k →
      config.Get (p ++ '.' :: k) = (config.Get p).Get k) := by
  have hv : config.valid_ = true := hvalid
  have hget : ∀ p, config.Get p =
      if pathSegments p = [] then .invalid
      else (pathSegments p).foldl Value.Get config.GetRoot := by
    intro p
    simp only [Config.Get, hv, Bool.not_true, Bool.false_eq_true, if_false,
      GetParts_eq_foldl, SplitPath_eq_pathSegments, Config.GetRoot]
  have hsame : ∀ p q, pathSegments p = pathSegments q → config.Get p = config.Get q := by
    intro p q h
    rw [hget p, hget q, h]
  refine ⟨hget, ?_, ?_, ?_⟩
  · intro p a b
    refine ⟨hsame _ _ ?_, hsame _ _ ?_, hsame _ _ ?_⟩
    · exact pathSegments_append [] p
    · exact (pathSegments_append p []).trans (List.append_nil _)
    · rw [pathSegments_append a ('.' :: b), pathSegments_append a b]
      exact congrArg _ (pathSegments_append [] b)
  · intro p before seg after hp hafter hsec
    rw [hget p, hp]
    have hne : before ++ seg :: after ≠ [] := by simp
    rw [if_neg hne, List.foldl_append, List.foldl_cons]
    cases after with
    | nil => exact absurd rfl hafter
    | cons next more =>
      rw [List.foldl_cons]
      rw [Get_of_not_section _ next hsec]
      exact foldl_Get_invalid more
  · intro p k hp hk hdot
    rw [hget (p ++ '.' :: k), hget p, if_neg hp, pathSegments_append,
      pathSegments_of_key k hk hdot]
    have hne : pathSegments p ++ [k] ≠ [] := by simp
    rw [if_neg hne, List.foldl_append]
    rfl

theorem Get_is_chained_lookup_witness :
    Config.valid ⟨true, .sect [("a".toList, .sect [("b".toList,
        .sect [("c".toList, .int 7)])])]⟩ = true ∧
      Config.Get ⟨true, .sect [("a".toList, .sect [("b".toList,
        .sect [("c".toList, .int 7)])])]⟩ "a.b.c".toList =
      (Config.Get ⟨true, .sect [("a".toList, .sect [("b".toList,
        .sect [("c".toList, .int 7)])])]⟩ "a.b".toList).Get "c".toList :=
  ⟨rfl, (Get_is_chained_lookup ⟨true, .sect [("a".toList, .sect [("b".toList,
      .sect [("c".toList, .int 7)])])]⟩ rfl).2.2.2 "a.b".toList "c".toList
    (by decide) (by decide) (by decide)⟩

/-- C12: array literals compose.  For tokens `t1`, ..., `tn` (`n` at least 1), none of
them empty or with a space at either end, that `ParseValue` classifies as values `v1`,
..., `vn`, none of them Invalid, `ParseValue` of `[`, the tokens with `, ` between
them, and `]` is the Array of `v1`, ..., `vn` in that order: a comma inside a token,
in a quoted string or in a nested pair of brackets, never splits it. -/
theorem array_literal_composes (stof : StofFn) (tokens : List Str) (values : List Value)
    (hne : tokens ≠ [])
    (h : List.Forall₂ (fun t v =>
      t ≠ [] ∧ Trim t = t ∧ ParseValue stof t = .ok v ∧ v.IsInvalid = false) tokens values) :
    ParseValue stof ('[' :: (commaSeparated tokens ++ [']'])) = .ok (.array values) := by
  have h2 : List.Forall₂ (fun t v => Trim t = t ∧ t ≠ [] ∧ Sealed t ∧
      ParseValue stof t = .ok v ∧ v.IsInvalid = false) tokens values :=
    h.imp (fun t v ht => ⟨ht.2.1, ht.1, Sealed.of_valid stof t v ht.2.2.1 ht.2.2.2,
      ht.2.2.1, ht.2.2.2⟩)
  have hends : ∀ t ∈ tokens, t ≠ [] ∧ t.head? ≠ some ' ' ∧ t.getLast? ≠ some ' ' := by
    clear h2 hne
    induction h with
    | nil => intro t ht; simp at ht
    | @cons t v rest values' htv _ ih =>
      intro x hx
      rcases List.mem_cons.1 hx with hx | hx
      · subst hx
        have he := ends_of_Trim x
        rw [htv.2.1] at he
        exact ⟨htv.1, he.1, he.2⟩
      · exact ih x hx
  obtain ⟨hb1, hb2, hb3⟩ := commaSeparated_ends tokens hne hends
  have htrim : Trim (commaSeparated tokens) = commaSeparated tokens :=
    Trim_eq_self _ hb2 hb3
  have hvalues : values.isEmpty = false := by
    cases h with
    | nil => exact absurd rfl hne
    | cons _ _ => rfl
  have hbody : (commaSeparated tokens).isEmpty = false := by
    cases hc : commaSeparated tokens with
    | nil => exact absurd hc hb1
    | cons y ys => rfl
  obtain ⟨stf, hl, htail⟩ := ParseArrayLoop_tokens (ParseValue stof) tokens values h2 hne []
    [] (by simp)
  rw [ParseValue_bracket, ParseArrayElements_bracket, htrim]
  simp only [hbody, Bool.false_eq_true, if_false, hl, htail, List.nil_append, hvalues]

theorem array_literal_composes_witness :
    ParseValue stofNearest "[1, [2, 3], \"a,b\"]".toList =
      .ok (.array [.int 1, .array [.int 2, .int 3], .string "a,b".toList]) :=
  array_literal_composes stofNearest ["1".toList, "[2, 3]".toList, "\"a,b\"".toList]
    [.int 1, .array [.int 2, .int 3], .string "a,b".toList] (by decide)
    (List.Forall₂.cons ⟨by decide, rfl, rfl, rfl⟩
      (List.Forall₂.cons ⟨by decide, rfl, rfl, rfl⟩
        (List.Forall₂.cons ⟨by decide, rfl, rfl, rfl⟩ List.Forall₂.nil)))

/-- C13: the scalar literals round-trip.  For every integer `n` of the signed 32-bit
range `ParseValue` classifies the decimal rendering of `n` as an Int whose `AsInt()` is
`n`; for every text `s` without a quote it classifies `s` between two quotes as a String
whose `AsString()` is `s`, so that `"true"` in quotes is a String and not a Bool; and
it classifies `true` as the Bool true and `false` as the Bool false. -/
theorem scalar_round_trip (stof : StofFn) :
    (∀ n : Int, -2147483648 ≤ n → n ≤ 2147483647 →
      ∃ v, ParseValue stof (decimal n) = .ok v ∧ v.IsInt = true ∧ v.AsInt = n) ∧
    (∀ s : Str, '"' ∉ s →
      ∃ v, ParseValue stof ('"' :: (s ++ ['"'])) = .ok v ∧ v.IsString = true ∧
        v.AsString = s) ∧
    (∃ v, ParseValue stof "\"true\"".toList = .ok v ∧ v.IsString = true ∧
      v.IsBool = false ∧ v.AsString = "true".toList) ∧
    (∃ v, ParseValue stof "true".toList = .ok v ∧ v.IsBool = true ∧ v.AsBool = true) ∧
    (∃ v, ParseValue stof "false".toList = .ok v ∧ v.IsBool = true ∧ v.AsBool = false) :=
  ⟨fun n hlo hhi => ⟨.int n, ParseValue_decimal stof n hlo hhi, rfl, rfl⟩,
    fun s hs => ⟨.string s, ParseValue_quoted stof s hs, rfl, rfl⟩,
    ⟨.string "true".toList, ParseValue_quoted stof "true".toList (by decide), rfl, rfl, rfl⟩,
    ⟨.bool true, rfl, rfl, rfl⟩, ⟨.bool false, rfl, rfl, rfl⟩⟩

theorem scalar_round_trip_witness :
    decimal (-2147483648) = "-2147483648".toList ∧
      ∃ v, ParseValue stofNearest (decimal (-2147483648)) = .ok v ∧ v.IsInt = true ∧
        v.AsInt = -2147483648 :=
  ⟨by decide, (scalar_round_trip stofNearest).1 (-2147483648) (by decide) (by decide)⟩

/-- C14: the number tests follow the grammar exactly.  `IsFloatValue` holds of a token
if and only if it is an optional `+` or `-`, one or more digits, a `.`, and one or more
digits; `IsIntValue` holds if and only if it is an optional sign and one or more
digits.  So `ParseValue` classifies `1.`, `.5`, `+`, `1.2.3`, `1e5` and `--1` as
Invalid, and no token passes both tests. -/
theorem number_tests_follow_grammar (stof : StofFn) :
    (∀ t, IsFloatValue t = true ↔ IsFloatLiteral t) ∧
    (∀ t, IsIntValue t = true ↔ IsIntLiteral t) ∧
    ParseValue stof "1.".toList = .ok .invalid ∧
    ParseValue stof ".5".toList = .ok .invalid ∧
    ParseValue stof "+".toList = .ok .invalid ∧
    ParseValue stof "1.2.3".toList = .ok .invalid ∧
    ParseValue stof "1e5".toList = .ok .invalid ∧
    ParseValue stof "--1".toList = .ok .invalid ∧
    (∀ t, ¬ (IsFloatValue t = true ∧ IsIntValue t = true)) :=
  ⟨IsFloatValue_iff, IsIntValue_iff, rfl, rfl, rfl, rfl, rfl, rfl, not_float_and_int⟩

theorem number_tests_follow_grammar_witness :
    IsFloatLiteral "-12.50".toList ∧ IsIntLiteral "+7".toList :=
  ⟨((number_tests_follow_grammar stofNearest).1 "-12.50".toList).1 rfl,
    ((number_tests_follow_grammar stofNearest).2.1 "+7".toList).1 rfl⟩

/-- C15: let the first line of a text that is not blank once its comment is removed
and it is trimmed hold an `=`, and let the text of that line before its first `=` be,
once trimmed, empty or hold a character that is not an ASCII letter, a digit, `-` or
`_`.  Then `parse` returns an invalid document.  And `IsValidKey(k)` holds if and only
if `k` is not empty and each of its characters is an ASCII letter, a digit, `-` or
`_`. -/
theorem invalid_key_rejected (stof : StofFn) :
    (∀ text pre rest L index, SplitLines text = pre ++ L :: rest →
      (∀ l ∈ pre, Trim (RemoveComment l) = []) →
      find '=' (Trim (RemoveComment L)) 0 = some index →
      (Trim ((Trim (RemoveComment L)).take index) = [] ∨
        ∃ c ∈ Trim ((Trim (RemoveComment L)).take index), ¬ KeyChar c) →
      ∃ config, parse stof text = .ok config ∧ config.valid = false) ∧
    (∀ k, IsValidKey k = true ↔ k ≠ [] ∧ ∀ c ∈ k, KeyChar c) := by
  refine ⟨?_, IsValidKey_iff⟩
  intro text pre rest L index htext hpre heq hkey
  refine ⟨⟨false, Value.CreateSection⟩, ?_, rfl⟩
  have hline : parseLine stof ParseState.initial L =
      .ok (.stop ⟨false, Value.CreateSection⟩) := by
    have hmem : '=' ∈ Trim (RemoveComment L) := mem_of_find '=' _ 0 index heq
    have hne : (Trim (RemoveComment L)).isEmpty = false := by
      cases hl : Trim (RemoveComment L) with
      | nil => rw [hl] at hmem; simp at hmem
      | cons x xs => rfl
    unfold parseLine
    simp only [hne, Bool.false_eq_true, if_false]
    by_cases hsec : IsSectionLine (Trim (RemoveComment L)) = true
    · rw [if_pos hsec, parseSectionLine_of_bad_char _ _ '=' hsec hmem (by decide) (by decide)
        (by decide) rfl]
      rfl
    · rw [if_neg hsec]
      simp only [heq]
      have hbad : (Trim (substr (Trim (RemoveComment L)) 0 index)).isEmpty = true ∨
          IsValidKey (Trim (substr (Trim (RemoveComment L)) 0 index)) = false := by
        rcases hkey with hk | ⟨c, hc, hcc⟩
        · left
          show (Trim ((Trim (RemoveComment L)).take index)).isEmpty = true
          rw [hk]
          rfl
        · right
          cases hv : IsValidKey (Trim (substr (Trim (RemoveComment L)) 0 index)) with
          | false => rfl
          | true => exact absurd (((IsValidKey_iff _).1 hv).2 c hc) hcc
      unfold parseKeyValueLine
      rw [if_pos hbad]
      rfl
  unfold parse parseLines
  rw [htext, parseLoop_of_stateAfter stof pre (L :: rest) _ _
    (stateAfter_blank stof pre _ hpre)]
  simp only [parseLoop, hline]

theorem invalid_key_rejected_witness :
    ∃ config, parse stofNearest "# keys\n\nkey@ = 1\nx = 2".toList = .ok config ∧
      config.valid = false :=
  (invalid_key_rejected stofNearest).1 "# keys\n\nkey@ = 1\nx = 2".toList
    ["# keys".toList, []] ["x = 2".toList] "key@ = 1".toList 5 rfl (by decide) rfl
    (Or.inr ⟨'@', by decide, by unfold KeyChar; decide⟩)

/-- C16: `RemoveComment(raw_line)` is the prefix of `raw_line` that ends just before the first
`#` with an even number of `"` before it, and the whole line when every `#` has an odd
number of `"` before it; a `#` with an odd number of `"` before it does not end the
prefix.  So `parse` on `k = "a#b" # note` returns a valid document in which `Get("k")`
is the string `a#b`. -/
theorem RemoveComment_cuts_at_first_mark (stof : StofFn) :
    (∀ (raw_line : Str) (i : Nat), raw_line[i]? = some '#' → (raw_line.take i).count '"' % 2 = 0 →
      (∀ j, j < i → raw_line[j]? = some '#' → (raw_line.take j).count '"' % 2 = 1) →
      RemoveComment raw_line = raw_line.take i) ∧
    (∀ raw_line : Str, (∀ j, raw_line[j]? = some '#' → (raw_line.take j).count '"' % 2 = 1) →
      RemoveComment raw_line = raw_line) ∧
    (∃ config, parse stof "k = \"a#b\" # note".toList = .ok config ∧ config.valid = true ∧
      config.Get "k".toList = .string "a#b".toList) :=
  ⟨fun raw_line i hi heven hfirst => RemoveCommentFrom_cut raw_line false i hi heven hfirst,
    fun raw_line hnone => RemoveCommentFrom_whole raw_line false hnone,
    ⟨⟨true, .sect [("k".toList, .string "a#b".toList)]⟩, rfl, rfl, rfl⟩⟩

theorem RemoveComment_cuts_at_first_mark_witness :
    RemoveComment "k = \"a#b\" # note # more".toList = "k = \"a#b\" ".toList :=
  (RemoveComment_cuts_at_first_mark stofNearest).1 "k = \"a#b\" # note # more".toList 10
    rfl (by decide) (by decide)

/-- C17: an array literal with a bad element is not always classified Invalid.  In
`[2147483648, @]` the segment `@` is Invalid, and in `[2147483648, [1]` the nesting
does not balance, yet `ParseValue` returns nothing on them: the first element passes
`IsIntValue`, and `std::stoi` throws on it before the loop reaches the rest.  That is
the only way out: when the nesting of the body of a token in brackets does not
balance, or a segment between top-level commas that is not blank is Invalid,
`ParseValue` returns Invalid or throws `std::out_of_range`, and never an Array. -/
theorem array_throws_before_bad_element (stof : StofFn) :
    (topSegments "2147483648, @".toList (0, false) [] =
        ["2147483648".toList, " @".toList] ∧
      ParseValue stof (Trim " @".toList) = .ok .invalid ∧
      ParseValue stof "[2147483648, @]".toList = .error .out_of_range) ∧
    (scanNesting "2147483648, [1".toList (0, false) = (1, false) ∧
      ParseValue stof "[2147483648, [1]".toList = .error .out_of_range) ∧
    (∀ body : Str,
      (scanNesting body (0, false) ≠ (0, false) ∨
        ∃ seg ∈ topSegments (Trim body) (0, false) [],
          Trim seg ≠ [] ∧ ParseValue stof (Trim seg) = .ok .invalid) →
      ParseValue stof ('[' :: (body ++ [']'])) = .ok .invalid ∨
        ParseValue stof ('[' :: (body ++ [']'])) = .error .out_of_range) :=
  ⟨⟨rfl, rfl, rfl⟩, ⟨rfl, rfl⟩, ParseValue_bad_array stof⟩

/-- C18: `ParseValue(t)` is the empty Array if and only if `t` is `[`, then spaces or
nothing, then `]`.  A bracket body made of commas and spaces, with a comma, is not
empty after trimming and gives no element: the token is Invalid, not the empty
array; so are `[,]` and `[ , , ]`. -/
theorem empty_array_iff (stof : StofFn) :
    (∀ t, ParseValue stof t = .ok (.array []) ↔
      ∃ spaces : Str, (∀ c ∈ spaces, c = ' ') ∧ t = '[' :: (spaces ++ [']'])) ∧
    (∀ body : Str, (∀ c ∈ body, c = ' ' ∨ c = ',') → ',' ∈ body →
      ParseValue stof ('[' :: (body ++ [']'])) = .ok .invalid) ∧
    ParseValue stof "[,]".toList = .ok .invalid ∧
    ParseValue stof "[ , , ]".toList = .ok .invalid := by
  refine ⟨?_, ParseValue_commas stof, rfl, rfl⟩
  intro t
  constructor
  · intro h
    obtain ⟨body, rfl⟩ := bracket_of_array stof t [] h
    refine ⟨body, spaces_of_Trim_eq_nil body ?_, rfl⟩
    rw [ParseValue_bracket] at h
    split at h
    · cases h
    · rename_i elements he
      by_cases h1 : elements.isEmpty = true
      · rw [if_pos h1] at h
        by_cases h2 : (Trim body).isEmpty = true
        · exact List.isEmpty_iff.1 h2
        · rw [if_neg h2] at h
          cases h
      · rw [if_neg h1] at h
        injection h with h
        injection h with h
        rw [h] at h1
        exact absurd rfl h1
  · rintro ⟨spaces, hspaces, rfl⟩
    exact ParseValue_blank_brackets stof spaces hspaces

theorem empty_array_iff_witness :
    ParseValue stofNearest "[   ]".toList = .ok (.array []) :=
  ((empty_array_iff stofNearest).1 "[   ]".toList).2 ⟨"   ".toList, by decide, rfl⟩

/-- C19: the root of a new `Config` is a Section, every line the loop of `parse` goes
past leaves a root that is a Section when it met one, and so the root of the `Config`
that `parse` returns, valid or not, is a Section on every text. -/
theorem root_is_section (stof : StofFn) (text : Str) (config : Config)
    (h : parse stof text = .ok config) :
    Config.new.GetRoot.IsSection = true ∧
      (∀ st st' raw_line, st.config.GetRoot.IsSection = true →
        parseLine stof st raw_line = .ok (.proceed st') →
        st'.config.GetRoot.IsSection = true) ∧
      config.GetRoot.IsSection = true := by
  refine ⟨rfl, ?_, parseLoop_IsSection stof _ _ config h rfl⟩
  intro st st' raw_line hst hline
  have hloop : parseLoop stof [raw_line] st = .ok st'.config := by
    simp only [parseLoop, hline]
  exact parseLoop_IsSection stof _ _ _ hloop hst

theorem root_is_section_witness :
    parse stofNearest "[a.b]\nk = 1\nk = 2".toList =
        .ok ⟨false, .sect [("a".toList, .sect [("b".toList,
          .sect [("k".toList, .int 1)])])]⟩ ∧
      Value.IsSection (.sect [("a".toList, .sect [("b".toList,
          .sect [("k".toList, .int 1)])])]) = true :=
  ⟨rfl, (root_is_section stofNearest "[a.b]\nk = 1\nk = 2".toList _ rfl).2.2⟩

/-- C20: no Invalid value is stored.  On every text on which `parse` returns, no value
held in the root of the returned `Config`, as the value of an entry of a section or as
an element of an array at any depth, is Invalid; no value held in an array that
`ParseValue` returns is Invalid.  So when `Get` on a valid document returns Invalid, no
node stands at the path, and when indexing an array that `ParseValue` returned gives
Invalid, the index is out of bounds. -/
theorem no_invalid_stored (stof : StofFn) :
    (∀ text config w, parse stof text = .ok config → Inside w config.GetRoot →
      w.IsInvalid = false) ∧
    (∀ token xs w, ParseValue stof token = .ok (.array xs) → Inside w (.array xs) →
      w.IsInvalid = false) ∧
    (∀ text config path, parse stof text = .ok config → config.valid = true →
      config.Get path = .invalid → lookup (SplitPath path) config.GetRoot = none ∨
        SplitPath path = []) ∧
    (∀ token xs index, ParseValue stof token = .ok (.array xs) →
      (Value.array xs).index index = .invalid → xs.length ≤ index) := by
  have hroot : ∀ text config, parse stof text = .ok config → Sound config.root_ :=
    fun text config h => parseLoop_sound stof _ _ config h Sound.ofCreateSection
  refine ⟨?_, ?_, ?_, ?_⟩
  · intro text config w h hin
    exact (Sound.ofInside hin (hroot text config h)).not_invalid
  · intro token xs w h hin
    exact (Sound.ofInside hin (ParseValue_sound stof token _ h rfl)).not_invalid
  · intro text config path h hvalid hget
    by_cases hparts : SplitPath path = []
    · exact Or.inr hparts
    · left
      have hv : config.valid_ = true := hvalid
      simp only [Config.Get, hv, Bool.not_true, Bool.false_eq_true, if_false] at hget
      rw [GetParts_eq_lookup _ _ hparts] at hget
      cases hl : lookup (SplitPath path) config.root_ with
      | none => exact hl
      | some x =>
        rw [hl] at hget
        simp only [Option.getD_some] at hget
        have hx := (Sound.ofLookup _ _ x (hroot text config h) hl).not_invalid
        rw [hget] at hx
        cases hx
  · intro token xs index h hidx
    by_contra hlt
    rw [not_le] at hlt
    have hs : Sound (xs.get ⟨index, hlt⟩) := by
      have hsound := ParseValue_sound stof token _ h rfl
      cases hsound with
      | array _ hxs => exact hxs _ (List.get_mem _ _ _)
    simp only [Value.index, hlt, dif_pos] at hidx
    have hx := hs.not_invalid
    rw [hidx] at hx
    cases hx

theorem no_invalid_stored_witness :
    parse stofNearest "[s]\nk = [1, [true]]".toList =
        .ok ⟨true, .sect [("s".toList, .sect [("k".toList,
          .array [.int 1, .array [.bool true]])])]⟩ ∧
      Value.IsInvalid (.bool true) = false :=
  ⟨rfl, (no_invalid_stored stofNearest).1 "[s]\nk = [1, [true]]".toList _ (.bool true) rfl
    (Inside.deeper _ _ _ (Inside.element [.bool true] _ (List.mem_singleton.2 rfl))
      (Inside.deeper _ (.array [.int 1, .array [.bool true]]) _
        (Inside.element _ _ (List.mem_cons_of_mem _ (List.mem_singleton.2 rfl)))
        (Inside.deeper _ (.sect [("k".toList, .array [.int 1, .array [.bool true]])]) _
          (Inside.child _ "k".toList _ (List.mem_singleton.2 rfl))
          (Inside.child _ "s".toList _ (List.mem_singleton.2 rfl)))))⟩

end omfl
